import Mathlib

/-!
Frequent-itemset enumeration of `SimplicialComplex.cpp`.

A shallow embedding of the class `SimplicialComplex` (one source file,
`src/SimplicialComplex.cpp`) and theorems about it.

Modelling conventions.

* `std::map<int, std::vector<int>>` is an association list that a well-formed
  map keeps in strictly ascending key order (`KeysAscending`); iteration visits
  the list front to back.
* Item ids are `Int`; row numbers, vector sizes and the two cursors are `Nat`
  (they start at zero and only grow). `support` and `minSupp` are `Int`, compared
  as signed numbers, except in the pruning test of `firstStep`, where the source
  compares a `size_t` with an `int` and the `int` is therefore read modulo `2^64`.
* Every vector subscript and every `map::at` is checked: a read outside the
  vector, or a missing key, makes the function return `none`.
* The loop of `run` is unfolded by a step counter (`stepN`) or run on fuel
  (`runLoop`); `none` from `runLoop` means a failed read or exhausted fuel, so
  results about completed runs are always stated as `runLoop fuel s = some s'`.
-/

/-- The data members of the class (lines 45-53), timing fields left out. -/
structure SimplicialComplex where
  points : List (Int × List Nat)
  frequencyOfPoints : List (List Int × Int)
  simplicialComplexes : List (List Int × Int)
  cones : List (List Nat)
  sortedPoints : List Int
  cone : List Int
  minSupp : Int
  support : Int
  count : Nat
  positionInOne : Nat
  isDone : Bool
deriving DecidableEq, Repr

namespace SimplicialComplex

/-- The constructor (lines 62-66): `count = 2`, `minSupp = 1`, `isDone = false`; the
containers start empty. `support` and `positionInOne` are not set by the constructor
and are written before they are read; they are given the value `0` here. -/
def init : SimplicialComplex :=
  { points := [], frequencyOfPoints := [], simplicialComplexes := [], cones := [],
    sortedPoints := [], cone := [], minSupp := 1, support := 0, count := 2,
    positionInOne := 0, isDone := false }

/-- The lookup `points.at(key)`: `none` stands for the `std::out_of_range` exception. -/
def mapAt : List (Int × List Nat) → Int → Option (List Nat)
  | [], _ => none
  | (k, v) :: rest, key => if k = key then some v else mapAt rest key

/-- Insertion of a fresh key at its place in the ascending key order. -/
def mapInsert : List (Int × List Nat) → Int → List Nat → List (Int × List Nat)
  | [], key, v => [(key, v)]
  | (k, w) :: rest, key, v =>
    if key < k then (key, v) :: (k, w) :: rest else (k, w) :: mapInsert rest key v

/-- The statement `points[point].push_back(numRow)` (line 90): the key is created
with an empty vector when it is absent, then the row number is appended. -/
def pushBack : List (Int × List Nat) → Int → Nat → List (Int × List Nat)
  | [], point, numRow => [(point, [numRow])]
  | (k, v) :: rest, point, numRow =>
    if point < k then (point, [numRow]) :: (k, v) :: rest
    else if point = k then (k, v ++ [numRow]) :: rest
    else (k, v) :: pushBack rest point numRow

/-- The read `points[key]` (line 123): returns the updated map and the value; an
absent key is inserted with an empty vector. -/
def subscript (points : List (Int × List Nat)) (key : Int) :
    List (Int × List Nat) × List Nat :=
  match mapAt points key with
  | some v => (points, v)
  | none => (mapInsert points key [], [])

/-- The inner loop `while (reader >> point) points[point].push_back(numRow)`
(lines 89-90) over the items of one row. -/
def readRow (points : List (Int × List Nat)) (numRow : Nat) :
    List Int → List (Int × List Nat)
  | [] => points
  | point :: rest => readRow (pushBack points point numRow) numRow rest

/-- The outer loop of `readFile` (lines 85-91) from row number `numRow` on. Each row
is given without its leading row-length value, which line 87 reads and drops. -/
def readRows (points : List (Int × List Nat)) (numRow : Nat) :
    List (List Int) → List (Int × List Nat)
  | [] => points
  | row :: rows => readRows (readRow points numRow row) (numRow + 1) rows

/-- The function `readFile` (lines 76-96) on the rows of the data file. -/
def readFile (s : SimplicialComplex) (rows : List (List Int)) : SimplicialComplex :=
  { s with points := readRows s.points 0 rows }

/-- The test `point.second.size() > minSupp` (line 103): the left side is a `size_t`,
so the `int` on the right is converted to an unsigned 64-bit value first. -/
def sizeExceeds (size : Nat) (minSupp : Int) : Bool :=
  decide ((minSupp % 2 ^ 64).toNat < size)

/-- The pruning loop (lines 102-106) over the map in key order. -/
def prune (minSupp : Int) : List (Int × List Nat) → List (List Int × Int)
  | [] => []
  | (k, v) :: rest =>
    if sizeExceeds v.length minSupp then ([k], (v.length : Int)) :: prune minSupp rest
    else prune minSupp rest

/-- The comparator `customCompare` (lines 109-114). -/
def customCompare (a b : List Int × Int) : Bool := decide (a.2 > b.2)

/-- One insertion of the sort: `val` is placed in front of the first entry that
`customCompare` puts after it. -/
def linearInsert (val : List Int × Int) : List (List Int × Int) → List (List Int × Int)
  | [] => [val]
  | x :: rest => if customCompare val x then val :: x :: rest else x :: linearInsert val rest

/-- The call `sort(frequencyOfPoints.begin(), frequencyOfPoints.end(), customCompare)`
(line 116). `std::sort` leaves the relative order of entries with equal counts open;
the model is the insertion sort, which keeps such entries in their incoming order. -/
def sort (l : List (List Int × Int)) : List (List Int × Int) :=
  l.foldl (fun acc val => linearInsert val acc) []

/-- The loop of lines 118-119: `sortedPoints.push_back(frequencyOfPoints[i].first[0])`. -/
def pushFirsts (sortedPoints : List Int) : List (List Int × Int) → Option (List Int)
  | [] => some sortedPoints
  | p :: rest =>
    match p.1[0]? with
    | none => none
    | some x => pushFirsts (sortedPoints ++ [x]) rest

/-- Lines 102-119 of `firstStep`: pruning, sorting and the Rank Order `sortedPoints`. -/
def rankPoints (s : SimplicialComplex) : Option SimplicialComplex :=
  let frequencyOfPoints := sort (s.frequencyOfPoints ++ prune s.minSupp s.points)
  match pushFirsts s.sortedPoints frequencyOfPoints with
  | none => none
  | some sortedPoints =>
    some { s with frequencyOfPoints := frequencyOfPoints, sortedPoints := sortedPoints }

/-- Lines 121-124 of `firstStep`: the first zero-dimensional simplex. -/
def zeroSimplex (s : SimplicialComplex) : Option SimplicialComplex :=
  match s.sortedPoints[0]? with
  | none => none
  | some p =>
    let r := subscript s.points p
    some { s with cone := [p], points := r.1, cones := s.cones ++ [r.2], positionInOne := 0 }

/-- The function `firstStep` (lines 99-125). -/
def firstStep (s : SimplicialComplex) : Option SimplicialComplex :=
  (rankPoints s).bind zeroSimplex

/-- The walk of `std::set_intersection` while the first range stands at the element
`a`: `next` is the walk from the element after `a` on. -/
def setIntersectionFrom (a : Nat) (next : List Nat → List Nat) : List Nat → List Nat
  | [] => []
  | b :: bs =>
    if a < b then next (b :: bs)
    else if b < a then setIntersectionFrom a next bs
    else a :: next bs

/-- The algorithm `std::set_intersection(first1, last1, first2, last2, out)`: one
simultaneous walk over the two ranges, which ends when either range is used up. An
element of the first range is skipped when it is smaller, an element of the second
range is skipped when it is smaller, and an element found in both is written once
while both ranges move on. -/
def setIntersection : List Nat → List Nat → List Nat
  | [], _ => []
  | a :: as, l₂ => setIntersectionFrom a (setIntersection as) l₂

/-- The loop of `countFreq` (lines 135-140) over the vectors `cones[i]`, `i ≥ 1`,
still to be visited; it stops as soon as `simplex` is empty. -/
def intersectLoop : List (List Nat) → List Nat → List Nat
  | [], simplex => simplex
  | c :: rest, simplex =>
    if simplex.length > 0 then intersectLoop rest (setIntersection c simplex) else simplex

/-- The function `countFreq` (lines 128-143). Line 142 reads `support = base.size()`
although no `base` is declared in the file; it is taken to be the local `simplex`,
the only vector the function has computed. -/
def countFreq (s : SimplicialComplex) : Option SimplicialComplex :=
  match s.cones[0]? with
  | none => none
  | some c0 => some { s with support := ((intersectLoop (s.cones.drop 1) c0).length : Int) }

/-- The branch of lines 165-167 (Extend). -/
def extend (s : SimplicialComplex) : Option SimplicialComplex :=
  let positionInOne := s.positionInOne + 1
  match s.sortedPoints[positionInOne]? with
  | none => none
  | some p =>
    match mapAt s.points p with
    | none => none
    | some l =>
      some { s with positionInOne := positionInOne, cone := s.cone ++ [p],
                    cones := s.cones ++ [l] }

/-- The branch of lines 173-186 (Reseed-sibling). -/
def reseedSibling (s : SimplicialComplex) (currentPoint : Int) : Option SimplicialComplex :=
  let nextPoint := s.sortedPoints.indexOf currentPoint + s.count
  match s.sortedPoints[nextPoint]? with
  | none => none
  | some q =>
    match mapAt s.points currentPoint, mapAt s.points q with
    | some l0, some l1 =>
      some { s with count := s.count + 1, positionInOne := nextPoint,
                    cone := [currentPoint, q], cones := [l0, l1] }
    | _, _ => none

/-- The branch of lines 190-201 (Reseed-base). -/
def reseedBase (s : SimplicialComplex) (currentPoint : Int) : Option SimplicialComplex :=
  let point := s.sortedPoints.indexOf currentPoint + 1
  match s.sortedPoints[point]? with
  | none => none
  | some p =>
    match mapAt s.points p with
    | none => none
    | some l =>
      some { s with count := 2, positionInOne := point, cone := [p], cones := [l] }

/-- Lines 156-157 of `createCone`: the cone is appended to the results when
`support >= minSupp`. -/
def accept (s : SimplicialComplex) : SimplicialComplex :=
  if s.support ≥ s.minSupp then
    { s with simplicialComplexes := s.simplicialComplexes ++ [(s.cone, s.support)] }
  else s

/-- Lines 160-202 of `createCone`: the four-way choice of the next cone. -/
def nextCone (s : SimplicialComplex) : Option SimplicialComplex :=
  match s.cone[0]?, s.sortedPoints[s.sortedPoints.length - 1]? with
  | some c0, some last =>
    if c0 = last then some { s with isDone := true }
    else if s.support > s.minSupp ∧ s.cone[s.cone.length - 1]? ≠ some last then extend s
    else if s.support ≤ s.minSupp ∧ s.cone.length > 1 ∧ s.cone[1]? ≠ some last then
      reseedSibling s c0
    else reseedBase s c0
  | _, _ => none

/-- The function `createCone` (lines 153-203). -/
def createCone (s : SimplicialComplex) : Option SimplicialComplex :=
  nextCone (accept s)

/-- The body of the loop of `run` (lines 237-238). -/
def step (s : SimplicialComplex) : Option SimplicialComplex :=
  (countFreq s).bind createCone

/-- The state after exactly `k` passes through the loop `while (!isDone)` (line 236);
`none` when a pass fails or the loop has already been left. -/
def stepN : Nat → SimplicialComplex → Option SimplicialComplex
  | 0, s => some s
  | k + 1, s => if s.isDone then none else (step s).bind (stepN k)

/-- The loop `while (!isDone) { countFreq(); createCone(); }` (lines 236-239) run for
at most `fuel` passes. -/
def runLoop : Nat → SimplicialComplex → Option SimplicialComplex
  | 0, s => if s.isDone then some s else none
  | fuel + 1, s => if s.isDone then some s else (step s).bind (runLoop fuel)

/-- The algorithmic part of `run` (lines 233-239) on the rows of the data file. -/
def run (s : SimplicialComplex) (rows : List (List Int)) (fuel : Nat) :
    Option SimplicialComplex :=
  (firstStep (readFile s rows)).bind (runLoop fuel)

/-! ## Notions used in the statements and proofs -/

/-- The set of transactions that occur in every list of a stack of posting lists. -/
def commonTransactions : List (List Nat) → Finset Nat
  | [] => ∅
  | c :: rest => rest.foldl (fun acc l => acc ∩ l.toFinset) c.toFinset

/-- A posting list is strictly ascending: sorted, no transaction id repeated. -/
def StrictAsc (l : List Nat) : Prop := l.Sorted (· < ·)

instance (l : List Nat) : Decidable (StrictAsc l) := by
  unfold StrictAsc; infer_instance

/-- The keys of a well-formed `std::map` are strictly ascending. -/
def KeysAscending (points : List (Int × List Nat)) : Prop :=
  (points.map Prod.fst).Sorted (· < ·)

instance (points : List (Int × List Nat)) : Decidable (KeysAscending points) := by
  unfold KeysAscending; infer_instance

/-- The posting list of an item, empty when the item has no entry. -/
def posting (points : List (Int × List Nat)) (i : Int) : List Nat :=
  (mapAt points i).getD []

/-- The row numbers, counted from `numRow`, at which item `i` occurs in `rows`, one
entry per occurrence. -/
def occurrences (i : Int) (numRow : Nat) : List (List Int) → List Nat
  | [] => []
  | row :: rows => List.replicate (row.count i) numRow ++ occurrences i (numRow + 1) rows

/-- The entry that the pruning loop makes for a map entry. -/
def pruneEntry (kv : Int × List Nat) : List Int × Int := ([kv.1], (kv.2.length : Int))

/-- Entries in non-increasing order of their counts. -/
def Descending (l : List (List Int × Int)) : Prop :=
  l.Pairwise (fun a b => b.2 ≤ a.2)

/-- The items that pass the pruning test, in key order. -/
def survivors (minSupp : Int) (m : List (Int × List Nat)) : List (Int × List Nat) :=
  m.filter (fun kv => sizeExceeds kv.2.length minSupp)

/-- The Rank Order that `firstStep` computes from a map and a threshold. -/
def rankOrder (minSupp : Int) (m : List (Int × List Nat)) : List Int :=
  (sort (prune minSupp m)).map (fun p => p.1.headI)

/-- The stack `L` holds the posting lists of exactly the items of `itemset`, in order. -/
def PostingLists (points : List (Int × List Nat)) (itemset : List Int)
    (L : List (List Nat)) : Prop :=
  List.Forall₂ (fun x l => mapAt points x = some l) itemset L

/-- Pairwise `set_intersection` folded across a stack, left to right. -/
def interFold : List (List Nat) → List Nat
  | [] => []
  | c :: rest => rest.foldl (fun simplex l => setIntersection l simplex) c

/-- The stack `cones` is parallel to `cone`. -/
def Parallel (s : SimplicialComplex) : Prop := PostingLists s.points s.cone s.cones

/-- What a result entry has to satisfy. -/
def EntryCorrect (points : List (Int × List Nat)) (minSupp : Int) (e : List Int × Int) :
    Prop :=
  minSupp ≤ e.2 ∧ ∃ L, PostingLists points e.1 L ∧ L ≠ [] ∧ e.2 = ((interFold L).length : Int)

/-- The parts of the state that the loop never writes. -/
def SameEnv (s s' : SimplicialComplex) : Prop :=
  s'.points = s.points ∧ s'.sortedPoints = s.sortedPoints ∧ s'.minSupp = s.minSupp

/-- The invariant behind acceptance correctness: the stack is parallel to the cone, the
cone is made of ranked items, and every result entry is correct and made of ranked
items. -/
def Sound (s : SimplicialComplex) : Prop :=
  Parallel s ∧ (∀ x ∈ s.cone, x ∈ s.sortedPoints) ∧
    ∀ e ∈ s.simplicialComplexes,
      EntryCorrect s.points s.minSupp e ∧ ∀ x ∈ e.1, x ∈ s.sortedPoints

/-- The cone with base position `b`, sibling position `sib` and cursor `pos`: the base
item followed by the items at the positions `sib, ..., pos` of the Rank Order (by none
when `sib = pos + 1`). -/
def coneAt (r : List Int) (b sib pos : Nat) : List Int :=
  r[b]?.toList ++ (r.take (pos + 1)).drop sib

/-- The form of a state of the loop. The base item is at position `b` of the Rank
Order; the cone's second item, if there is one, is at position `sib`; the cone's last
item is at the cursor `positionInOne`; the skip counter is `sib - b + 1`. A cone of
one item has `sib = b + 1` and the cursor at `b`. -/
structure Shape (s : SimplicialComplex) (b sib : Nat) : Prop where
  nodup : s.sortedPoints.Nodup
  indexed : ∀ x ∈ s.sortedPoints, ∃ l, mapAt s.points x = some l
  base_lt : b < sib
  sib_le : sib ≤ s.positionInOne + 1
  single : s.positionInOne + 1 = sib → sib = b + 1
  pos_lt : s.positionInOne < s.sortedPoints.length
  count_eq : s.count = sib - b + 1
  cone_eq : s.cone = coneAt s.sortedPoints b sib s.positionInOne
  parallel : Parallel s

/-- The number that every pass of the loop makes smaller: the positions still ahead of
the base, of the second item and of the cursor, as the digits of a number in base `n`. -/
def potential (n b sib pos : Nat) : Nat :=
  1 + (n - 1 - pos) + n * (n - sib) + n * n * (n - 1 - b)

/-- The state of the worked example after three passes of the loop. -/
def stateAfterThree : SimplicialComplex :=
  { points := [(1, [0, 1, 3]), (2, [0, 1, 2]), (3, [0, 2, 3])],
    frequencyOfPoints := [([1], 3), ([2], 3), ([3], 3)],
    simplicialComplexes := [([1], 3), ([1, 2], 2), ([1, 2, 3], 1)],
    cones := [[0, 1, 3], [0, 2, 3]],
    sortedPoints := [1, 2, 3],
    cone := [1, 3],
    minSupp := 1,
    support := 1,
    count := 3,
    positionInOne := 2,
    isDone := false }

/-- The number of rows that contain every item of an itemset. -/
def trueSupport (rows : List (List Int)) (itemset : List Int) : Nat :=
  (rows.filter (fun row => itemset.all (fun x => decide (x ∈ row)))).length

/-- The state in which the run on the table `[[1,2,3],[1,2,3]]` ends. -/
def stateTwoFullRows : SimplicialComplex :=
  { points := [(1, [0, 1]), (2, [0, 1]), (3, [0, 1])],
    frequencyOfPoints := [([1], 2), ([2], 2), ([3], 2)],
    simplicialComplexes :=
      [([1], 2), ([1, 2], 2), ([1, 2, 3], 2), ([2], 2), ([2, 3], 2), ([3], 2)],
    cones := [[0, 1]],
    sortedPoints := [1, 2, 3],
    cone := [3],
    minSupp := 1,
    support := 2,
    count := 2,
    positionInOne := 2,
    isDone := true }

/-- The four branches of the if-chain of `createCone` (lines 160-202). -/
inductive Branch where
  | terminal
  | extend
  | reseedSibling
  | reseedBase
deriving DecidableEq, Repr

/-- The branch of the if-chain of lines 160-202 that a state takes: the conditions of
`nextCone`, tested in the same order. -/
def branch (s : SimplicialComplex) : Option Branch :=
  match s.cone[0]?, s.sortedPoints[s.sortedPoints.length - 1]? with
  | some c0, some last =>
    if c0 = last then some Branch.terminal
    else if s.support > s.minSupp ∧ s.cone[s.cone.length - 1]? ≠ some last then
      some Branch.extend
    else if s.support ≤ s.minSupp ∧ s.cone.length > 1 ∧ s.cone[1]? ≠ some last then
      some Branch.reseedSibling
    else some Branch.reseedBase
  | _, _ => none

/-- The assignments of a branch of `createCone`. -/
def applyBranch (s : SimplicialComplex) : Branch → Option SimplicialComplex
  | Branch.terminal => some { s with isDone := true }
  | Branch.extend => extend s
  | Branch.reseedSibling => (s.cone[0]?).bind (reseedSibling s)
  | Branch.reseedBase => (s.cone[0]?).bind (reseedBase s)

/-- The rank index of the base item: the value of
`std::find(sortedPoints.begin(), sortedPoints.end(), cone[0]) - sortedPoints.begin()`
(lines 174 and 190). -/
def basePosition (s : SimplicialComplex) : Option Nat :=
  (s.cone[0]?).map (fun c0 => s.sortedPoints.indexOf c0)

/-- The state in which the loop starts for an index, a Rank Order and a threshold: the
constructor's state holding these three, after lines 121-124 of `firstStep`. -/
def start (points : List (Int × List Nat)) (sortedPoints : List Int) (minSupp : Int) :
    Option SimplicialComplex :=
  zeroSimplex { init with points := points, sortedPoints := sortedPoints, minSupp := minSupp }

/-- The state after `k` passes of the loop from `start`. -/
def reach (points : List (Int × List Nat)) (sortedPoints : List Int) (minSupp : Int)
    (k : Nat) : Option SimplicialComplex :=
  (start points sortedPoints minSupp).bind (stepN k)

/-- The state of the worked example after three passes of the loop started on the Rank
Order `[1,2,3]`. -/
def stateSibling : SimplicialComplex :=
  { stateAfterThree with frequencyOfPoints := [] }

/-- The list `c` is the cone with base position `b`, sibling position `sib` and cursor
`pos` over the Rank Order `r`. -/
def ValidCone (r : List Int) (c : List Int) (b sib pos : Nat) : Prop :=
  b < sib ∧ sib ≤ pos + 1 ∧ (pos + 1 = sib → sib = b + 1) ∧ pos < r.length ∧
    c = coneAt r b sib pos

/-- The potential of a cone, read off its first item, its last item and its length. -/
def conePotential (r : List Int) (cone : List Int) : Nat :=
  potential r.length (r.indexOf ((cone[0]?).getD 0))
    (r.indexOf ((cone[cone.length - 1]?).getD 0) + 2 - cone.length)
    (r.indexOf ((cone[cone.length - 1]?).getD 0))

/-- The form of a tested cone: a single ranked item, or a ranked item followed by a run
of consecutive later positions of the Rank Order. -/
def ConeForm (r : List Int) (c : List Int) : Prop :=
  ∃ b x, r[b]? = some x ∧
    (c = [x] ∨ ∃ sib j, b < sib ∧ sib + j < r.length ∧ c = x :: ((r.drop sib).take (j + 1)))

/-- What the results so far have to do with the current state: every result is a cone
of the Rank Order, the potentials of the results fall strictly in the order of
emission, and while the loop runs they all exceed the potential of the current state. -/
def Trace (s : SimplicialComplex) (b sib : Nat) : Prop :=
  (∀ e ∈ s.simplicialComplexes, ∃ b' sib' pos', ValidCone s.sortedPoints e.1 b' sib' pos') ∧
    (s.simplicialComplexes.map (fun e => conePotential s.sortedPoints e.1)).Sorted (· > ·) ∧
    (s.isDone = false → ∀ e ∈ s.simplicialComplexes,
      conePotential s.sortedPoints e.1 >
        potential s.sortedPoints.length b sib s.positionInOne)

/-- The results that are one-item itemsets, in the order of emission. -/
def singles (results : List (List Int × Int)) : List (List Int × Int) :=
  results.filter (fun e => decide (e.1.length = 1))

/-- The result entry of the one-item itemset of `x`: the item and the length of its
posting list. -/
def singleEntry (points : List (Int × List Nat)) (x : Int) : List Int × Int :=
  ([x], ((posting points x).length : Int))

/-- The one-item results so far are the singletons of the first ranked items, in rank
order, up to the base position (the base item included once its singleton has been
tested); the first result is the singleton of the first ranked item; once the loop is
left the last result is the singleton of the last ranked item. -/
def SinglesInv (s : SimplicialComplex) (b sib : Nat) : Prop :=
  singles s.simplicialComplexes =
      (s.sortedPoints.take
        (if s.isDone then s.sortedPoints.length
         else if sib = s.positionInOne + 1 then b else b + 1)).map (singleEntry s.points) ∧
    (s.simplicialComplexes.head? = none ∨
      s.simplicialComplexes.head? = (s.sortedPoints.head?).map (singleEntry s.points)) ∧
    (s.isDone = true →
      s.simplicialComplexes.getLast? = (s.sortedPoints.getLast?).map (singleEntry s.points))

/-- The state of the worked example after `firstStep`. -/
def stateFirst : SimplicialComplex :=
  { init with points := [(1, [0, 1, 3]), (2, [0, 1, 2]), (3, [0, 2, 3])],
              minSupp := 1,
              frequencyOfPoints := [([1], 3), ([2], 3), ([3], 3)],
              sortedPoints := [1, 2, 3],
              cone := [1],
              cones := [[0, 1, 3]] }

/-! ## The support counter -/

theorem setIntersection_nil_left (b : List Nat) : setIntersection [] b = [] := rfl

theorem setIntersection_nil_right (a : List Nat) : setIntersection a [] = [] := by
  cases a <;> rfl

theorem setIntersection_cons_cons (a b : Nat) (as bs : List Nat) :
    setIntersection (a :: as) (b :: bs) =
      if a < b then setIntersection as (b :: bs)
      else if b < a then setIntersection (a :: as) bs
      else a :: setIntersection as bs := rfl

/-- Induction along the walk of `setIntersection`. -/
theorem setIntersection_induct (motive : List Nat → List Nat → Prop)
    (case1 : ∀ b, motive [] b)
    (case2 : ∀ a as, motive (a :: as) [])
    (case3 : ∀ a as b bs, a < b → motive as (b :: bs) → motive (a :: as) (b :: bs))
    (case4 : ∀ a as b bs, ¬ a < b → b < a → motive (a :: as) bs → motive (a :: as) (b :: bs))
    (case5 : ∀ a as b bs, ¬ a < b → ¬ b < a → motive as bs → motive (a :: as) (b :: bs))
    (l₁ l₂ : List Nat) : motive l₁ l₂ := by
  induction l₁ generalizing l₂ with
  | nil => exact case1 l₂
  | cons a as iha =>
    induction l₂ with
    | nil => exact case2 a as
    | cons b bs ihb =>
      by_cases h1 : a < b
      · exact case3 a as b bs h1 (iha _)
      · by_cases h2 : b < a
        · exact case4 a as b bs h1 h2 ihb
        · exact case5 a as b bs h1 h2 (iha _)

theorem setIntersection_sublist_left (a b : List Nat) : (setIntersection a b).Sublist a := by
  induction a, b using setIntersection_induct with
  | case1 b => simp [setIntersection]
  | case2 a as => simp [setIntersection_nil_right]
  | case3 a as b bs h ih =>
    rw [setIntersection_cons_cons, if_pos h]
    exact ih.trans (List.sublist_cons_self a as)
  | case4 a as b bs h1 h2 ih =>
    rw [setIntersection_cons_cons, if_neg h1, if_pos h2]
    exact ih
  | case5 a as b bs h1 h2 ih =>
    rw [setIntersection_cons_cons, if_neg h1, if_neg h2]
    exact ih.cons₂ a

theorem setIntersection_sublist_right (a b : List Nat) : (setIntersection a b).Sublist b := by
  induction a, b using setIntersection_induct with
  | case1 b => simp [setIntersection]
  | case2 a as => simp [setIntersection_nil_right]
  | case3 a as b bs h ih =>
    rw [setIntersection_cons_cons, if_pos h]
    exact ih
  | case4 a as b bs h1 h2 ih =>
    rw [setIntersection_cons_cons, if_neg h1, if_pos h2]
    exact ih.trans (List.sublist_cons_self b bs)
  | case5 a as b bs h1 h2 ih =>
    rw [setIntersection_cons_cons, if_neg h1, if_neg h2]
    have hab : a = b := by omega
    subst hab
    exact ih.cons₂ a

theorem mem_setIntersection (a b : List Nat) (ha : StrictAsc a) (hb : StrictAsc b) (x : Nat) :
    x ∈ setIntersection a b ↔ x ∈ a ∧ x ∈ b := by
  unfold StrictAsc at ha hb
  induction a, b using setIntersection_induct with
  | case1 b => simp [setIntersection]
  | case2 a as => simp [setIntersection_nil_right]
  | case3 a as b bs h ih =>
    rw [setIntersection_cons_cons, if_pos h, ih (List.Sorted.of_cons ha) hb]
    have hb1 := List.rel_of_sorted_cons hb
    constructor
    · rintro ⟨h1, h2⟩
      exact ⟨List.mem_cons_of_mem _ h1, h2⟩
    · rintro ⟨h1, h2⟩
      refine ⟨?_, h2⟩
      rcases List.mem_cons.1 h1 with h1 | h1
      · exfalso
        subst h1
        rcases List.mem_cons.1 h2 with h2 | h2
        · omega
        · have := hb1 _ h2; omega
      · exact h1
  | case4 a as b bs h1 h2 ih =>
    rw [setIntersection_cons_cons, if_neg h1, if_pos h2, ih ha (List.Sorted.of_cons hb)]
    have ha1 := List.rel_of_sorted_cons ha
    constructor
    · rintro ⟨h3, h4⟩
      exact ⟨h3, List.mem_cons_of_mem _ h4⟩
    · rintro ⟨h3, h4⟩
      refine ⟨h3, ?_⟩
      rcases List.mem_cons.1 h4 with h4 | h4
      · exfalso
        subst h4
        rcases List.mem_cons.1 h3 with h3 | h3
        · omega
        · have := ha1 _ h3; omega
      · exact h4
  | case5 a as b bs h1 h2 ih =>
    rw [setIntersection_cons_cons, if_neg h1, if_neg h2]
    have hab : a = b := by omega
    subst hab
    have ha1 := List.rel_of_sorted_cons ha
    have hb1 := List.rel_of_sorted_cons hb
    simp only [List.mem_cons, ih (List.Sorted.of_cons ha) (List.Sorted.of_cons hb)]
    constructor
    · rintro (h | ⟨h3, h4⟩)
      · exact ⟨Or.inl h, Or.inl h⟩
      · exact ⟨Or.inr h3, Or.inr h4⟩
    · rintro ⟨h3 | h3, h4 | h4⟩
      · exact Or.inl h3
      · exact Or.inl h3
      · exact Or.inl h4
      · exact Or.inr ⟨h3, h4⟩

theorem strictAsc_setIntersection (a b : List Nat) (ha : StrictAsc a) :
    StrictAsc (setIntersection a b) :=
  List.Pairwise.sublist (setIntersection_sublist_left a b) ha

theorem intersectLoop_length_le (rest : List (List Nat)) (simplex : List Nat) :
    (intersectLoop rest simplex).length ≤ simplex.length := by
  induction rest generalizing simplex with
  | nil => simp [intersectLoop]
  | cons c rest ih =>
    rw [intersectLoop]
    split
    · exact (ih _).trans (setIntersection_sublist_right c simplex).length_le
    · exact le_rfl

theorem intersectLoop_append (l m : List (List Nat)) (simplex : List Nat) :
    intersectLoop (l ++ m) simplex = intersectLoop m (intersectLoop l simplex) := by
  induction l generalizing simplex with
  | nil => simp [intersectLoop]
  | cons c l ih =>
    rw [List.cons_append, intersectLoop, intersectLoop]
    split
    · exact ih _
    · rename_i h
      have : simplex = [] := by
        cases simplex with
        | nil => rfl
        | cons x xs => simp at h
      subst this
      cases m <;> simp [intersectLoop]

theorem intersectLoop_spec (rest : List (List Nat)) (simplex : List Nat)
    (hs : StrictAsc simplex) (hr : ∀ c ∈ rest, StrictAsc c) :
    StrictAsc (intersectLoop rest simplex) ∧
      (intersectLoop rest simplex).toFinset =
        rest.foldl (fun acc l => acc ∩ l.toFinset) simplex.toFinset := by
  induction rest generalizing simplex with
  | nil => simp [intersectLoop, hs]
  | cons c rest ih =>
    have hc : StrictAsc c := hr c (List.mem_cons_self _ _)
    have hrest : ∀ d ∈ rest, StrictAsc d := fun d hd => hr d (List.mem_cons_of_mem _ hd)
    have hstep : (setIntersection c simplex).toFinset = simplex.toFinset ∩ c.toFinset := by
      ext x
      simp [mem_setIntersection c simplex hc hs, and_comm]
    rw [intersectLoop, List.foldl_cons]
    split
    · have := ih (setIntersection c simplex) (strictAsc_setIntersection c simplex hc) hrest
      rw [hstep] at this
      exact this
    · rename_i h
      have hnil : simplex = [] := by
        cases simplex with
        | nil => rfl
        | cons x xs => simp at h
      subst hnil
      refine ⟨hs, ?_⟩
      have hfold : ∀ (r : List (List Nat)),
          r.foldl (fun acc l => acc ∩ l.toFinset) (∅ : Finset Nat) = ∅ := by
        intro r
        induction r with
        | nil => rfl
        | cons d r ihr => simpa using ihr
      simp [hfold]

theorem mem_foldl_inter (rest : List (List Nat)) (acc : Finset Nat) (t : Nat) :
    t ∈ rest.foldl (fun acc l => acc ∩ l.toFinset) acc ↔ t ∈ acc ∧ ∀ l ∈ rest, t ∈ l := by
  induction rest generalizing acc with
  | nil => simp
  | cons c rest ih =>
    rw [List.foldl_cons, ih]
    simp only [Finset.mem_inter, List.mem_toFinset, List.mem_cons, forall_eq_or_imp]
    tauto

/-- A transaction is common to a non-empty stack exactly when it is in every list. -/
theorem mem_commonTransactions (c : List Nat) (rest : List (List Nat)) (t : Nat) :
    t ∈ commonTransactions (c :: rest) ↔ ∀ l ∈ c :: rest, t ∈ l := by
  simp [commonTransactions, mem_foldl_inter]

theorem commonTransactions_append_subset (l m : List (List Nat)) (hl : l ≠ []) :
    commonTransactions (l ++ m) ⊆ commonTransactions l := by
  cases l with
  | nil => exact absurd rfl hl
  | cons c rest =>
    intro t ht
    rw [List.cons_append, mem_commonTransactions] at ht
    rw [mem_commonTransactions]
    intro x hx
    exact ht x (by
      rcases List.mem_cons.1 hx with h | h
      · exact h ▸ List.mem_cons_self _ _
      · exact List.mem_cons_of_mem _ (List.mem_append_left _ h))

theorem countFreq_support (s : SimplicialComplex) (c : List Nat) (rest : List (List Nat))
    (hc : s.cones = c :: rest) :
    countFreq s = some { s with support := ((intersectLoop rest c).length : Int) } := by
  simp [countFreq, hc]

theorem intersectLoop_card (c : List Nat) (rest : List (List Nat))
    (h : ∀ l ∈ c :: rest, StrictAsc l) :
    (intersectLoop rest c).length = (commonTransactions (c :: rest)).card := by
  have hc : StrictAsc c := h c (List.mem_cons_self _ _)
  have hrest : ∀ d ∈ rest, StrictAsc d := fun d hd => h d (List.mem_cons_of_mem _ hd)
  obtain ⟨h1, h2⟩ := intersectLoop_spec rest c hc hrest
  rw [commonTransactions, ← h2, List.toFinset_card_of_nodup]
  exact List.Sorted.nodup h1

/-! ## The transaction index -/

theorem mapAt_eq_none_of_lt (m : List (Int × List Nat)) (p : Int)
    (h : ∀ kv ∈ m, p < kv.1) : mapAt m p = none := by
  induction m with
  | nil => rfl
  | cons kv m ih =>
    obtain ⟨k, v⟩ := kv
    have hk : p < k := h (k, v) (List.mem_cons_self _ _)
    have hne : ¬ k = p := by omega
    rw [mapAt, if_neg hne]
    exact ih (fun kv hkv => h kv (List.mem_cons_of_mem _ hkv))

theorem keysAscending_cons {k : Int} {v : List Nat} {m : List (Int × List Nat)}
    (h : KeysAscending ((k, v) :: m)) : (∀ kv ∈ m, k < kv.1) ∧ KeysAscending m := by
  unfold KeysAscending at *
  rw [List.map_cons, List.sorted_cons] at h
  refine ⟨fun kv hkv => h.1 _ (List.mem_map_of_mem _ hkv), h.2⟩

theorem mem_keys_pushBack (m : List (Int × List Nat)) (p : Int) (t : Nat) (kv : Int × List Nat)
    (h : kv ∈ pushBack m p t) : kv.1 = p ∨ ∃ w, (kv.1, w) ∈ m := by
  induction m with
  | nil =>
    simp only [pushBack, List.mem_singleton] at h
    left; rw [h]
  | cons hd m ih =>
    obtain ⟨k, v⟩ := hd
    rw [pushBack] at h
    split at h
    · rcases List.mem_cons.1 h with h | h
      · left; rw [h]
      · right; exact ⟨kv.2, h⟩
    · split at h
      · rcases List.mem_cons.1 h with h | h
        · right; exact ⟨v, by rw [h]; exact List.mem_cons_self _ _⟩
        · right; exact ⟨kv.2, List.mem_cons_of_mem _ h⟩
      · rcases List.mem_cons.1 h with h | h
        · right; exact ⟨v, by rw [h]; exact List.mem_cons_self _ _⟩
        · rcases ih h with h | ⟨w, h⟩
          · left; exact h
          · right; exact ⟨w, List.mem_cons_of_mem _ h⟩

theorem keysAscending_pushBack (m : List (Int × List Nat)) (p : Int) (t : Nat)
    (h : KeysAscending m) : KeysAscending (pushBack m p t) := by
  induction m with
  | nil => simp [pushBack, KeysAscending]
  | cons hd m ih =>
    obtain ⟨k, v⟩ := hd
    obtain ⟨h1, h2⟩ := keysAscending_cons h
    rw [pushBack]
    split
    · rename_i hpk
      unfold KeysAscending at *
      rw [List.map_cons, List.sorted_cons]
      refine ⟨?_, h⟩
      intro b hb
      rw [List.map_cons, List.mem_cons] at hb
      rcases hb with hb | hb
      · rw [hb]; exact hpk
      · obtain ⟨kv, hkv, rfl⟩ := List.mem_map.1 hb
        exact lt_trans hpk (h1 kv hkv)
    · split
      · exact h
      · rename_i hpk hne
        have ih' := ih h2
        unfold KeysAscending at *
        rw [List.map_cons, List.sorted_cons]
        refine ⟨?_, ih'⟩
        intro b hb
        obtain ⟨kv, hkv, rfl⟩ := List.mem_map.1 hb
        rcases mem_keys_pushBack m p t kv hkv with h3 | ⟨w, h3⟩
        · rw [h3]; omega
        · exact h1 (kv.1, w) h3

theorem mapAt_pushBack_ne (m : List (Int × List Nat)) (p i : Int) (t : Nat) (h : i ≠ p) :
    mapAt (pushBack m p t) i = mapAt m i := by
  induction m with
  | nil =>
    have : ¬ p = i := fun e => h e.symm
    simp [pushBack, mapAt, this]
  | cons hd m ih =>
    obtain ⟨k, v⟩ := hd
    have hpi : ¬ p = i := fun e => h e.symm
    rw [pushBack]
    split
    · rw [mapAt, if_neg hpi]
    · split
      · rename_i _ hpk
        subst hpk
        rw [mapAt, mapAt, if_neg hpi, if_neg hpi]
      · rw [mapAt, mapAt, ih]

theorem mapAt_pushBack_self (m : List (Int × List Nat)) (p : Int) (t : Nat)
    (h : KeysAscending m) : mapAt (pushBack m p t) p = some (posting m p ++ [t]) := by
  induction m with
  | nil => simp [pushBack, mapAt, posting]
  | cons hd m ih =>
    obtain ⟨k, v⟩ := hd
    obtain ⟨h1, h2⟩ := keysAscending_cons h
    rw [pushBack]
    split
    · rename_i hpk
      have hnone : mapAt ((k, v) :: m) p = none := by
        apply mapAt_eq_none_of_lt
        intro kv hkv
        rcases List.mem_cons.1 hkv with hkv | hkv
        · rw [hkv]; exact hpk
        · exact lt_trans hpk (h1 kv hkv)
      rw [mapAt, if_pos rfl, posting, hnone]
      rfl
    · split
      · rename_i _ hpk
        subst hpk
        simp [mapAt, posting]
      · rename_i _ hne
        have hkp : ¬ k = p := fun e => hne e.symm
        rw [mapAt, if_neg hkp, ih h2]
        simp [posting, mapAt, hkp]

theorem posting_pushBack (m : List (Int × List Nat)) (p i : Int) (t : Nat)
    (h : KeysAscending m) :
    posting (pushBack m p t) i = posting m i ++ (if i = p then [t] else []) := by
  by_cases hip : i = p
  · subst hip
    simp [posting, mapAt_pushBack_self m i t h]
  · simp [posting, mapAt_pushBack_ne m p i t hip, hip]

theorem isSome_pushBack (m : List (Int × List Nat)) (p i : Int) (t : Nat)
    (h : KeysAscending m) :
    (mapAt (pushBack m p t) i).isSome = true ↔ (mapAt m i).isSome = true ∨ i = p := by
  by_cases hip : i = p
  · subst hip
    simp [mapAt_pushBack_self m i t h]
  · simp [mapAt_pushBack_ne m p i t hip, hip]

theorem readRow_spec (row : List Int) (m : List (Int × List Nat)) (n : Nat)
    (h : KeysAscending m) :
    KeysAscending (readRow m n row) ∧
      (∀ i, posting (readRow m n row) i = posting m i ++ List.replicate (row.count i) n) ∧
      (∀ i, (mapAt (readRow m n row) i).isSome = true ↔
        (mapAt m i).isSome = true ∨ i ∈ row) := by
  induction row generalizing m with
  | nil => simp [readRow, h]
  | cons p row ih =>
    obtain ⟨h1, h2, h3⟩ := ih (pushBack m p n) (keysAscending_pushBack m p n h)
    refine ⟨h1, ?_, ?_⟩
    · intro i
      rw [readRow, h2, posting_pushBack m p i n h]
      by_cases hip : i = p
      · subst hip
        simp [List.count_cons_self, List.replicate_succ]
      · have : (p == i) = false := by simpa using fun e => hip e.symm
        simp [hip, List.count_cons, this]
    · intro i
      rw [readRow, h3, isSome_pushBack m p i n h, List.mem_cons]
      tauto

theorem readRows_spec (rows : List (List Int)) (m : List (Int × List Nat)) (n : Nat)
    (h : KeysAscending m) :
    KeysAscending (readRows m n rows) ∧
      (∀ i, posting (readRows m n rows) i = posting m i ++ occurrences i n rows) ∧
      (∀ i, (mapAt (readRows m n rows) i).isSome = true ↔
        (mapAt m i).isSome = true ∨ ∃ row ∈ rows, i ∈ row) := by
  induction rows generalizing m n with
  | nil => simp [readRows, occurrences, h]
  | cons row rows ih =>
    obtain ⟨g1, g2, g3⟩ := readRow_spec row m n h
    obtain ⟨h1, h2, h3⟩ := ih (readRow m n row) (n + 1) g1
    refine ⟨h1, ?_, ?_⟩
    · intro i
      rw [readRows, h2, g2, occurrences, List.append_assoc]
    · intro i
      rw [readRows, h3, g3]
      simp only [List.mem_cons, exists_eq_or_imp]
      tauto

theorem mem_occurrences (i : Int) (rows : List (List Int)) (n t : Nat) :
    t ∈ occurrences i n rows ↔ ∃ j row, rows[j]? = some row ∧ t = n + j ∧ i ∈ row := by
  induction rows generalizing n with
  | nil => simp [occurrences]
  | cons r rows ih =>
    rw [occurrences, List.mem_append, ih]
    constructor
    · rintro (h | ⟨j, row, h1, h2, h3⟩)
      · obtain ⟨h1, h2⟩ := List.mem_replicate.1 h
        refine ⟨0, r, by simp, by omega, ?_⟩
        exact List.count_pos_iff.1 (Nat.pos_of_ne_zero h1)
      · exact ⟨j + 1, row, by simpa using h1, by omega, h3⟩
    · rintro ⟨j, row, h1, h2, h3⟩
      cases j with
      | zero =>
        left
        simp only [List.getElem?_cons_zero, Option.some.injEq] at h1
        subst h1
        rw [List.mem_replicate]
        exact ⟨Nat.ne_of_gt (List.count_pos_iff.2 h3), by omega⟩
      | succ j =>
        right
        exact ⟨j, row, by simpa using h1, by omega, h3⟩

theorem keysAscending_nil : KeysAscending [] := by
  simp [KeysAscending]

theorem keysAscending_readFile (rows : List (List Int)) :
    KeysAscending (readFile init rows).points :=
  (readRows_spec rows [] 0 keysAscending_nil).1

theorem posting_readFile (rows : List (List Int)) (i : Int) :
    posting (readFile init rows).points i = occurrences i 0 rows := by
  have := (readRows_spec rows [] 0 keysAscending_nil).2.1 i
  simpa [readFile, init, posting, mapAt] using this

theorem isSome_readFile (rows : List (List Int)) (i : Int) :
    (mapAt (readFile init rows).points i).isSome = true ↔ ∃ row ∈ rows, i ∈ row := by
  have := (readRows_spec rows [] 0 keysAscending_nil).2.2 i
  simpa [readFile, init, mapAt] using this

/-! ## The item ranker -/

theorem mapAt_of_mem (m : List (Int × List Nat)) (k : Int) (v : List Nat)
    (h : KeysAscending m) (hkv : (k, v) ∈ m) : mapAt m k = some v := by
  induction m with
  | nil => simp at hkv
  | cons hd m ih =>
    obtain ⟨k0, v0⟩ := hd
    obtain ⟨h1, h2⟩ := keysAscending_cons h
    rcases List.mem_cons.1 hkv with hkv | hkv
    · injection hkv with e1 e2
      subst e1; subst e2
      simp [mapAt]
    · have hlt : k0 < k := h1 (k, v) hkv
      have hne : ¬ k0 = k := by omega
      rw [mapAt, if_neg hne]
      exact ih h2 hkv

theorem mem_of_mapAt (m : List (Int × List Nat)) (k : Int) (v : List Nat)
    (h : mapAt m k = some v) : (k, v) ∈ m := by
  induction m with
  | nil => simp [mapAt] at h
  | cons hd m ih =>
    obtain ⟨k0, v0⟩ := hd
    rw [mapAt] at h
    split at h
    · rename_i hk
      injection h with h
      subst hk; subst h
      exact List.mem_cons_self _ _
    · exact List.mem_cons_of_mem _ (ih h)

theorem sizeExceeds_iff (size : Nat) (minSupp : Int) (h0 : 0 ≤ minSupp)
    (h1 : minSupp < 2 ^ 31) : sizeExceeds size minSupp = true ↔ minSupp < (size : Int) := by
  have hmod : minSupp % 2 ^ 64 = minSupp := Int.emod_eq_of_lt h0 (by omega)
  simp only [sizeExceeds, hmod, decide_eq_true_eq]
  omega

theorem prune_eq (minSupp : Int) (m : List (Int × List Nat)) :
    prune minSupp m =
      (m.filter (fun kv => sizeExceeds kv.2.length minSupp)).map pruneEntry := by
  induction m with
  | nil => rfl
  | cons hd m ih =>
    obtain ⟨k, v⟩ := hd
    rw [prune, List.filter_cons]
    split <;> simp [ih, pruneEntry]

theorem linearInsert_perm (val : List Int × Int) (l : List (List Int × Int)) :
    (linearInsert val l).Perm (val :: l) := by
  induction l with
  | nil => exact List.Perm.refl _
  | cons x rest ih =>
    rw [linearInsert]
    split
    · exact List.Perm.refl _
    · exact (List.Perm.cons x ih).trans (List.Perm.swap val x rest)

theorem foldl_linearInsert_perm (l acc : List (List Int × Int)) :
    (l.foldl (fun acc val => linearInsert val acc) acc).Perm (acc ++ l) := by
  induction l generalizing acc with
  | nil => simp
  | cons x rest ih =>
    rw [List.foldl_cons]
    refine (ih _).trans ?_
    refine (List.Perm.append_right rest (linearInsert_perm x acc)).trans ?_
    simpa using (@List.perm_middle _ x acc rest).symm

theorem sort_perm (l : List (List Int × Int)) : (sort l).Perm l := by
  simpa [sort] using foldl_linearInsert_perm l []

theorem linearInsert_descending (val : List Int × Int) (l : List (List Int × Int))
    (h : Descending l) : Descending (linearInsert val l) := by
  unfold Descending at *
  induction l with
  | nil => simp [linearInsert]
  | cons x rest ih =>
    rw [List.pairwise_cons] at h
    rw [linearInsert]
    split
    · rename_i hc
      simp only [customCompare, gt_iff_lt, decide_eq_true_eq] at hc
      rw [List.pairwise_cons]
      refine ⟨?_, List.pairwise_cons.2 h⟩
      intro b hb
      rcases List.mem_cons.1 hb with hb | hb
      · rw [hb]; exact le_of_lt hc
      · exact le_trans (h.1 b hb) (le_of_lt hc)
    · rename_i hc
      simp only [customCompare, gt_iff_lt, decide_eq_true_eq, not_lt] at hc
      rw [List.pairwise_cons]
      refine ⟨?_, ih h.2⟩
      intro b hb
      rcases List.mem_cons.1 ((linearInsert_perm val rest).subset hb) with hb | hb
      · rw [hb]; exact hc
      · exact h.1 b hb

theorem foldl_linearInsert_descending (l acc : List (List Int × Int)) (h : Descending acc) :
    Descending (l.foldl (fun acc val => linearInsert val acc) acc) := by
  induction l generalizing acc with
  | nil => exact h
  | cons x rest ih =>
    rw [List.foldl_cons]
    exact ih _ (linearInsert_descending x acc h)

theorem sort_descending (l : List (List Int × Int)) : Descending (sort l) :=
  foldl_linearInsert_descending l [] List.Pairwise.nil

theorem pushFirsts_eq (l : List (List Int × Int)) (acc : List Int)
    (h : ∀ p ∈ l, ∃ kv : Int × List Nat, p = pruneEntry kv) :
    pushFirsts acc l = some (acc ++ l.map (fun p => p.1.headI)) := by
  induction l generalizing acc with
  | nil => simp [pushFirsts]
  | cons p rest ih =>
    obtain ⟨kv, hkv⟩ := h p (List.mem_cons_self _ _)
    subst hkv
    rw [pushFirsts]
    simp only [pruneEntry, List.getElem?_cons_zero]
    rw [ih _ (fun q hq => h q (List.mem_cons_of_mem _ hq))]
    simp

theorem mem_sort_prune (minSupp : Int) (m : List (Int × List Nat)) (p : List Int × Int)
    (hp : p ∈ sort (prune minSupp m)) :
    ∃ kv : Int × List Nat, kv ∈ survivors minSupp m ∧ p = pruneEntry kv := by
  have := (sort_perm (prune minSupp m)).subset hp
  rw [prune_eq] at this
  obtain ⟨kv, h1, h2⟩ := List.mem_map.1 this
  exact ⟨kv, h1, h2.symm⟩

theorem rankPoints_eq (s : SimplicialComplex) (hf : s.frequencyOfPoints = [])
    (hs : s.sortedPoints = []) :
    rankPoints s =
      some { s with frequencyOfPoints := sort (prune s.minSupp s.points),
                    sortedPoints := rankOrder s.minSupp s.points } := by
  have := pushFirsts_eq (sort (prune s.minSupp s.points)) []
    (fun p hp => (mem_sort_prune _ _ p hp).imp (fun kv h => h.2))
  simp [rankPoints, hf, hs, this, rankOrder]

theorem rankOrder_perm (minSupp : Int) (m : List (Int × List Nat)) :
    (rankOrder minSupp m).Perm ((survivors minSupp m).map Prod.fst) := by
  have h1 := (sort_perm (prune minSupp m)).map (fun p : List Int × Int => p.1.headI)
  refine h1.trans ?_
  rw [prune_eq, List.map_map]
  apply List.Perm.of_eq
  apply List.map_congr_left
  intro kv _
  simp [pruneEntry]

theorem rankOrder_pairwise (minSupp : Int) (m : List (Int × List Nat))
    (hk : KeysAscending m) :
    (rankOrder minSupp m).Pairwise
      (fun a b => (posting m b).length ≤ (posting m a).length) := by
  have hdesc := sort_descending (prune minSupp m)
  rw [rankOrder, List.pairwise_map]
  unfold Descending at hdesc
  refine List.Pairwise.imp_of_mem ?_ hdesc
  intro a b ha hb hab
  obtain ⟨kva, hka, rfl⟩ := mem_sort_prune _ _ a ha
  obtain ⟨kvb, hkb, rfl⟩ := mem_sort_prune _ _ b hb
  have ea : mapAt m kva.1 = some kva.2 :=
    mapAt_of_mem _ _ _ hk (List.mem_of_mem_filter hka)
  have eb : mapAt m kvb.1 = some kvb.2 :=
    mapAt_of_mem _ _ _ hk (List.mem_of_mem_filter hkb)
  simp only [pruneEntry, List.headI_cons, posting, ea, eb, Option.getD_some]
  simp only [pruneEntry] at hab
  exact_mod_cast hab

theorem mapAt_isSome_of_mem (m : List (Int × List Nat)) (k : Int) (v : List Nat)
    (h : (k, v) ∈ m) : ∃ l, mapAt m k = some l := by
  induction m with
  | nil => simp at h
  | cons hd m ih =>
    obtain ⟨k0, v0⟩ := hd
    rw [mapAt]
    split
    · exact ⟨v0, rfl⟩
    · rename_i hne
      rcases List.mem_cons.1 h with h | h
      · injection h with e1 e2
        exact absurd e1.symm hne
      · exact ih h

theorem rankOrder_indexed (minSupp : Int) (m : List (Int × List Nat)) :
    ∀ x ∈ rankOrder minSupp m, ∃ l, mapAt m x = some l := by
  intro x hx
  have := (rankOrder_perm minSupp m).subset hx
  obtain ⟨kv, h1, rfl⟩ := List.mem_map.1 this
  exact mapAt_isSome_of_mem m kv.1 kv.2 (List.mem_of_mem_filter h1)

theorem survivors_keys_nodup (minSupp : Int) (m : List (Int × List Nat))
    (hk : KeysAscending m) : ((survivors minSupp m).map Prod.fst).Nodup := by
  have h1 : (m.map Prod.fst).Nodup := List.Sorted.nodup hk
  exact List.Nodup.sublist (List.Sublist.map _ (List.filter_sublist _)) h1

theorem mem_survivors_keys (minSupp : Int) (m : List (Int × List Nat)) (hk : KeysAscending m)
    (i : Int) :
    i ∈ (survivors minSupp m).map Prod.fst ↔
      ∃ l, mapAt m i = some l ∧ sizeExceeds l.length minSupp = true := by
  constructor
  · intro h
    obtain ⟨kv, h1, h2⟩ := List.mem_map.1 h
    obtain ⟨h3, h4⟩ := List.mem_filter.1 h1
    subst h2
    exact ⟨kv.2, mapAt_of_mem _ _ _ hk h3, h4⟩
  · rintro ⟨l, h1, h2⟩
    exact List.mem_map.2 ⟨(i, l), List.mem_filter.2 ⟨mem_of_mapAt _ _ _ h1, h2⟩, rfl⟩

/-! ## The traversal: what one pass of the loop does -/

theorem SameEnv.refl (s : SimplicialComplex) : SameEnv s s := ⟨rfl, rfl, rfl⟩

theorem SameEnv.trans {s t u : SimplicialComplex} (h1 : SameEnv s t) (h2 : SameEnv t u) :
    SameEnv s u :=
  ⟨h2.1.trans h1.1, h2.2.1.trans h1.2.1, h2.2.2.trans h1.2.2⟩

theorem intersectLoop_eq_foldl (rest : List (List Nat)) (c : List Nat) :
    intersectLoop rest c = rest.foldl (fun simplex l => setIntersection l simplex) c := by
  induction rest generalizing c with
  | nil => rfl
  | cons d rest ih =>
    rw [intersectLoop, List.foldl_cons]
    split
    · exact ih _
    · rename_i h
      have hnil : c = [] := by
        cases c with
        | nil => rfl
        | cons x xs => simp at h
      subst hnil
      rw [setIntersection_nil_right]
      clear ih h
      induction rest with
      | nil => rfl
      | cons e rest ih2 => rw [List.foldl_cons, setIntersection_nil_right]; exact ih2

theorem interFold_card (L : List (List Nat)) (hne : L ≠ []) (h : ∀ l ∈ L, StrictAsc l) :
    (interFold L).length = (commonTransactions L).card := by
  cases L with
  | nil => exact absurd rfl hne
  | cons c rest =>
    rw [interFold, ← intersectLoop_eq_foldl]
    exact intersectLoop_card c rest h

theorem countFreq_some {s t : SimplicialComplex} (h : countFreq s = some t) :
    s.cones ≠ [] ∧ t = { s with support := ((interFold s.cones).length : Int) } := by
  cases hc : s.cones with
  | nil => simp [countFreq, hc] at h
  | cons c rest =>
    rw [countFreq_support s c rest hc] at h
    injection h with h
    refine ⟨by simp, ?_⟩
    rw [← h, interFold, intersectLoop_eq_foldl, ← hc]

theorem extend_some {s t : SimplicialComplex} (h : extend s = some t) :
    ∃ p l, s.sortedPoints[s.positionInOne + 1]? = some p ∧ mapAt s.points p = some l ∧
      t = { s with positionInOne := s.positionInOne + 1, cone := s.cone ++ [p],
                   cones := s.cones ++ [l] } := by
  cases h1 : s.sortedPoints[s.positionInOne + 1]? with
  | none => simp [extend, h1] at h
  | some p =>
    cases h2 : mapAt s.points p with
    | none => simp [extend, h1, h2] at h
    | some l =>
      simp only [extend, h1, h2, Option.some.injEq] at h
      exact ⟨p, l, rfl, h2, h.symm⟩

theorem reseedSibling_some {s t : SimplicialComplex} {c0 : Int}
    (h : reseedSibling s c0 = some t) :
    ∃ q l0 l1, s.sortedPoints[s.sortedPoints.indexOf c0 + s.count]? = some q ∧
      mapAt s.points c0 = some l0 ∧ mapAt s.points q = some l1 ∧
      t = { s with count := s.count + 1,
                   positionInOne := s.sortedPoints.indexOf c0 + s.count,
                   cone := [c0, q], cones := [l0, l1] } := by
  cases h1 : s.sortedPoints[s.sortedPoints.indexOf c0 + s.count]? with
  | none => simp [reseedSibling, h1] at h
  | some q =>
    cases h2 : mapAt s.points c0 with
    | none => simp [reseedSibling, h1, h2] at h
    | some l0 =>
      cases h3 : mapAt s.points q with
      | none => simp [reseedSibling, h1, h2, h3] at h
      | some l1 =>
        simp only [reseedSibling, h1, h2, h3, Option.some.injEq] at h
        exact ⟨q, l0, l1, rfl, rfl, h3, h.symm⟩

theorem reseedBase_some {s t : SimplicialComplex} {c0 : Int} (h : reseedBase s c0 = some t) :
    ∃ p l, s.sortedPoints[s.sortedPoints.indexOf c0 + 1]? = some p ∧
      mapAt s.points p = some l ∧
      t = { s with count := 2, positionInOne := s.sortedPoints.indexOf c0 + 1,
                   cone := [p], cones := [l] } := by
  cases h1 : s.sortedPoints[s.sortedPoints.indexOf c0 + 1]? with
  | none => simp [reseedBase, h1] at h
  | some p =>
    cases h2 : mapAt s.points p with
    | none => simp [reseedBase, h1, h2] at h
    | some l =>
      simp only [reseedBase, h1, h2, Option.some.injEq] at h
      exact ⟨p, l, rfl, h2, h.symm⟩

/-- The four ways in which `createCone` chooses the next cone. -/
theorem nextCone_some {s t : SimplicialComplex} (h : nextCone s = some t) :
    ∃ c0 last, s.cone[0]? = some c0 ∧
      s.sortedPoints[s.sortedPoints.length - 1]? = some last ∧
      ((c0 = last ∧ t = { s with isDone := true }) ∨
       (c0 ≠ last ∧ (s.support > s.minSupp ∧ s.cone[s.cone.length - 1]? ≠ some last) ∧
          extend s = some t) ∨
       (c0 ≠ last ∧ ¬ (s.support > s.minSupp ∧ s.cone[s.cone.length - 1]? ≠ some last) ∧
          (s.support ≤ s.minSupp ∧ s.cone.length > 1 ∧ s.cone[1]? ≠ some last) ∧
          reseedSibling s c0 = some t) ∨
       (c0 ≠ last ∧ ¬ (s.support > s.minSupp ∧ s.cone[s.cone.length - 1]? ≠ some last) ∧
          ¬ (s.support ≤ s.minSupp ∧ s.cone.length > 1 ∧ s.cone[1]? ≠ some last) ∧
          reseedBase s c0 = some t)) := by
  cases h1 : s.cone[0]? with
  | none => simp [nextCone, h1] at h
  | some c0 =>
    cases h2 : s.sortedPoints[s.sortedPoints.length - 1]? with
    | none => simp [nextCone, h1, h2] at h
    | some last =>
      refine ⟨c0, last, rfl, rfl, ?_⟩
      simp only [nextCone, h1, h2] at h
      split at h
      · rename_i hc
        left
        injection h with h
        exact ⟨hc, h.symm⟩
      · rename_i hc
        split at h
        · rename_i he
          right; left
          exact ⟨hc, he, h⟩
        · rename_i he
          split at h
          · rename_i hsib
            right; right; left
            exact ⟨hc, he, hsib, h⟩
          · rename_i hsib
            right; right; right
            exact ⟨hc, he, hsib, h⟩

theorem nextCone_env {s t : SimplicialComplex} (h : nextCone s = some t) :
    SameEnv s t ∧ t.simplicialComplexes = s.simplicialComplexes ∧ t.support = s.support := by
  obtain ⟨c0, last, -, -, h | ⟨-, -, h⟩ | ⟨-, -, -, h⟩ | ⟨-, -, -, h⟩⟩ := nextCone_some h
  · rw [h.2]; exact ⟨⟨rfl, rfl, rfl⟩, rfl, rfl⟩
  · obtain ⟨p, l, -, -, rfl⟩ := extend_some h
    exact ⟨⟨rfl, rfl, rfl⟩, rfl, rfl⟩
  · obtain ⟨q, l0, l1, -, -, -, rfl⟩ := reseedSibling_some h
    exact ⟨⟨rfl, rfl, rfl⟩, rfl, rfl⟩
  · obtain ⟨p, l, -, -, rfl⟩ := reseedBase_some h
    exact ⟨⟨rfl, rfl, rfl⟩, rfl, rfl⟩

theorem nextCone_parallel {s t : SimplicialComplex} (h : nextCone s = some t)
    (hp : Parallel s) : Parallel t := by
  obtain ⟨c0, last, -, -, h | ⟨-, -, h⟩ | ⟨-, -, -, h⟩ | ⟨-, -, -, h⟩⟩ := nextCone_some h
  · rw [h.2]; exact hp
  · obtain ⟨p, l, -, h2, rfl⟩ := extend_some h
    exact List.rel_append hp (List.Forall₂.cons h2 List.Forall₂.nil)
  · obtain ⟨q, l0, l1, -, h2, h3, rfl⟩ := reseedSibling_some h
    exact List.Forall₂.cons h2 (List.Forall₂.cons h3 List.Forall₂.nil)
  · obtain ⟨p, l, -, h2, rfl⟩ := reseedBase_some h
    exact List.Forall₂.cons h2 List.Forall₂.nil

/-- The results after one pass: the old ones, then the tested cone if it is accepted. -/
theorem step_results {s t : SimplicialComplex} (h : step s = some t) :
    SameEnv s t ∧ s.cones ≠ [] ∧ t.support = ((interFold s.cones).length : Int) ∧
      t.simplicialComplexes =
        s.simplicialComplexes ++
          (if s.minSupp ≤ ((interFold s.cones).length : Int) then
            [(s.cone, ((interFold s.cones).length : Int))] else []) := by
  cases h1 : countFreq s with
  | none => simp [step, h1] at h
  | some u =>
    obtain ⟨hne, hu⟩ := countFreq_some h1
    simp only [step, h1, Option.some_bind, createCone] at h
    obtain ⟨henv, hres, hsup⟩ := nextCone_env h
    refine ⟨?_, hne, ?_, ?_⟩
    · subst hu
      unfold accept at henv
      split at henv <;> exact henv
    · rw [hsup]
      subst hu
      unfold accept
      split <;> rfl
    · rw [hres]
      subst hu
      unfold accept
      by_cases hge : s.minSupp ≤ ((interFold s.cones).length : Int)
      · simp [hge]
      · simp [hge]

theorem step_parallel {s t : SimplicialComplex} (h : step s = some t) (hp : Parallel s) :
    Parallel t := by
  cases h1 : countFreq s with
  | none => simp [step, h1] at h
  | some u =>
    obtain ⟨hne, hu⟩ := countFreq_some h1
    simp only [step, h1, Option.some_bind, createCone] at h
    apply nextCone_parallel h
    subst hu
    unfold accept
    split <;> exact hp

theorem nextCone_ranked {s t : SimplicialComplex} (h : nextCone s = some t)
    (hr : ∀ x ∈ s.cone, x ∈ s.sortedPoints) : ∀ x ∈ t.cone, x ∈ t.sortedPoints := by
  obtain ⟨c0, last, hc0, -, h | ⟨-, -, h⟩ | ⟨-, -, -, h⟩ | ⟨-, -, -, h⟩⟩ := nextCone_some h
  · rw [h.2]; exact hr
  · obtain ⟨p, l, h1, -, rfl⟩ := extend_some h
    intro x hx
    rcases List.mem_append.1 hx with hx | hx
    · exact hr x hx
    · rw [List.mem_singleton] at hx
      subst hx
      exact List.getElem?_mem h1
  · obtain ⟨q, l0, l1, h1, -, -, rfl⟩ := reseedSibling_some h
    intro x hx
    simp only [List.mem_cons, List.mem_singleton, List.not_mem_nil, or_false] at hx
    rcases hx with hx | hx
    · subst hx
      exact hr x (List.getElem?_mem hc0)
    · subst hx
      exact List.getElem?_mem h1
  · obtain ⟨p, l, h1, -, rfl⟩ := reseedBase_some h
    intro x hx
    rw [List.mem_singleton] at hx
    subst hx
    exact List.getElem?_mem h1

theorem step_ranked {s t : SimplicialComplex} (h : step s = some t)
    (hr : ∀ x ∈ s.cone, x ∈ s.sortedPoints) : ∀ x ∈ t.cone, x ∈ t.sortedPoints := by
  cases h1 : countFreq s with
  | none => simp [step, h1] at h
  | some u =>
    obtain ⟨hne, hu⟩ := countFreq_some h1
    simp only [step, h1, Option.some_bind, createCone] at h
    apply nextCone_ranked h
    subst hu
    unfold accept
    split <;> exact hr

theorem step_sound {s t : SimplicialComplex} (h : step s = some t) (hs : Sound s) :
    Sound t := by
  obtain ⟨henv, hne, -, hres⟩ := step_results h
  refine ⟨step_parallel h hs.1, step_ranked h hs.2.1, ?_⟩
  intro e he
  rw [henv.1, henv.2.2, henv.2.1]
  rw [hres, List.mem_append] at he
  rcases he with he | he
  · exact hs.2.2 e he
  · split at he
    · rename_i hge
      rw [List.mem_singleton] at he
      subst he
      exact ⟨⟨hge, s.cones, hs.1, hne, rfl⟩, hs.2.1⟩
    · simp at he

theorem stepN_sound (k : Nat) {s t : SimplicialComplex} (h : stepN k s = some t)
    (hs : Sound s) : Sound t ∧ SameEnv s t := by
  induction k generalizing s with
  | zero =>
    simp only [stepN, Option.some.injEq] at h
    subst h
    exact ⟨hs, SameEnv.refl s⟩
  | succ k ih =>
    rw [stepN] at h
    split at h
    · simp at h
    · cases h1 : step s with
      | none => simp [h1] at h
      | some u =>
        simp only [h1, Option.some_bind] at h
        obtain ⟨h2, h3⟩ := ih h (step_sound h1 hs)
        exact ⟨h2, (step_results h1).1.trans h3⟩

/-! ## The shape of the states of the traversal -/

theorem coneAt_length (r : List Int) (b sib pos : Nat) (hb : b < r.length)
    (hpos : pos < r.length) : (coneAt r b sib pos).length = 1 + (pos + 1 - sib) := by
  have hx : r[b]? = some r[b] := List.getElem?_eq_getElem hb
  simp only [coneAt, hx, Option.toList_some, List.length_append, List.length_singleton,
    List.length_drop, List.length_take]
  omega

theorem coneAt_zero (r : List Int) (b sib pos : Nat) (hb : b < r.length) :
    (coneAt r b sib pos)[0]? = r[b]? := by
  have hx : r[b]? = some r[b] := List.getElem?_eq_getElem hb
  simp [coneAt, hx]

theorem coneAt_succ (r : List Int) (b sib pos j : Nat) (hb : b < r.length)
    (hj : sib + j ≤ pos) : (coneAt r b sib pos)[j + 1]? = r[sib + j]? := by
  have hx : r[b]? = some r[b] := List.getElem?_eq_getElem hb
  simp only [coneAt, hx, Option.toList_some, List.singleton_append, List.getElem?_cons_succ,
    List.getElem?_drop]
  exact List.getElem?_take_of_lt (by omega)

theorem coneAt_last (r : List Int) (b sib pos : Nat) (hb : b < sib) (hsib : sib ≤ pos + 1)
    (hsingle : pos + 1 = sib → sib = b + 1) (hpos : pos < r.length) :
    (coneAt r b sib pos)[(coneAt r b sib pos).length - 1]? = r[pos]? := by
  have hbl : b < r.length := by omega
  rw [coneAt_length r b sib pos hbl hpos]
  by_cases h : pos + 1 = sib
  · have h1 := hsingle h
    have h2 : pos = b := by omega
    have h3 : 1 + (pos + 1 - sib) - 1 = 0 := by omega
    rw [h3, coneAt_zero r b sib pos hbl, h2]
  · have h3 : 1 + (pos + 1 - sib) - 1 = (pos - sib) + 1 := by omega
    rw [h3, coneAt_succ r b sib pos (pos - sib) hbl (by omega)]
    congr 1
    omega

theorem coneAt_extend (r : List Int) (b sib pos : Nat) (p : Int) (hsib : sib ≤ pos + 1)
    (hp : r[pos + 1]? = some p) : coneAt r b sib (pos + 1) = coneAt r b sib pos ++ [p] := by
  have hlt : pos + 1 < r.length := by
    by_contra hge
    rw [List.getElem?_eq_none (by omega)] at hp
    simp at hp
  have hlen : (r.take (pos + 1)).length = pos + 1 := by
    rw [List.length_take]; omega
  rw [coneAt, coneAt, List.take_succ, hp, Option.toList_some,
    List.drop_append_of_le_length (by omega), List.append_assoc]

theorem coneAt_pair (r : List Int) (b sib : Nat) (x q : Int) (hx : r[b]? = some x)
    (hq : r[sib]? = some q) : coneAt r b sib sib = [x, q] := by
  have hlt : sib < r.length := by
    by_contra hge
    rw [List.getElem?_eq_none (by omega)] at hq
    simp at hq
  have hlen : (r.take sib).length = sib := by
    rw [List.length_take]; omega
  rw [coneAt, List.take_succ, hq, hx, List.drop_append_of_le_length (by omega),
    List.drop_eq_nil_of_le (by omega)]
  rfl

theorem coneAt_single (r : List Int) (b : Nat) (x : Int) (hx : r[b]? = some x) :
    coneAt r b (b + 1) b = [x] := by
  rw [coneAt, hx, List.drop_eq_nil_of_le (by rw [List.length_take]; omega)]
  rfl

theorem Shape.congr {s u : SimplicialComplex} {b sib : Nat} (h : Shape s b sib)
    (h2 : u.sortedPoints = s.sortedPoints)
    (h3 : u.points = s.points) (h4 : u.positionInOne = s.positionInOne)
    (h5 : u.count = s.count) (h6 : u.cone = s.cone) (h7 : u.cones = s.cones) :
    Shape u b sib := by
  refine ⟨?_, ?_, h.base_lt, ?_, ?_, ?_, ?_, ?_, ?_⟩
  · rw [h2]; exact h.nodup
  · rw [h2, h3]; exact h.indexed
  · rw [h4]; exact h.sib_le
  · rw [h4]; exact h.single
  · rw [h4, h2]; exact h.pos_lt
  · rw [h5]; exact h.count_eq
  · rw [h6, h2, h4]; exact h.cone_eq
  · unfold Parallel; rw [h3, h6, h7]; exact h.parallel

theorem getElem?_eq_last_iff (r : List Int) (hn : r.Nodup) (i : Nat) (hi : i < r.length) :
    r[i]? = r[r.length - 1]? ↔ i + 1 = r.length := by
  constructor
  · intro h
    have := List.getElem?_inj hi hn h
    omega
  · intro h
    have : i = r.length - 1 := by omega
    rw [← this]

theorem accept_fields (s : SimplicialComplex) :
    (accept s).isDone = s.isDone ∧ (accept s).sortedPoints = s.sortedPoints ∧
      (accept s).points = s.points ∧ (accept s).positionInOne = s.positionInOne ∧
      (accept s).count = s.count ∧ (accept s).cone = s.cone ∧ (accept s).cones = s.cones ∧
      (accept s).support = s.support ∧ (accept s).minSupp = s.minSupp := by
  unfold accept
  split <;> simp

/-- The branch that `createCone` takes from a state of the given shape, and the shape
of the state it leads to. -/
theorem nextCone_shape {u : SimplicialComplex} {b sib : Nat} (h : Shape u b sib) :
    ∃ t, nextCone u = some t ∧
      ((b + 1 = u.sortedPoints.length ∧ t = { u with isDone := true } ∧ Shape t b sib) ∨
       (b + 1 < u.sortedPoints.length ∧
          (u.support > u.minSupp ∧ u.positionInOne + 1 < u.sortedPoints.length) ∧
          t.isDone = u.isDone ∧ Shape t b sib ∧ t.positionInOne = u.positionInOne + 1) ∨
       (b + 1 < u.sortedPoints.length ∧
          ¬ (u.support > u.minSupp ∧ u.positionInOne + 1 < u.sortedPoints.length) ∧
          (u.support ≤ u.minSupp ∧ sib ≤ u.positionInOne ∧ sib + 1 < u.sortedPoints.length) ∧
          t.isDone = u.isDone ∧ Shape t b (sib + 1) ∧ t.positionInOne = sib + 1) ∨
       (b + 1 < u.sortedPoints.length ∧
          ¬ (u.support > u.minSupp ∧ u.positionInOne + 1 < u.sortedPoints.length) ∧
          ¬ (u.support ≤ u.minSupp ∧ sib ≤ u.positionInOne ∧
              sib + 1 < u.sortedPoints.length) ∧
          t.isDone = u.isDone ∧ Shape t (b + 1) (b + 2) ∧ t.positionInOne = b + 1)) := by
  have hsl := h.sib_le
  have hpl := h.pos_lt
  have hbs := h.base_lt
  have hbl : b < u.sortedPoints.length := by omega
  have hx : u.sortedPoints[b]? = some u.sortedPoints[b] := List.getElem?_eq_getElem hbl
  have hn1 : u.sortedPoints.length - 1 < u.sortedPoints.length := by omega
  have hlast : u.sortedPoints[u.sortedPoints.length - 1]? =
      some u.sortedPoints[u.sortedPoints.length - 1] := List.getElem?_eq_getElem hn1
  have hc0 : u.cone[0]? = some u.sortedPoints[b] := by
    rw [h.cone_eq, coneAt_zero _ _ _ _ hbl, hx]
  have hbase : u.sortedPoints[b] = u.sortedPoints[u.sortedPoints.length - 1] ↔
      b + 1 = u.sortedPoints.length := by
    rw [← getElem?_eq_last_iff _ h.nodup b hbl, hx, hlast, Option.some.injEq]
  have hback : u.cone[u.cone.length - 1]? ≠ some u.sortedPoints[u.sortedPoints.length - 1] ↔
      u.positionInOne + 1 < u.sortedPoints.length := by
    rw [h.cone_eq, coneAt_last _ _ _ _ hbs hsl h.single hpl, ← hlast, Ne,
      getElem?_eq_last_iff _ h.nodup _ hpl]
    omega
  have hlen : u.cone.length > 1 ↔ sib ≤ u.positionInOne := by
    rw [h.cone_eq, coneAt_length _ _ _ _ hbl hpl]
    omega
  have hsecond : sib ≤ u.positionInOne →
      (u.cone[1]? ≠ some u.sortedPoints[u.sortedPoints.length - 1] ↔
        sib + 1 < u.sortedPoints.length) := by
    intro hle
    have := coneAt_succ u.sortedPoints b sib u.positionInOne 0 hbl (by omega)
    rw [h.cone_eq, this, ← hlast, Ne, Nat.add_zero,
      getElem?_eq_last_iff _ h.nodup _ (by omega)]
    omega
  have hidx : u.sortedPoints.indexOf u.sortedPoints[b] = b :=
    List.indexOf_getElem h.nodup b hbl
  by_cases hb1 : b + 1 = u.sortedPoints.length
  · refine ⟨{ u with isDone := true }, ?_, Or.inl ⟨hb1, rfl, ?_⟩⟩
    · simp only [nextCone, hc0, hlast]
      rw [if_pos (hbase.2 hb1)]
    · exact h.congr rfl rfl rfl rfl rfl rfl
  · have hb2 : b + 1 < u.sortedPoints.length := by omega
    have hne : ¬ u.sortedPoints[b] = u.sortedPoints[u.sortedPoints.length - 1] :=
      fun e => hb1 (hbase.1 e)
    by_cases hext : u.support > u.minSupp ∧ u.positionInOne + 1 < u.sortedPoints.length
    · -- Extend
      have hp : u.sortedPoints[u.positionInOne + 1]? =
          some u.sortedPoints[u.positionInOne + 1] := List.getElem?_eq_getElem hext.2
      obtain ⟨l, hl⟩ := h.indexed _ (List.getElem_mem hext.2)
      have hE : extend u = some
          { u with
            positionInOne := u.positionInOne + 1,
            cone := u.cone ++ [u.sortedPoints[u.positionInOne + 1]],
            cones := u.cones ++ [l] } := by
        simp only [extend, hp, hl]
      have hN : nextCone u = extend u := by
        simp only [nextCone, hc0, hlast]
        rw [if_neg hne, if_pos ⟨hext.1, hback.2 hext.2⟩]
      refine ⟨_, hN.trans hE, Or.inr (Or.inl ⟨hb2, hext, rfl, ?_, rfl⟩)⟩
      refine ⟨h.nodup, h.indexed, hbs, ?_, ?_, hext.2, h.count_eq, ?_,
        nextCone_parallel (hN.trans hE) h.parallel⟩
      · show sib ≤ u.positionInOne + 1 + 1
        omega
      · show u.positionInOne + 1 + 1 = sib → sib = b + 1
        omega
      · show u.cone ++ [_] = coneAt u.sortedPoints b sib (u.positionInOne + 1)
        rw [coneAt_extend _ _ _ _ _ hsl hp, h.cone_eq]
    · have hnext : ¬ (u.support > u.minSupp ∧
          u.cone[u.cone.length - 1]? ≠ some u.sortedPoints[u.sortedPoints.length - 1]) :=
        fun e => hext ⟨e.1, hback.1 e.2⟩
      by_cases hsib : u.support ≤ u.minSupp ∧ sib ≤ u.positionInOne ∧
          sib + 1 < u.sortedPoints.length
      · -- Reseed-sibling
        have hnp : u.sortedPoints.indexOf u.sortedPoints[b] + u.count = sib + 1 := by
          rw [hidx, h.count_eq]; omega
        have hq : u.sortedPoints[sib + 1]? = some u.sortedPoints[sib + 1] :=
          List.getElem?_eq_getElem hsib.2.2
        obtain ⟨l0, hl0⟩ := h.indexed _ (List.getElem_mem hbl)
        obtain ⟨l1, hl1⟩ := h.indexed _ (List.getElem_mem hsib.2.2)
        have hS : reseedSibling u u.sortedPoints[b] = some
            { u with
              count := u.count + 1, positionInOne := sib + 1,
              cone := [u.sortedPoints[b], u.sortedPoints[sib + 1]],
              cones := [l0, l1] } := by
          simp only [reseedSibling, hnp, hq, hl0, hl1]
        have hN : nextCone u = reseedSibling u u.sortedPoints[b] := by
          simp only [nextCone, hc0, hlast]
          rw [if_neg hne, if_neg hnext,
            if_pos ⟨hsib.1, hlen.2 hsib.2.1, (hsecond hsib.2.1).2 hsib.2.2⟩]
        refine ⟨_, hN.trans hS, Or.inr (Or.inr (Or.inl ⟨hb2, hext, hsib, rfl, ?_, rfl⟩))⟩
        refine ⟨h.nodup, h.indexed, by omega, ?_, ?_, hsib.2.2, ?_, ?_,
          nextCone_parallel (hN.trans hS) h.parallel⟩
        · show sib + 1 ≤ sib + 1 + 1
          omega
        · show sib + 1 + 1 = sib + 1 → sib + 1 = b + 1
          omega
        · show u.count + 1 = sib + 1 - b + 1
          rw [h.count_eq]; omega
        · show [_, _] = coneAt u.sortedPoints b (sib + 1) (sib + 1)
          rw [coneAt_pair _ _ _ _ _ hx hq]
      · -- Reseed-base
        have hnsib : ¬ (u.support ≤ u.minSupp ∧ u.cone.length > 1 ∧
            u.cone[1]? ≠ some u.sortedPoints[u.sortedPoints.length - 1]) := by
          rintro ⟨e1, e2, e3⟩
          exact hsib ⟨e1, hlen.1 e2, (hsecond (hlen.1 e2)).1 e3⟩
        have hp : u.sortedPoints[b + 1]? = some u.sortedPoints[b + 1] :=
          List.getElem?_eq_getElem hb2
        obtain ⟨l, hl⟩ := h.indexed _ (List.getElem_mem hb2)
        have hB : reseedBase u u.sortedPoints[b] = some
            { u with
              count := 2, positionInOne := b + 1,
              cone := [u.sortedPoints[b + 1]], cones := [l] } := by
          simp only [reseedBase, hidx, hp, hl]
        have hN : nextCone u = reseedBase u u.sortedPoints[b] := by
          simp only [nextCone, hc0, hlast]
          rw [if_neg hne, if_neg hnext, if_neg hnsib]
        refine ⟨_, hN.trans hB, Or.inr (Or.inr (Or.inr ⟨hb2, hext, hsib, rfl, ?_, rfl⟩))⟩
        refine ⟨h.nodup, h.indexed, by omega, ?_, ?_, hb2, ?_, ?_,
          nextCone_parallel (hN.trans hB) h.parallel⟩
        · show b + 2 ≤ b + 1 + 1
          omega
        · show b + 1 + 1 = b + 2 → b + 2 = b + 1 + 1
          omega
        · show 2 = b + 2 - (b + 1) + 1
          omega
        · show [_] = coneAt u.sortedPoints (b + 1) (b + 2) (b + 1)
          rw [coneAt_single _ _ _ hp]

theorem Shape.cones_ne_nil {s : SimplicialComplex} {b sib : Nat} (h : Shape s b sib) :
    s.cones ≠ [] := by
  have hbl : b < s.sortedPoints.length := by
    have := h.base_lt; have := h.sib_le; have := h.pos_lt; omega
  have h1 := coneAt_length s.sortedPoints b sib s.positionInOne hbl h.pos_lt
  have h2 : s.cone.length = s.cones.length := List.Forall₂.length_eq h.parallel
  have h3 : s.cone.length = 1 + (s.positionInOne + 1 - sib) := by rw [h.cone_eq]; exact h1
  intro e
  rw [e, List.length_nil] at h2
  omega

/-- One pass of the loop from a state of the given shape: the pass succeeds, and the
branch taken fixes the shape of the next state. -/
theorem step_shape {s : SimplicialComplex} {b sib : Nat} (h : Shape s b sib) :
    ∃ t, step s = some t ∧
      ((b + 1 = s.sortedPoints.length ∧ t.isDone = true ∧ Shape t b sib ∧
          t.cone = s.cone) ∨
       (b + 1 < s.sortedPoints.length ∧
          (t.support > s.minSupp ∧ s.positionInOne + 1 < s.sortedPoints.length) ∧
          t.isDone = s.isDone ∧ Shape t b sib ∧ t.positionInOne = s.positionInOne + 1) ∨
       (b + 1 < s.sortedPoints.length ∧
          ¬ (t.support > s.minSupp ∧ s.positionInOne + 1 < s.sortedPoints.length) ∧
          (t.support ≤ s.minSupp ∧ sib ≤ s.positionInOne ∧ sib + 1 < s.sortedPoints.length) ∧
          t.isDone = s.isDone ∧ Shape t b (sib + 1) ∧ t.positionInOne = sib + 1) ∨
       (b + 1 < s.sortedPoints.length ∧
          ¬ (t.support > s.minSupp ∧ s.positionInOne + 1 < s.sortedPoints.length) ∧
          ¬ (t.support ≤ s.minSupp ∧ sib ≤ s.positionInOne ∧
              sib + 1 < s.sortedPoints.length) ∧
          t.isDone = s.isDone ∧ Shape t (b + 1) (b + 2) ∧ t.positionInOne = b + 1)) := by
  obtain ⟨c, rest, hc⟩ := List.exists_cons_of_ne_nil h.cones_ne_nil
  have h1 := countFreq_support s c rest hc
  obtain ⟨u, hudef⟩ : ∃ u, u = accept { s with support := ((intersectLoop rest c).length : Int) } :=
    ⟨_, rfl⟩
  obtain ⟨a1, a2, a3, a4, a5, a6, a7, a8, a9⟩ :=
    accept_fields { s with support := ((intersectLoop rest c).length : Int) }
  rw [← hudef] at a1 a2 a3 a4 a5 a6 a7 a8 a9
  have hu : Shape u b sib := h.congr a2 a3 a4 a5 a6 a7
  obtain ⟨t, ht, hcases⟩ := nextCone_shape hu
  obtain ⟨-, -, hsup⟩ := nextCone_env ht
  have hsup' : u.support = t.support := hsup.symm
  have hmin : u.minSupp = s.minSupp := a9
  have hsp : u.sortedPoints = s.sortedPoints := a2
  have hpos : u.positionInOne = s.positionInOne := a4
  have hdone : u.isDone = s.isDone := a1
  rw [hsup', hmin, hsp, hpos, hdone] at hcases
  refine ⟨t, ?_, ?_⟩
  · simp only [step, h1, Option.some_bind, createCone]
    rw [← hudef]
    exact ht
  · rcases hcases with ⟨g1, g2, g3⟩ | g | g | g
    · left
      refine ⟨g1, ?_, g3, ?_⟩
      · rw [g2]
      · rw [g2]; exact a6
    · right; left
      exact g
    · right; right; left
      exact g
    · right; right; right
      exact g

theorem potential_extend (n b sib pos : Nat) (h : pos + 1 < n) :
    potential n b sib (pos + 1) < potential n b sib pos := by
  unfold potential
  omega

theorem potential_sibling (n b sib pos : Nat) (h1 : sib + 1 < n) (h2 : pos < n) :
    potential n b (sib + 1) (sib + 1) < potential n b sib pos := by
  unfold potential
  have e : n - sib = (n - (sib + 1)) + 1 := by omega
  rw [e, Nat.mul_succ]
  omega

theorem potential_base (n b sib pos : Nat) (h1 : b + 1 < n) :
    potential n (b + 1) (b + 2) (b + 1) < potential n b sib pos := by
  unfold potential
  have e : n - 1 - b = (n - 1 - (b + 1)) + 1 := by omega
  have e2 : n - (b + 2) = n - 1 - (b + 1) := by omega
  rw [e, e2, Nat.mul_succ]
  have h3 : n * (n - 1 - (b + 1)) ≤ n * (n - 1) := Nat.mul_le_mul_left n (by omega)
  have h4 : n * (n - 1) + n = n * n := by
    have e3 : n = (n - 1) + 1 := by omega
    conv_rhs => rw [e3, Nat.mul_succ]
    rw [← e3]
  omega

theorem potential_initial (n : Nat) (h : 0 < n) : potential n 0 1 0 = n ^ 3 := by
  obtain ⟨m, rfl⟩ : ∃ m, n = m + 1 := ⟨n - 1, by omega⟩
  unfold potential
  simp only [Nat.add_sub_cancel, Nat.sub_zero]
  ring

theorem stepN_succ_of_step {s u : SimplicialComplex} (k : Nat) (hd : s.isDone = false)
    (hs : step s = some u) : stepN (k + 1) s = stepN k u := by
  rw [stepN, hd, hs]
  rfl

theorem runLoop_of_stepN (k : Nat) {s t : SimplicialComplex} (h : stepN k s = some t)
    (hd : t.isDone = true) (fuel : Nat) (hf : k ≤ fuel) : runLoop fuel s = some t := by
  induction k generalizing s fuel with
  | zero =>
    simp only [stepN, Option.some.injEq] at h
    subst h
    cases fuel <;> simp [runLoop, hd]
  | succ k ih =>
    rw [stepN] at h
    split at h
    · simp at h
    · rename_i hnd
      cases hs : step s with
      | none => simp [hs] at h
      | some u =>
        simp only [hs, Option.some_bind] at h
        obtain ⟨f, rfl⟩ : ∃ f, fuel = f + 1 := ⟨fuel - 1, by omega⟩
        rw [runLoop, if_neg hnd, hs]
        exact ih h f (by omega)

/-- From a state of the given shape the loop is left after at most `potential` passes,
and every state on the way has a shape. -/
theorem terminates_of_shape (fuel : Nat) (s : SimplicialComplex) (b sib : Nat)
    (h : Shape s b sib) (hnd : s.isDone = false)
    (hf : potential s.sortedPoints.length b sib s.positionInOne ≤ fuel) :
    ∃ k t, k ≤ fuel ∧ stepN k s = some t ∧ t.isDone = true := by
  induction fuel generalizing s b sib with
  | zero => unfold potential at hf; omega
  | succ f ih =>
    obtain ⟨u, hu, hcases⟩ := step_shape h
    have henv := (step_results hu).1
    rcases hcases with ⟨-, g, -, -⟩ | ⟨-, g1, gd, g2, g3⟩ | ⟨-, -, g1, gd, g2, g3⟩ |
      ⟨g0, -, -, gd, g2, g3⟩
    · refine ⟨1, u, by omega, ?_, g⟩
      rw [stepN_succ_of_step 0 hnd hu]
      rfl
    · have hlt := potential_extend s.sortedPoints.length b sib s.positionInOne g1.2
      obtain ⟨k, t, hk, hkt, hd⟩ := ih u b sib g2 (gd.trans hnd) (by rw [henv.2.1, g3]; omega)
      exact ⟨k + 1, t, by omega, by rw [stepN_succ_of_step k hnd hu]; exact hkt, hd⟩
    · have hlt := potential_sibling s.sortedPoints.length b sib s.positionInOne g1.2.2 h.pos_lt
      obtain ⟨k, t, hk, hkt, hd⟩ :=
        ih u b (sib + 1) g2 (gd.trans hnd) (by rw [henv.2.1, g3]; omega)
      exact ⟨k + 1, t, by omega, by rw [stepN_succ_of_step k hnd hu]; exact hkt, hd⟩
    · have hlt := potential_base s.sortedPoints.length b sib s.positionInOne g0
      obtain ⟨k, t, hk, hkt, hd⟩ :=
        ih u (b + 1) (b + 2) g2 (gd.trans hnd) (by rw [henv.2.1, g3]; omega)
      exact ⟨k + 1, t, by omega, by rw [stepN_succ_of_step k hnd hu]; exact hkt, hd⟩

theorem mapAt_subscript (m : List (Int × List Nat)) (p : Int) (l : List Nat)
    (h : mapAt m p = some l) : subscript m p = (m, l) := by
  simp [subscript, h]

/-- The state that lines 121-124 of `firstStep` build from a non-empty Rank Order whose
items have posting lists. -/
theorem zeroSimplex_shape (s : SimplicialComplex) (hc : s.cones = [])
    (hcount : s.count = 2) (hne : s.sortedPoints ≠ [])
    (hnd : s.sortedPoints.Nodup)
    (hidx : ∀ x ∈ s.sortedPoints, ∃ l, mapAt s.points x = some l) :
    ∃ t, zeroSimplex s = some t ∧ Shape t 0 1 ∧ SameEnv s t ∧ t.isDone = s.isDone ∧
      t.simplicialComplexes = s.simplicialComplexes ∧ t.positionInOne = 0 ∧ t.count = 2 ∧
      t.cone = s.sortedPoints.take 1 := by
  obtain ⟨p, r, hr⟩ := List.exists_cons_of_ne_nil hne
  obtain ⟨l, hl⟩ := hidx p (by rw [hr]; exact List.mem_cons_self _ _)
  have h0 : s.sortedPoints[0]? = some p := by rw [hr]; simp
  have hz : zeroSimplex s = some
      { s with cone := [p], cones := [l], positionInOne := 0 } := by
    simp only [zeroSimplex, h0, mapAt_subscript _ _ _ hl, hc, List.nil_append]
  refine ⟨_, hz, ?_, ⟨rfl, rfl, rfl⟩, rfl, rfl, rfl, hcount, by rw [hr]; rfl⟩
  refine ⟨hnd, hidx, by omega, ?_, ?_, ?_, ?_, ?_, ?_⟩
  · show 1 ≤ 0 + 1
    omega
  · intro _; rfl
  · show 0 < s.sortedPoints.length
    rw [hr]; simp
  · show s.count = 1 - 0 + 1
    rw [hcount]
  · show [p] = coneAt s.sortedPoints 0 1 0
    rw [coneAt_single _ 0 p h0]
  · exact List.Forall₂.cons hl List.Forall₂.nil

/-! ## The start of the traversal -/

theorem mapAt_mapInsert_self (m : List (Int × List Nat)) (p : Int) (v : List Nat)
    (h : mapAt m p = none) : mapAt (mapInsert m p v) p = some v := by
  induction m with
  | nil => simp [mapInsert, mapAt]
  | cons hd m ih =>
    obtain ⟨k, w⟩ := hd
    rw [mapAt] at h
    split at h
    · simp at h
    · rename_i hne
      rw [mapInsert]
      split
      · simp [mapAt]
      · rw [mapAt, if_neg hne]
        exact ih h

theorem firstStep_eq (s : SimplicialComplex) (hf : s.frequencyOfPoints = [])
    (hs : s.sortedPoints = []) :
    firstStep s =
      zeroSimplex { s with frequencyOfPoints := sort (prune s.minSupp s.points),
                           sortedPoints := rankOrder s.minSupp s.points } := by
  rw [firstStep, rankPoints_eq s hf hs]
  rfl

/-- The state built by lines 121-124 of `firstStep` satisfies the invariant `Sound`. -/
theorem zeroSimplex_sound {s t : SimplicialComplex} (hc : s.cones = [])
    (hr : s.simplicialComplexes = [])
    (hidx : ∀ x ∈ s.sortedPoints, ∃ l, mapAt s.points x = some l)
    (h : zeroSimplex s = some t) : Sound t ∧ SameEnv s t := by
  cases h0 : s.sortedPoints[0]? with
  | none => simp [zeroSimplex, h0] at h
  | some p =>
    obtain ⟨l, hl⟩ := hidx p (List.getElem?_mem h0)
    simp only [zeroSimplex, h0, mapAt_subscript _ _ _ hl, hc, List.nil_append,
      Option.some.injEq] at h
    subst h
    refine ⟨⟨List.Forall₂.cons hl List.Forall₂.nil, ?_, ?_⟩, ⟨rfl, rfl, rfl⟩⟩
    · intro x hx
      rw [List.mem_singleton] at hx
      subst hx
      exact List.getElem?_mem h0
    · intro e he
      change e ∈ s.simplicialComplexes at he
      rw [hr] at he
      simp at he

/-! ## The claims -/

/-- C1 (acceptance correctness). Take any index and any threshold, let `firstStep` build
its Rank Order and first cone, and let the loop of `run` make any number `k` of passes.
In the state reached, the stack `cones` is parallel to `cone` (same length, `cones[i]`
is the posting list of `cone[i]`), and every result entry `(itemset, support)` has
`support >= minSupp` and `support` equal to the size of the intersection, folded left
to right, of the posting lists of exactly the items of `itemset`; when those posting
lists are strictly ascending this is the number of transactions common to all of
them. -/
theorem acceptance_correct (points : List (Int × List Nat)) (minSupp : Int) (k : Nat)
    (s : SimplicialComplex)
    (hreach : (firstStep { init with points := points, minSupp := minSupp }).bind (stepN k)
      = some s) :
    (PostingLists points s.cone s.cones ∧ s.cones.length = s.cone.length) ∧
      ∀ e ∈ s.simplicialComplexes,
        minSupp ≤ e.2 ∧
          ∃ L, PostingLists points e.1 L ∧ L ≠ [] ∧ e.2 = ((interFold L).length : Int) ∧
            ((∀ l ∈ L, StrictAsc l) → e.2 = ((commonTransactions L).card : Int)) := by
  rw [firstStep_eq _ rfl rfl] at hreach
  cases h1 : zeroSimplex { ({ init with points := points, minSupp := minSupp } :
      SimplicialComplex) with
      frequencyOfPoints := sort (prune minSupp points),
      sortedPoints := rankOrder minSupp points } with
  | none =>
    rw [show ({ init with points := points, minSupp := minSupp } : SimplicialComplex).minSupp
      = minSupp from rfl,
      show ({ init with points := points, minSupp := minSupp } : SimplicialComplex).points
      = points from rfl, h1] at hreach
    simp at hreach
  | some s1 =>
    rw [show ({ init with points := points, minSupp := minSupp } : SimplicialComplex).minSupp
      = minSupp from rfl,
      show ({ init with points := points, minSupp := minSupp } : SimplicialComplex).points
      = points from rfl, h1, Option.some_bind] at hreach
    obtain ⟨hs1, henv1⟩ := zeroSimplex_sound rfl rfl (rankOrder_indexed minSupp points) h1
    obtain ⟨hs, henv⟩ := stepN_sound k hreach hs1
    have hp : s.points = points := henv.1.trans henv1.1
    have hm : s.minSupp = minSupp := henv.2.2.trans henv1.2.2
    obtain ⟨hpar, -, hres⟩ := hs
    unfold Parallel at hpar
    rw [hp] at hpar
    refine ⟨⟨hpar, (List.Forall₂.length_eq hpar).symm⟩, ?_⟩
    intro e he
    obtain ⟨⟨h2, L, h3, h4, h5⟩, -⟩ := hres e he
    rw [hp] at h3
    rw [hm] at h2
    refine ⟨h2, L, h3, h4, h5, ?_⟩
    intro hasc
    rw [h5, interFold_card L h4 hasc]

theorem acceptance_correct_witness :
    (firstStep { init with points := [(1, [0, 1, 3]), (2, [0, 1, 2]), (3, [0, 2, 3])],
                           minSupp := 1 }).bind (stepN 3) = some stateAfterThree ∧
      ((PostingLists [(1, [0, 1, 3]), (2, [0, 1, 2]), (3, [0, 2, 3])] stateAfterThree.cone
          stateAfterThree.cones ∧
        stateAfterThree.cones.length = stateAfterThree.cone.length) ∧
      ∀ e ∈ stateAfterThree.simplicialComplexes,
        (1 : Int) ≤ e.2 ∧
          ∃ L, PostingLists [(1, [0, 1, 3]), (2, [0, 1, 2]), (3, [0, 2, 3])] e.1 L ∧ L ≠ [] ∧
            e.2 = ((interFold L).length : Int) ∧
            ((∀ l ∈ L, StrictAsc l) → e.2 = ((commonTransactions L).card : Int))) :=
  ⟨by decide,
    acceptance_correct [(1, [0, 1, 3]), (2, [0, 1, 2]), (3, [0, 2, 3])] 1 3 stateAfterThree
      (by decide)⟩

/-- C2 (support counter). For a non-empty stack of strictly ascending posting lists,
`countFreq` succeeds, changes only `support`, and sets it to the number of transactions
that are in every list of the stack. For a stack of one list this is the length of the
list, and it is `0` as soon as the lists of some initial part of the stack have no
transaction in common. -/
theorem countFreq_counts_common (s : SimplicialComplex) (hne : s.cones ≠ [])
    (hasc : ∀ l ∈ s.cones, StrictAsc l) :
    ∃ t, countFreq s = some t ∧ t = { s with support := t.support } ∧
      t.support = ((commonTransactions s.cones).card : Int) ∧
      (∀ x, x ∈ commonTransactions s.cones ↔ ∀ l ∈ s.cones, x ∈ l) ∧
      (∀ l, s.cones = [l] → t.support = (l.length : Int)) ∧
      (∀ j, 0 < j → j ≤ s.cones.length → commonTransactions (s.cones.take j) = ∅ →
        t.support = 0) := by
  obtain ⟨c, rest, hc⟩ := List.exists_cons_of_ne_nil hne
  have hcard : ((intersectLoop rest c).length : Int) = ((commonTransactions s.cones).card : Int) := by
    rw [hc, intersectLoop_card c rest (by rw [← hc]; exact hasc)]
  refine ⟨_, countFreq_support s c rest hc, rfl, hcard, ?_, ?_, ?_⟩
  · intro x
    rw [hc]
    exact mem_commonTransactions c rest x
  · intro l hl
    rw [hc] at hl
    injection hl with h1 h2
    subst h1; subst h2
    rfl
  · intro j hj hjl hempty
    show ((intersectLoop rest c).length : Int) = 0
    rw [hcard]
    have hsub := commonTransactions_append_subset (s.cones.take j) (s.cones.drop j) (by
      intro e
      have := congrArg List.length e
      rw [List.length_take, List.length_nil] at this
      omega)
    rw [List.take_append_drop, hempty] at hsub
    rw [Finset.subset_empty.1 hsub]
    rfl

theorem countFreq_counts_common_witness :
    ({ init with cones := [[0, 1, 3], [0, 1, 2], [2]] } : SimplicialComplex).cones ≠ [] ∧
      (∀ l ∈ ({ init with cones := [[0, 1, 3], [0, 1, 2], [2]] } : SimplicialComplex).cones,
        StrictAsc l) ∧
      countFreq { init with cones := [[0, 1, 3], [0, 1, 2], [2]] } =
        some { init with cones := [[0, 1, 3], [0, 1, 2], [2]], support := 0 } ∧
      ∃ t, countFreq { init with cones := [[0, 1, 3], [0, 1, 2], [2]] } = some t ∧
        t = { ({ init with cones := [[0, 1, 3], [0, 1, 2], [2]] } : SimplicialComplex) with
              support := t.support } ∧
        t.support = ((commonTransactions
          ({ init with cones := [[0, 1, 3], [0, 1, 2], [2]] } : SimplicialComplex).cones).card
            : Int) ∧
        (∀ x, x ∈ commonTransactions
            ({ init with cones := [[0, 1, 3], [0, 1, 2], [2]] } : SimplicialComplex).cones ↔
          ∀ l ∈ ({ init with cones := [[0, 1, 3], [0, 1, 2], [2]] } : SimplicialComplex).cones,
            x ∈ l) ∧
        (∀ l, ({ init with cones := [[0, 1, 3], [0, 1, 2], [2]] } : SimplicialComplex).cones
            = [l] → t.support = (l.length : Int)) ∧
        (∀ j, 0 < j →
          j ≤ ({ init with cones := [[0, 1, 3], [0, 1, 2], [2]] } : SimplicialComplex).cones.length →
          commonTransactions
            (({ init with cones := [[0, 1, 3], [0, 1, 2], [2]] } : SimplicialComplex).cones.take j)
              = ∅ →
          t.support = 0) :=
  ⟨by decide, by decide, by decide,
    countFreq_counts_common { init with cones := [[0, 1, 3], [0, 1, 2], [2]] }
      (by decide) (by decide)⟩

/-- C3 (index correctness). In the index that `readFile` builds from the rows of the
file, transaction `t` is in the posting list of item `i` exactly when row `t` (counted
from zero) contains `i`, and an item has no entry exactly when it occurs in no row. -/
theorem readFile_index_correct (rows : List (List Int)) (i : Int) (t : Nat) :
    ((∃ l, mapAt (readFile init rows).points i = some l ∧ t ∈ l) ↔
        ∃ row, rows[t]? = some row ∧ i ∈ row) ∧
      (mapAt (readFile init rows).points i = none ↔ ∀ row ∈ rows, i ∉ row) := by
  constructor
  · have hp := posting_readFile rows i
    have hm := mem_occurrences i rows 0 t
    have hiff : (∃ l, mapAt (readFile init rows).points i = some l ∧ t ∈ l) ↔
        t ∈ posting (readFile init rows).points i := by
      unfold posting
      cases mapAt (readFile init rows).points i with
      | none => simp
      | some l => simp
    rw [hiff, hp, hm]
    constructor
    · rintro ⟨j, row, h1, h2, h3⟩
      have : t = j := by omega
      subst this
      exact ⟨row, h1, h3⟩
    · rintro ⟨row, h1, h3⟩
      exact ⟨t, row, h1, by omega, h3⟩
  · have hs := isSome_readFile rows i
    rw [← Option.not_isSome_iff_eq_none, hs]
    push_neg
    rfl

/-- C4 (termination). For any index and any non-empty Rank Order of `n` distinct items
that have posting lists in the index, lines 121-124 of `firstStep` build the initial
state (cone = the first ranked item, cursor 0, skip counter 2, not done), and the loop
`while (!isDone) { countFreq(); createCone(); }` started there sets `isDone` after a
number `k` of passes with `k ≤ n^3`; no pass fails on the way. -/
theorem traversal_terminates (points : List (Int × List Nat)) (sortedPoints : List Int)
    (minSupp : Int) (hne : sortedPoints ≠ []) (hnd : sortedPoints.Nodup)
    (hidx : ∀ x ∈ sortedPoints, (mapAt points x).isSome = true) :
    ∃ s1, zeroSimplex { init with points := points, sortedPoints := sortedPoints,
                                  minSupp := minSupp } = some s1 ∧
      s1.cone = sortedPoints.take 1 ∧ s1.positionInOne = 0 ∧ s1.count = 2 ∧
      s1.isDone = false ∧
      ∃ k t, k ≤ sortedPoints.length ^ 3 ∧ stepN k s1 = some t ∧ t.isDone = true ∧
        runLoop (sortedPoints.length ^ 3) s1 = some t := by
  obtain ⟨s1, h1, hshape, henv, hdone, -, hpos, hcount, hcone⟩ :=
    zeroSimplex_shape { init with points := points, sortedPoints := sortedPoints,
                                  minSupp := minSupp } rfl rfl hne hnd
      (fun x hx => Option.isSome_iff_exists.1 (hidx x hx))
  have hlen : 0 < sortedPoints.length := List.length_pos.2 hne
  have hsp : s1.sortedPoints = sortedPoints := henv.2.1
  obtain ⟨k, t, hk, hkt, hd⟩ :=
    terminates_of_shape (sortedPoints.length ^ 3) s1 0 1 hshape hdone
      (by rw [hsp, hpos, potential_initial _ hlen])
  exact ⟨s1, h1, hcone, hpos, hcount, hdone, k, t, hk, hkt, hd,
    runLoop_of_stepN k hkt hd _ hk⟩

theorem traversal_terminates_witness :
    ([1, 2, 3] : List Int) ≠ [] ∧ ([1, 2, 3] : List Int).Nodup ∧
      (∀ x ∈ ([1, 2, 3] : List Int),
        (mapAt [(1, [0, 1, 3]), (2, [0, 1, 2]), (3, [0, 2, 3])] x).isSome = true) ∧
      ∃ s1, zeroSimplex { init with points := [(1, [0, 1, 3]), (2, [0, 1, 2]), (3, [0, 2, 3])],
                                    sortedPoints := [1, 2, 3], minSupp := 1 } = some s1 ∧
        s1.cone = ([1, 2, 3] : List Int).take 1 ∧ s1.positionInOne = 0 ∧ s1.count = 2 ∧
        s1.isDone = false ∧
        ∃ k t, k ≤ ([1, 2, 3] : List Int).length ^ 3 ∧ stepN k s1 = some t ∧
          t.isDone = true ∧ runLoop (([1, 2, 3] : List Int).length ^ 3) s1 = some t :=
  ⟨by decide, by decide, by decide,
    traversal_terminates [(1, [0, 1, 3]), (2, [0, 1, 2]), (3, [0, 2, 3])] [1, 2, 3] 1
      (by decide) (by decide) (by decide)⟩

/-- C5 (item ranker). For a well-formed index and a threshold `minSupp` in the
non-negative range of `int`, lines 102-119 of `firstStep` succeed and build a Rank
Order `sortedPoints` that holds exactly the items whose posting list is longer than
`minSupp`, each once, with the posting-list length not increasing from one position to
the next; `firstStep` keeps that Rank Order. -/
theorem rank_order_correct (points : List (Int × List Nat)) (minSupp : Int)
    (hk : KeysAscending points) (h0 : 0 ≤ minSupp) (h1 : minSupp < 2 ^ 31) :
    ∃ s', rankPoints { init with points := points, minSupp := minSupp } = some s' ∧
      (∀ s1, firstStep { init with points := points, minSupp := minSupp } = some s1 →
        s1.sortedPoints = s'.sortedPoints) ∧
      s'.sortedPoints.Nodup ∧
      (∀ i, i ∈ s'.sortedPoints ↔
        ∃ l, mapAt points i = some l ∧ minSupp < (l.length : Int)) ∧
      (∀ j a b, s'.sortedPoints[j]? = some a → s'.sortedPoints[j + 1]? = some b →
        (posting points b).length ≤ (posting points a).length) := by
  have hperm := rankOrder_perm minSupp points
  refine ⟨_, rankPoints_eq { init with points := points, minSupp := minSupp } rfl rfl,
    ?_, ?_, ?_, ?_⟩
  · intro s1 hs1
    rw [firstStep_eq _ rfl rfl] at hs1
    cases h0' : (rankOrder minSupp points)[0]? with
    | none =>
      have : zeroSimplex { ({ init with points := points, minSupp := minSupp } :
          SimplicialComplex) with
          frequencyOfPoints := sort (prune minSupp points),
          sortedPoints := rankOrder minSupp points } = none := by
        simp only [zeroSimplex, h0']
      rw [show ({ init with points := points, minSupp := minSupp } :
          SimplicialComplex).minSupp = minSupp from rfl,
        show ({ init with points := points, minSupp := minSupp } :
          SimplicialComplex).points = points from rfl, this] at hs1
      simp at hs1
    | some p =>
      simp only [zeroSimplex, h0', Option.some.injEq] at hs1
      rw [← hs1]
  · exact hperm.nodup_iff.2 (survivors_keys_nodup minSupp points hk)
  · intro i
    show i ∈ rankOrder minSupp points ↔ _
    rw [hperm.mem_iff, mem_survivors_keys minSupp points hk]
    constructor
    · rintro ⟨l, h2, h3⟩
      exact ⟨l, h2, (sizeExceeds_iff _ _ h0 h1).1 h3⟩
    · rintro ⟨l, h2, h3⟩
      exact ⟨l, h2, (sizeExceeds_iff _ _ h0 h1).2 h3⟩
  · intro j a b ha hb
    have hpw := rankOrder_pairwise minSupp points hk
    change (rankOrder minSupp points)[j]? = some a at ha
    change (rankOrder minSupp points)[j + 1]? = some b at hb
    obtain ⟨hj, rfl⟩ := List.getElem?_eq_some_iff.1 ha
    obtain ⟨hj1, rfl⟩ := List.getElem?_eq_some_iff.1 hb
    exact List.pairwise_iff_getElem.1 hpw j (j + 1) hj hj1 (by omega)

theorem rank_order_correct_witness :
    KeysAscending [(1, [0, 1]), (2, [0]), (3, [0, 1, 2]), (4, [1, 2])] ∧
      (0 : Int) ≤ 1 ∧ (1 : Int) < 2 ^ 31 ∧
      rankPoints { init with points := [(1, [0, 1]), (2, [0]), (3, [0, 1, 2]), (4, [1, 2])],
                             minSupp := 1 } =
        some { init with points := [(1, [0, 1]), (2, [0]), (3, [0, 1, 2]), (4, [1, 2])],
                         minSupp := 1,
                         frequencyOfPoints := [([3], 3), ([1], 2), ([4], 2)],
                         sortedPoints := [3, 1, 4] } ∧
      ∃ s', rankPoints { init with
          points := [(1, [0, 1]), (2, [0]), (3, [0, 1, 2]), (4, [1, 2])],
          minSupp := 1 } = some s' ∧
        (∀ s1, firstStep { init with
            points := [(1, [0, 1]), (2, [0]), (3, [0, 1, 2]), (4, [1, 2])],
            minSupp := 1 } = some s1 → s1.sortedPoints = s'.sortedPoints) ∧
        s'.sortedPoints.Nodup ∧
        (∀ i, i ∈ s'.sortedPoints ↔
          ∃ l, mapAt [(1, [0, 1]), (2, [0]), (3, [0, 1, 2]), (4, [1, 2])] i = some l ∧
            (1 : Int) < (l.length : Int)) ∧
        (∀ j a b, s'.sortedPoints[j]? = some a → s'.sortedPoints[j + 1]? = some b →
          (posting [(1, [0, 1]), (2, [0]), (3, [0, 1, 2]), (4, [1, 2])] b).length ≤
            (posting [(1, [0, 1]), (2, [0]), (3, [0, 1, 2]), (4, [1, 2])] a).length) :=
  ⟨by decide, by decide, by decide, by decide,
    rank_order_correct [(1, [0, 1]), (2, [0]), (3, [0, 1, 2]), (4, [1, 2])] 1
      (by decide) (by decide) (by decide)⟩

/-- C6 (antimonotonicity). When the stack of a cone `C` is non-empty and the stack of
a cone `C'` continues it by further posting lists, `countFreq` succeeds on both and
the support it computes for `C'` is at most the support it computes for `C`. -/
theorem countFreq_antimonotone (s s' : SimplicialComplex) (extra : List (List Nat))
    (hne : s.cones ≠ []) (hpre : s'.cones = s.cones ++ extra) :
    ∃ t t', countFreq s = some t ∧ countFreq s' = some t' ∧ t'.support ≤ t.support := by
  obtain ⟨c, rest, hc⟩ := List.exists_cons_of_ne_nil hne
  have hc' : s'.cones = c :: (rest ++ extra) := by rw [hpre, hc]; rfl
  refine ⟨_, _, countFreq_support s c rest hc, countFreq_support s' c _ hc', ?_⟩
  show ((intersectLoop (rest ++ extra) c).length : Int) ≤ ((intersectLoop rest c).length : Int)
  rw [intersectLoop_append]
  exact_mod_cast intersectLoop_length_le extra (intersectLoop rest c)

theorem countFreq_antimonotone_witness :
    ({ init with cones := [[0, 1, 3], [0, 1, 2]] } : SimplicialComplex).cones ≠ [] ∧
      ({ init with cones := [[0, 1, 3], [0, 1, 2], [0, 2, 3]] } : SimplicialComplex).cones =
        ({ init with cones := [[0, 1, 3], [0, 1, 2]] } : SimplicialComplex).cones
          ++ [[0, 2, 3]] ∧
      ∃ t t', countFreq { init with cones := [[0, 1, 3], [0, 1, 2]] } = some t ∧
        countFreq { init with cones := [[0, 1, 3], [0, 1, 2], [0, 2, 3]] } = some t' ∧
        t'.support ≤ t.support :=
  ⟨by decide, by decide,
    countFreq_antimonotone { init with cones := [[0, 1, 3], [0, 1, 2]] }
      { init with cones := [[0, 1, 3], [0, 1, 2], [0, 2, 3]] } [[0, 2, 3]]
      (by decide) (by decide)⟩

/-! ## Completed runs -/

theorem stepN_env (k : Nat) {s t : SimplicialComplex} (h : stepN k s = some t) :
    SameEnv s t ∧ ∃ more, t.simplicialComplexes = s.simplicialComplexes ++ more := by
  induction k generalizing s with
  | zero =>
    simp only [stepN, Option.some.injEq] at h
    subst h
    exact ⟨SameEnv.refl s, [], by simp⟩
  | succ k ih =>
    rw [stepN] at h
    split at h
    · simp at h
    · cases h1 : step s with
      | none => simp [h1] at h
      | some u =>
        simp only [h1, Option.some_bind] at h
        obtain ⟨h2, more, h3⟩ := ih h
        obtain ⟨g1, -, -, g2⟩ := step_results h1
        refine ⟨g1.trans h2, (if s.minSupp ≤ ((interFold s.cones).length : Int) then
          [(s.cone, ((interFold s.cones).length : Int))] else []) ++ more, ?_⟩
        rw [h3, g2, List.append_assoc]

/-- A completed run whose first cone is accepted has a non-empty result list. -/
theorem stepN_results_ne_nil (k : Nat) {s t : SimplicialComplex} (h : stepN k s = some t)
    (hnd : s.isDone = false) (hd : t.isDone = true)
    (hacc : s.minSupp ≤ ((interFold s.cones).length : Int)) :
    t.simplicialComplexes ≠ [] := by
  cases k with
  | zero =>
    simp only [stepN, Option.some.injEq] at h
    subst h
    rw [hnd] at hd
    simp at hd
  | succ k =>
    rw [stepN, hnd] at h
    cases h1 : step s with
    | none => simp [h1] at h
    | some u =>
      simp only [h1, Option.some_bind] at h
      obtain ⟨-, more, h3⟩ := stepN_env k h
      obtain ⟨-, -, -, g2⟩ := step_results h1
      rw [h3, g2, if_pos hacc]
      simp

theorem setIntersection_self (l : List Nat) : setIntersection l l = l := by
  induction l with
  | nil => rfl
  | cons a l ih =>
    rw [setIntersection_cons_cons, if_neg (lt_irrefl a), if_neg (lt_irrefl a), ih]

theorem interFold_const (L : List (List Nat)) (l0 : List Nat) (hne : L ≠ [])
    (h : ∀ l ∈ L, l = l0) : interFold L = l0 := by
  obtain ⟨c, rest, rfl⟩ := List.exists_cons_of_ne_nil hne
  have hc : c = l0 := h c (List.mem_cons_self _ _)
  subst hc
  have hrest : ∀ l ∈ rest, l = c := fun l hl => h l (List.mem_cons_of_mem _ hl)
  rw [interFold]
  clear h hne
  induction rest with
  | nil => rfl
  | cons d rest ih =>
    have hd : d = c := hrest d (List.mem_cons_self _ _)
    rw [List.foldl_cons, hd, setIntersection_self]
    exact ih (fun l hl => hrest l (List.mem_cons_of_mem _ hl))

theorem postingLists_mem {points : List (Int × List Nat)} {itemset : List Int}
    {L : List (List Nat)} (h : PostingLists points itemset L) :
    ∀ l ∈ L, ∃ x ∈ itemset, mapAt points x = some l := by
  unfold PostingLists at h
  induction h with
  | nil => simp
  | cons hxl _ ih =>
    intro l hl
    rcases List.mem_cons.1 hl with hl | hl
    · subst hl
      exact ⟨_, List.mem_cons_self _ _, hxl⟩
    · obtain ⟨x, hx, hx2⟩ := ih l hl
      exact ⟨x, List.mem_cons_of_mem _ hx, hx2⟩

theorem occurrences_sublist (i : Int) (rows : List (List Int)) (n : Nat)
    (hnd : ∀ row ∈ rows, row.Nodup) :
    (occurrences i n rows).Sublist (List.range' n rows.length) := by
  induction rows generalizing n with
  | nil => simp [occurrences]
  | cons row rows ih =>
    have h1 : row.count i ≤ 1 :=
      List.nodup_iff_count_le_one.1 (hnd row (List.mem_cons_self _ _)) i
    have h2 := ih (n + 1) (fun r hr => hnd r (List.mem_cons_of_mem _ hr))
    rw [occurrences, List.length_cons, List.range'_succ]
    rcases Nat.le_one_iff_eq_zero_or_eq_one.1 h1 with h0 | h0
    · rw [h0]
      exact h2.cons _
    · rw [h0]
      exact h2.cons₂ _

theorem occurrences_length_ge (i : Int) (rows : List (List Int)) (n : Nat)
    (hall : ∀ row ∈ rows, i ∈ row) : rows.length ≤ (occurrences i n rows).length := by
  induction rows generalizing n with
  | nil => simp
  | cons row rows ih =>
    have h1 : 0 < row.count i := List.count_pos_iff.2 (hall row (List.mem_cons_self _ _))
    have h2 := ih (n + 1) (fun r hr => hall r (List.mem_cons_of_mem _ hr))
    rw [occurrences, List.length_append, List.length_replicate, List.length_cons]
    omega

theorem mapAt_readFile (rows : List (List Int)) (i : Int) (l : List Nat)
    (h : mapAt (readFile init rows).points i = some l) : l = occurrences i 0 rows := by
  have := posting_readFile rows i
  rw [posting, h] at this
  exact this

theorem mapAt_readFile_of_mem (rows : List (List Int)) (i : Int) (row : List Int)
    (hrow : row ∈ rows) (hi : i ∈ row) :
    mapAt (readFile init rows).points i = some (occurrences i 0 rows) := by
  have h1 := (isSome_readFile rows i).2 ⟨row, hrow, hi⟩
  obtain ⟨l, hl⟩ := Option.isSome_iff_exists.1 h1
  rw [hl, mapAt_readFile rows i l hl]

/-- A run of the whole algorithm, from the file to the end of the loop, when the Rank
Order comes out non-empty. -/
theorem run_completes (rows : List (List Int)) (minSupp : Int)
    (hne : rankOrder minSupp (readFile init rows).points ≠ []) :
    ∃ fuel s1 t k, firstStep (readFile { init with minSupp := minSupp } rows) = some s1 ∧
      s1.isDone = false ∧ s1.cone = (rankOrder minSupp (readFile init rows).points).take 1 ∧
      Sound s1 ∧ Shape s1 0 1 ∧ stepN k s1 = some t ∧
      run { init with minSupp := minSupp } rows fuel = some t ∧ t.isDone = true ∧
      Sound t ∧ t.points = (readFile init rows).points ∧ t.minSupp = minSupp ∧
      t.sortedPoints = rankOrder minSupp (readFile init rows).points := by
  have hk := keysAscending_readFile rows
  have hperm := rankOrder_perm minSupp (readFile init rows).points
  have hnd : (rankOrder minSupp (readFile init rows).points).Nodup :=
    hperm.nodup_iff.2 (survivors_keys_nodup minSupp _ hk)
  have hidx := rankOrder_indexed minSupp (readFile init rows).points
  have hfirst := firstStep_eq (readFile { init with minSupp := minSupp } rows) rfl rfl
  obtain ⟨s1, h1, hshape, henv, hdone, -, hpos, -, hcone⟩ :=
    zeroSimplex_shape
      { (readFile { init with minSupp := minSupp } rows) with
        frequencyOfPoints := sort (prune minSupp (readFile init rows).points),
        sortedPoints := rankOrder minSupp (readFile init rows).points }
      rfl rfl hne hnd hidx
  obtain ⟨hsound1, -⟩ := zeroSimplex_sound rfl rfl hidx h1
  have hsp : s1.sortedPoints = rankOrder minSupp (readFile init rows).points := henv.2.1
  obtain ⟨k, t, -, hkt, hd⟩ :=
    terminates_of_shape _ s1 0 1 hshape hdone (le_refl _)
  obtain ⟨hsound, henv2⟩ := stepN_sound k hkt hsound1
  have hf1 : firstStep (readFile { init with minSupp := minSupp } rows) = some s1 :=
    hfirst.trans h1
  refine ⟨k, s1, t, k, hf1, hdone, hcone, hsound1, hshape, hkt, ?_, hd, hsound,
    henv2.1.trans henv.1, henv2.2.2.trans henv.2.2, henv2.2.1.trans hsp⟩
  rw [run, hf1, Option.some_bind]
  exact runLoop_of_stepN k hkt hd k (le_refl _)

theorem rankOrder_eq_nil (minSupp : Int) (m : List (Int × List Nat))
    (h : ∀ kv ∈ m, sizeExceeds kv.2.length minSupp = false) : rankOrder minSupp m = [] := by
  have hs : survivors minSupp m = [] := by
    rw [survivors, List.filter_eq_nil_iff]
    intro kv hkv
    rw [h kv hkv]
    simp
  have := rankOrder_perm minSupp m
  rw [hs] at this
  exact List.Perm.eq_nil this

/-- When no item passes the pruning test, `firstStep` fails at line 122, which reads
`sortedPoints[0]` of an empty vector. -/
theorem firstStep_none_of_no_survivor (s : SimplicialComplex) (hf : s.frequencyOfPoints = [])
    (hs : s.sortedPoints = [])
    (h : ∀ kv ∈ s.points, sizeExceeds kv.2.length s.minSupp = false) :
    firstStep s = none := by
  rw [firstStep_eq s hf hs]
  simp only [zeroSimplex, rankOrder_eq_nil s.minSupp s.points h]
  rfl

/-- All posting lists of ranked items being one list `l0`, every stack of a sound state
is made of copies of `l0` and every result has support `l0.length`. -/
theorem sound_const {s : SimplicialComplex} (l0 : List Nat) (hs : Sound s)
    (hall : ∀ x ∈ s.sortedPoints, mapAt s.points x = some l0) :
    (∀ l ∈ s.cones, l = l0) ∧ ∀ e ∈ s.simplicialComplexes, e.2 = (l0.length : Int) := by
  obtain ⟨hpar, hranked, hres⟩ := hs
  constructor
  · intro l hl
    obtain ⟨x, hx, hxl⟩ := postingLists_mem hpar l hl
    have := hall x (hranked x hx)
    rw [hxl] at this
    injection this
  · intro e he
    obtain ⟨⟨-, L, h1, h2, h3⟩, h4⟩ := hres e he
    have hL : ∀ l ∈ L, l = l0 := by
      intro l hl
      obtain ⟨x, hx, hxl⟩ := postingLists_mem h1 l hl
      have := hall x (h4 x hx)
      rw [hxl] at this
      injection this
    rw [h3, interFold_const L l0 h2 hL]

/-- C7 (empty Rank Order), evaluated on the code. For the data file with the single
row holding item 1 and the constructor's `minSupp = 1`, no item passes the pruning
test, the Rank Order is empty, and `firstStep` fails at line 122, which reads
`sortedPoints[0]` of the empty vector: the run does not finish with an empty result
list, whatever the fuel. -/
theorem empty_rank_order_read_fails :
    (rankPoints (readFile init [[1]])).map (fun s => s.sortedPoints) = some [] ∧
      firstStep (readFile init [[1]]) = none ∧
      ∀ fuel, run init [[1]] fuel = none := by
  refine ⟨by decide, by decide, ?_⟩
  intro fuel
  have h : firstStep (readFile init [[1]]) = none := by decide
  rw [run, h]
  rfl

/-- C8, the claim refuted. With `minSupp = 0` and the data file with the single row
holding item 1, nothing is rejected: the item is ranked, the loop runs, and the result
list holds the entry `([1], 1)`. -/
theorem zero_threshold_not_rejected :
    (run { init with minSupp := 0 } [[1]] 1).map
        (fun s => (s.minSupp, s.sortedPoints, s.isDone, s.simplicialComplexes)) =
      some (0, [1], true, [([1], 1)]) := by
  decide

/-- C8 as amended. The code tests the sign of the threshold nowhere. With `minSupp = 0`
and any table in which some item occurs, the run is an ordinary one: `firstStep` ranks
exactly the items that occur in the table, the loop finishes, and the result list is
not empty. -/
theorem zero_threshold_runs (rows : List (List Int)) (hocc : ∃ row ∈ rows, row ≠ []) :
    ∃ fuel t, run { init with minSupp := 0 } rows fuel = some t ∧ t.isDone = true ∧
      t.minSupp = 0 ∧ (∀ i, i ∈ t.sortedPoints ↔ ∃ row ∈ rows, i ∈ row) ∧
      t.simplicialComplexes ≠ [] := by
  have hk := keysAscending_readFile rows
  have hmem : ∀ i, i ∈ rankOrder 0 (readFile init rows).points ↔ ∃ row ∈ rows, i ∈ row := by
    intro i
    rw [(rankOrder_perm 0 _).mem_iff, mem_survivors_keys 0 _ hk]
    constructor
    · rintro ⟨l, h1, -⟩
      exact (isSome_readFile rows i).1 (by rw [h1]; rfl)
    · rintro ⟨row, hrow, hi⟩
      refine ⟨_, mapAt_readFile_of_mem rows i row hrow hi, ?_⟩
      rw [sizeExceeds_iff _ _ (le_refl _) (by norm_num)]
      obtain ⟨j, hj⟩ := List.mem_iff_getElem?.1 hrow
      have : j ∈ occurrences i 0 rows :=
        (mem_occurrences i rows 0 j).2 ⟨j, row, hj, by omega, hi⟩
      exact_mod_cast List.length_pos_of_mem this
  have hne : rankOrder 0 (readFile init rows).points ≠ [] := by
    obtain ⟨row, hrow, hr⟩ := hocc
    obtain ⟨i, rest, rfl⟩ := List.exists_cons_of_ne_nil hr
    exact List.ne_nil_of_mem ((hmem i).2 ⟨_, hrow, List.mem_cons_self _ _⟩)
  obtain ⟨fuel, s1, t, k, -, hd1, -, -, -, hkt, hrun, hd, -, -, hmin, hsp⟩ :=
    run_completes rows 0 hne
  refine ⟨fuel, t, hrun, hd, hmin, ?_, ?_⟩
  · intro i
    rw [hsp]
    exact hmem i
  · apply stepN_results_ne_nil k hkt hd1 hd
    rw [← (stepN_env k hkt).1.2.2, hmin]
    exact Int.natCast_nonneg _

theorem zero_threshold_runs_witness :
    (∃ row ∈ ([[1, 2], [2]] : List (List Int)), row ≠ []) ∧
      ∃ fuel t, run { init with minSupp := 0 } [[1, 2], [2]] fuel = some t ∧
        t.isDone = true ∧ t.minSupp = 0 ∧
        (∀ i, i ∈ t.sortedPoints ↔ ∃ row ∈ ([[1, 2], [2]] : List (List Int)), i ∈ row) ∧
        t.simplicialComplexes ≠ [] :=
  ⟨by decide, zero_threshold_runs [[1, 2], [2]] (by decide)⟩

/-- C9 (worked example). For the rows `[[1,2,3],[1,2],[2,3],[1,3]]` and the
constructor's `minSupp = 1`: the index is `1 -> [0,1,3]`, `2 -> [0,1,2]`,
`3 -> [0,2,3]`; the Rank Order is `[1,2,3]`; the run finishes, and its results are the
three singletons with support 3 and the four itemsets of more than one item, each with
the number of its common transactions, `[1,2]` with support 2 among them. -/
theorem worked_example :
    (readFile init [[1, 2, 3], [1, 2], [2, 3], [1, 3]]).points =
        [(1, [0, 1, 3]), (2, [0, 1, 2]), (3, [0, 2, 3])] ∧
      (run init [[1, 2, 3], [1, 2], [2, 3], [1, 3]] 7).map
          (fun s => (s.minSupp, s.sortedPoints, s.isDone, s.simplicialComplexes)) =
        some (1, [1, 2, 3], true,
          [([1], 3), ([1, 2], 2), ([1, 2, 3], 1), ([1, 3], 2), ([2], 3), ([2, 3], 2),
            ([3], 3)]) ∧
      ∀ c ∈ ([[1], [2], [3], [1, 2], [1, 3], [2, 3], [1, 2, 3]] : List (List Int)),
        (1 : Int) ≤ ((commonTransactions
          (c.map (posting [(1, [0, 1, 3]), (2, [0, 1, 2]), (3, [0, 2, 3])]))).card : Int) ∧
        (run init [[1, 2, 3], [1, 2], [2, 3], [1, 3]] 7).map
            (fun s => decide ((c, ((commonTransactions
              (c.map (posting [(1, [0, 1, 3]), (2, [0, 1, 2]), (3, [0, 2, 3])]))).card : Int))
                ∈ s.simplicialComplexes)) = some true := by
  decide

/-- C10, the claim refuted. In the table `[[1,2,2],[1]]` item 1 occurs in every row and
`minSupp = 2 - 1`; the run finishes and its result list holds `([1,2], 1)`, an entry
whose support is exactly `minSupp`. -/
theorem support_equal_to_threshold_accepted :
    (∀ row ∈ ([[1, 2, 2], [1]] : List (List Int)), (1 : Int) ∈ row) ∧
      (run { init with minSupp := (([[1, 2, 2], [1]] : List (List Int)).length : Int) - 1 }
          [[1, 2, 2], [1]] 3).map
          (fun s => (s.minSupp, s.isDone, s.simplicialComplexes)) =
        some (1, true, [([1], 2), ([1, 2], 1), ([2], 2)]) := by
  decide

/-- C10 as amended. For a non-empty table in which no row repeats an item and some item
`i` occurs in every row, with `minSupp` the number of rows minus one (the number of rows
fitting an `int`): the run finishes, its result list is not empty, and every result has
support equal to the number of rows, so none has support exactly `minSupp`. -/
theorem full_support_without_repeats (rows : List (List Int)) (i : Int) (hne : rows ≠ [])
    (hnd : ∀ row ∈ rows, row.Nodup) (hall : ∀ row ∈ rows, i ∈ row)
    (hlen : rows.length ≤ 2 ^ 31) :
    ∃ fuel t, run { init with minSupp := (rows.length : Int) - 1 } rows fuel = some t ∧
      t.isDone = true ∧ t.minSupp = (rows.length : Int) - 1 ∧
      t.simplicialComplexes ≠ [] ∧
      ∀ e ∈ t.simplicialComplexes, e.2 = (rows.length : Int) ∧ e.2 ≠ t.minSupp := by
  have hk := keysAscending_readFile rows
  have hpos : 0 < rows.length := List.length_pos.2 hne
  have h0 : (0 : Int) ≤ (rows.length : Int) - 1 := by omega
  have h1 : (rows.length : Int) - 1 < 2 ^ 31 := by
    have : (rows.length : Int) ≤ 2 ^ 31 := by exact_mod_cast hlen
    omega
  have hfull : ∀ x ∈ rankOrder ((rows.length : Int) - 1) (readFile init rows).points,
      mapAt (readFile init rows).points x = some (List.range' 0 rows.length) := by
    intro x hx
    rw [(rankOrder_perm _ _).mem_iff, mem_survivors_keys _ _ hk] at hx
    obtain ⟨l, h2, h3⟩ := hx
    rw [sizeExceeds_iff _ _ h0 h1] at h3
    have hl := mapAt_readFile rows x l h2
    have hsub := occurrences_sublist x rows 0 hnd
    rw [← hl] at hsub
    have : l = List.range' 0 rows.length :=
      hsub.eq_of_length_le (by rw [List.length_range']; omega)
    rw [h2, this]
  have hne' : rankOrder ((rows.length : Int) - 1) (readFile init rows).points ≠ [] := by
    obtain ⟨row, rest, hrows⟩ := List.exists_cons_of_ne_nil hne
    have hrow : row ∈ rows := by rw [hrows]; exact List.mem_cons_self _ _
    have hi : i ∈ rankOrder ((rows.length : Int) - 1) (readFile init rows).points := by
      rw [(rankOrder_perm _ _).mem_iff, mem_survivors_keys _ _ hk]
      refine ⟨_, mapAt_readFile_of_mem rows i row hrow (hall row hrow), ?_⟩
      rw [sizeExceeds_iff _ _ h0 h1]
      have := occurrences_length_ge i rows 0 hall
      omega
    exact List.ne_nil_of_mem hi
  obtain ⟨fuel, s1, t, k, -, hd1, -, hsound1, hshape1, hkt, hrun, hd, hsound, hpts, hmin,
    hsp⟩ := run_completes rows _ hne'
  obtain ⟨henv, -⟩ := stepN_env k hkt
  have hconst := sound_const (List.range' 0 rows.length) hsound (by
    rw [hsp, hpts]; exact hfull)
  have hconst1 := sound_const (List.range' 0 rows.length) hsound1 (by
    rw [← henv.2.1, ← henv.1, hsp, hpts]; exact hfull)
  refine ⟨fuel, t, hrun, hd, hmin, ?_, ?_⟩
  · apply stepN_results_ne_nil k hkt hd1 hd
    rw [interFold_const s1.cones _ hshape1.cones_ne_nil hconst1.1, ← henv.2.2, hmin,
      List.length_range']
    omega
  · intro e he
    have := hconst.2 e he
    rw [List.length_range'] at this
    refine ⟨this, ?_⟩
    rw [this, hmin]
    omega

theorem full_support_without_repeats_witness :
    ([[1, 2], [2, 3], [2]] : List (List Int)) ≠ [] ∧
      (∀ row ∈ ([[1, 2], [2, 3], [2]] : List (List Int)), row.Nodup) ∧
      (∀ row ∈ ([[1, 2], [2, 3], [2]] : List (List Int)), (2 : Int) ∈ row) ∧
      ([[1, 2], [2, 3], [2]] : List (List Int)).length ≤ 2 ^ 31 ∧
      ∃ fuel t,
        run { init with
              minSupp := (([[1, 2], [2, 3], [2]] : List (List Int)).length : Int) - 1 }
            [[1, 2], [2, 3], [2]] fuel = some t ∧
          t.isDone = true ∧
          t.minSupp = (([[1, 2], [2, 3], [2]] : List (List Int)).length : Int) - 1 ∧
          t.simplicialComplexes ≠ [] ∧
          ∀ e ∈ t.simplicialComplexes,
            e.2 = (([[1, 2], [2, 3], [2]] : List (List Int)).length : Int) ∧
              e.2 ≠ t.minSupp :=
  ⟨by decide, by decide, by decide, by decide,
    full_support_without_repeats [[1, 2], [2, 3], [2]] 2
      (by decide) (by decide) (by decide) (by decide)⟩

/-! ## Posting lists are ascending -/

theorem le_of_mem_occurrences (i : Int) (rows : List (List Int)) (n t : Nat)
    (h : t ∈ occurrences i n rows) : n ≤ t := by
  obtain ⟨j, row, -, h2, -⟩ := (mem_occurrences i rows n t).1 h
  omega

theorem occurrences_sorted (i : Int) (rows : List (List Int)) (n : Nat) :
    (occurrences i n rows).Sorted (· ≤ ·) := by
  induction rows generalizing n with
  | nil => simp [occurrences]
  | cons row rows ih =>
    rw [occurrences]
    unfold List.Sorted
    rw [List.pairwise_append]
    refine ⟨?_, ih (n + 1), ?_⟩
    · rw [List.pairwise_replicate]
      right
      exact le_refl n
    · intro a ha b hb
      have h1 := (List.mem_replicate.1 ha).2
      have h2 := le_of_mem_occurrences i rows (n + 1) b hb
      omega

theorem occurrences_strictAsc_iff (i : Int) (rows : List (List Int)) (n : Nat) :
    StrictAsc (occurrences i n rows) ↔ ∀ row ∈ rows, row.count i ≤ 1 := by
  induction rows generalizing n with
  | nil => simp [occurrences, StrictAsc]
  | cons row rows ih =>
    have ih' := ih (n + 1)
    unfold StrictAsc List.Sorted at ih' ⊢
    rw [occurrences, List.pairwise_append, ih', List.pairwise_replicate]
    simp only [List.mem_cons, forall_eq_or_imp, lt_self_iff_false, or_false]
    constructor
    · rintro ⟨h1, h2, -⟩
      exact ⟨h1, h2⟩
    · rintro ⟨h1, h2⟩
      refine ⟨h1, h2, ?_⟩
      intro a ha b hb
      have h3 := (List.mem_replicate.1 ha).2
      have h4 := le_of_mem_occurrences i rows (n + 1) b hb
      omega

/-- C12, the claim refuted. For the data file whose single row lists item 5 twice, the
posting list of item 5 is `[0, 0]`: the row number is recorded once per occurrence, so
the list is not strictly ascending. -/
theorem repeated_item_repeats_row_number :
    mapAt (readFile init [[5, 5]]).points 5 = some [0, 0] ∧ ¬ StrictAsc [0, 0] := by
  decide

/-- C12 as amended. Every posting list that `readFile` builds is ascending (sorted,
a row number possibly repeated), and the posting list of an item is strictly ascending
exactly when no row lists that item more than once. -/
theorem posting_lists_ascending (rows : List (List Int)) (i : Int) (l : List Nat)
    (h : mapAt (readFile init rows).points i = some l) :
    l.Sorted (· ≤ ·) ∧ (StrictAsc l ↔ ∀ row ∈ rows, row.count i ≤ 1) := by
  rw [mapAt_readFile rows i l h]
  exact ⟨occurrences_sorted i rows 0, occurrences_strictAsc_iff i rows 0⟩

theorem posting_lists_ascending_witness :
    mapAt (readFile init [[1, 2], [2, 2, 3]]).points 2 = some [0, 1, 1] ∧
      (([0, 1, 1] : List Nat).Sorted (· ≤ ·) ∧
        (StrictAsc [0, 1, 1] ↔
          ∀ row ∈ ([[1, 2], [2, 2, 3]] : List (List Int)), row.count 2 ≤ 1)) :=
  ⟨by decide, posting_lists_ascending [[1, 2], [2, 2, 3]] 2 [0, 1, 1] (by decide)⟩

/-! ## The traversal is not complete -/

/-- C14 (the traversal is not complete). For the table `[[1,2,3],[1,2,3]]` and
`minSupp = 1` the Rank Order is `[1,2,3]` and the run finishes; the itemset `{1,3}` is
made of ranked items and both rows contain it, yet no result has the items `{1,3}`:
from the cone `[1,2,3]`, whose support 2 exceeds `minSupp`, `createCone` goes on to the
base item 2. -/
theorem traversal_incomplete :
    ∃ (rows : List (List Int)) (minSupp : Int) (itemset : List Int) (t : SimplicialComplex),
      1 ≤ minSupp ∧ run { init with minSupp := minSupp } rows 6 = some t ∧
        t.isDone = true ∧ (∀ x ∈ itemset, x ∈ t.sortedPoints) ∧
        minSupp ≤ (trueSupport rows itemset : Int) ∧
        ∀ e ∈ t.simplicialComplexes, e.1.toFinset ≠ itemset.toFinset :=
  ⟨[[1, 2, 3], [1, 2, 3]], 1, [1, 3], stateTwoFullRows,
    by decide, by decide, by decide, by decide, by decide, by decide⟩

/-! ## The branch taken by `createCone` -/

theorem nextCone_eq_branch (s : SimplicialComplex) :
    nextCone s = (branch s).bind (applyBranch s) := by
  unfold nextCone branch
  cases h1 : s.cone[0]? with
  | none => rfl
  | some c0 =>
    cases h2 : s.sortedPoints[s.sortedPoints.length - 1]? with
    | none => rfl
    | some last =>
      simp only []
      split
      · rfl
      · split
        · rfl
        · split
          · simp [applyBranch, h1]
          · simp [applyBranch, h1]

/-- What the conditions of `createCone` mean in a state of the given shape. -/
theorem shape_guards {u : SimplicialComplex} {b sib : Nat} (h : Shape u b sib) :
    ∃ x last, u.sortedPoints[b]? = some x ∧ u.cone[0]? = some x ∧
      u.sortedPoints.indexOf x = b ∧
      u.sortedPoints[u.sortedPoints.length - 1]? = some last ∧
      (x = last ↔ b + 1 = u.sortedPoints.length) ∧
      u.cone[u.cone.length - 1]? = u.sortedPoints[u.positionInOne]? ∧
      (u.cone[u.cone.length - 1]? ≠ some last ↔
        u.positionInOne + 1 < u.sortedPoints.length) ∧
      (u.cone.length > 1 ↔ sib ≤ u.positionInOne) ∧
      (sib ≤ u.positionInOne → u.cone[1]? = u.sortedPoints[sib]? ∧
        (u.cone[1]? ≠ some last ↔ sib + 1 < u.sortedPoints.length)) := by
  have hsl := h.sib_le
  have hpl := h.pos_lt
  have hbs := h.base_lt
  have hbl : b < u.sortedPoints.length := by omega
  have hx : u.sortedPoints[b]? = some u.sortedPoints[b] := List.getElem?_eq_getElem hbl
  have hn1 : u.sortedPoints.length - 1 < u.sortedPoints.length := by omega
  have hlast : u.sortedPoints[u.sortedPoints.length - 1]? =
      some u.sortedPoints[u.sortedPoints.length - 1] := List.getElem?_eq_getElem hn1
  refine ⟨_, _, hx, ?_, List.indexOf_getElem h.nodup b hbl, hlast, ?_, ?_, ?_, ?_, ?_⟩
  · rw [h.cone_eq, coneAt_zero _ _ _ _ hbl, hx]
  · rw [← getElem?_eq_last_iff _ h.nodup b hbl, hx, hlast, Option.some.injEq]
  · rw [h.cone_eq, coneAt_last _ _ _ _ hbs hsl h.single hpl]
  · rw [h.cone_eq, coneAt_last _ _ _ _ hbs hsl h.single hpl, ← hlast, Ne,
      getElem?_eq_last_iff _ h.nodup _ hpl]
    omega
  · rw [h.cone_eq, coneAt_length _ _ _ _ hbl hpl]
    omega
  · intro hle
    have := coneAt_succ u.sortedPoints b sib u.positionInOne 0 hbl (by omega)
    rw [Nat.add_zero] at this
    refine ⟨by rw [h.cone_eq]; exact this, ?_⟩
    rw [h.cone_eq, this, ← hlast, Ne, getElem?_eq_last_iff _ h.nodup _ (by omega)]
    omega

/-- The branch that a state of the given shape takes, told by the positions. -/
theorem branch_shape {u : SimplicialComplex} {b sib : Nat} (h : Shape u b sib) :
    branch u = some
      (if b + 1 = u.sortedPoints.length then Branch.terminal
       else if u.support > u.minSupp ∧ u.positionInOne + 1 < u.sortedPoints.length then
         Branch.extend
       else if u.support ≤ u.minSupp ∧ sib ≤ u.positionInOne ∧
           sib + 1 < u.sortedPoints.length then Branch.reseedSibling
       else Branch.reseedBase) := by
  obtain ⟨x, last, -, hc0, -, hlast, hbase, -, hback, hlen, hsecond⟩ := shape_guards h
  simp only [branch, hc0, hlast]
  by_cases hb1 : b + 1 = u.sortedPoints.length
  · rw [if_pos (hbase.2 hb1), if_pos hb1]
  · rw [if_neg (fun e => hb1 (hbase.1 e)), if_neg hb1]
    by_cases hext : u.support > u.minSupp ∧ u.positionInOne + 1 < u.sortedPoints.length
    · rw [if_pos ⟨hext.1, hback.2 hext.2⟩, if_pos hext]
    · rw [if_neg (fun e => hext ⟨e.1, hback.1 e.2⟩), if_neg hext]
      by_cases hsib : u.support ≤ u.minSupp ∧ sib ≤ u.positionInOne ∧
          sib + 1 < u.sortedPoints.length
      · rw [if_pos ⟨hsib.1, hlen.2 hsib.2.1, ((hsecond hsib.2.1).2).2 hsib.2.2⟩, if_pos hsib]
      · rw [if_neg, if_neg hsib]
        rintro ⟨e1, e2, e3⟩
        exact hsib ⟨e1, hlen.1 e2, ((hsecond (hlen.1 e2)).2).1 e3⟩

/-- One pass of the loop from a state of the given shape, told by the branch of
`createCone` that is taken. -/
theorem step_branch {s : SimplicialComplex} {b sib : Nat} (h : Shape s b sib) :
    ∃ u t br, countFreq s = some u ∧
      u = { s with support := ((interFold s.cones).length : Int) } ∧
      branch (accept u) = some br ∧ applyBranch (accept u) br = some t ∧
      step s = some t ∧
      (br = Branch.terminal → b + 1 = s.sortedPoints.length ∧ t.isDone = true ∧
        Shape t b sib ∧ t.cone = s.cone) ∧
      (br = Branch.extend → b + 1 < s.sortedPoints.length ∧
        (t.support > s.minSupp ∧ s.positionInOne + 1 < s.sortedPoints.length) ∧
        t.isDone = s.isDone ∧ Shape t b sib ∧ t.positionInOne = s.positionInOne + 1) ∧
      (br = Branch.reseedSibling → b + 1 < s.sortedPoints.length ∧
        (t.support ≤ s.minSupp ∧ sib ≤ s.positionInOne ∧ sib + 1 < s.sortedPoints.length) ∧
        t.isDone = s.isDone ∧ Shape t b (sib + 1) ∧ t.positionInOne = sib + 1) ∧
      (br = Branch.reseedBase → b + 1 < s.sortedPoints.length ∧
        ¬ (t.support > s.minSupp ∧ s.positionInOne + 1 < s.sortedPoints.length) ∧
        ¬ (t.support ≤ s.minSupp ∧ sib ≤ s.positionInOne ∧
            sib + 1 < s.sortedPoints.length) ∧
        t.isDone = s.isDone ∧ Shape t (b + 1) (b + 2) ∧ t.positionInOne = b + 1) := by
  obtain ⟨t, hstep, hcases⟩ := step_shape h
  cases hcf : countFreq s with
  | none => simp [step, hcf] at hstep
  | some u =>
    obtain ⟨-, hu⟩ := countFreq_some hcf
    have hcc : nextCone (accept u) = some t := by
      simpa only [step, hcf, Option.some_bind, createCone] using hstep
    obtain ⟨a1, a2, a3, a4, a5, a6, a7, a8, a9⟩ := accept_fields u
    have u2 : u.sortedPoints = s.sortedPoints := by rw [hu]
    have u3 : u.points = s.points := by rw [hu]
    have u4 : u.positionInOne = s.positionInOne := by rw [hu]
    have u5 : u.count = s.count := by rw [hu]
    have u6 : u.cone = s.cone := by rw [hu]
    have u7 : u.cones = s.cones := by rw [hu]
    have u9 : u.minSupp = s.minSupp := by rw [hu]
    have hsh : Shape (accept u) b sib :=
      h.congr (a2.trans u2) (a3.trans u3) (a4.trans u4) (a5.trans u5) (a6.trans u6)
        (a7.trans u7)
    have hbr := branch_shape hsh
    obtain ⟨-, -, hsup⟩ := nextCone_env hcc
    rw [a2, u2, a4, u4, a9, u9, ← hsup] at hbr
    have happ := hcc
    rw [nextCone_eq_branch, hbr, Option.some_bind] at happ
    rcases hcases with ⟨g1, g2, g3, g4⟩ | ⟨g1, g2, g3, g4, g5⟩ | ⟨g1, g2, g3, g4, g5, g6⟩ |
      ⟨g1, g2, g3, g4, g5, g6⟩
    · rw [if_pos g1] at hbr happ
      exact ⟨u, t, Branch.terminal, rfl, hu, hbr, happ, hstep, fun _ => ⟨g1, g2, g3, g4⟩,
        fun e => absurd e (by decide), fun e => absurd e (by decide),
        fun e => absurd e (by decide)⟩
    · rw [if_neg (by omega), if_pos g2] at hbr happ
      exact ⟨u, t, Branch.extend, rfl, hu, hbr, happ, hstep, fun e => absurd e (by decide),
        fun _ => ⟨g1, g2, g3, g4, g5⟩, fun e => absurd e (by decide),
        fun e => absurd e (by decide)⟩
    · rw [if_neg (by omega), if_neg g2, if_pos g3] at hbr happ
      exact ⟨u, t, Branch.reseedSibling, rfl, hu, hbr, happ, hstep,
        fun e => absurd e (by decide), fun e => absurd e (by decide),
        fun _ => ⟨g1, g3, g4, g5, g6⟩, fun e => absurd e (by decide)⟩
    · rw [if_neg (by omega), if_neg g2, if_neg g3] at hbr happ
      exact ⟨u, t, Branch.reseedBase, rfl, hu, hbr, happ, hstep,
        fun e => absurd e (by decide), fun e => absurd e (by decide),
        fun e => absurd e (by decide), fun _ => ⟨g1, g2, g3, g4, g5, g6⟩⟩

theorem step_shape_next {s t : SimplicialComplex} {b sib : Nat} (h : Shape s b sib)
    (hstep : step s = some t) : ∃ b' sib', Shape t b' sib' ∧ b ≤ b' := by
  obtain ⟨t', ht', hcases⟩ := step_shape h
  rw [hstep] at ht'
  injection ht' with ht'
  subst ht'
  rcases hcases with ⟨-, -, g, -⟩ | ⟨-, -, -, g, -⟩ | ⟨-, -, -, -, g, -⟩ | ⟨-, -, -, -, g, -⟩
  · exact ⟨b, sib, g, le_refl _⟩
  · exact ⟨b, sib, g, le_refl _⟩
  · exact ⟨b, sib + 1, g, le_refl _⟩
  · exact ⟨b + 1, b + 2, g, by omega⟩

theorem stepN_shape (k : Nat) {s t : SimplicialComplex} {b sib : Nat} (h : Shape s b sib)
    (hk : stepN k s = some t) : ∃ b' sib', Shape t b' sib' ∧ b ≤ b' := by
  induction k generalizing s b sib with
  | zero =>
    simp only [stepN, Option.some.injEq] at hk
    subst hk
    exact ⟨b, sib, h, le_refl _⟩
  | succ k ih =>
    rw [stepN] at hk
    split at hk
    · simp at hk
    · cases h1 : step s with
      | none => simp [h1] at hk
      | some u =>
        simp only [h1, Option.some_bind] at hk
        obtain ⟨b1, sib1, hs1, hle1⟩ := step_shape_next h h1
        obtain ⟨b2, sib2, hs2, hle2⟩ := ih hs1 hk
        exact ⟨b2, sib2, hs2, le_trans hle1 hle2⟩

/-- The base position of a state of the given shape. -/
theorem Shape.basePosition_eq {s : SimplicialComplex} {b sib : Nat} (h : Shape s b sib) :
    basePosition s = some b := by
  obtain ⟨x, last, -, hc0, hidx, -⟩ := shape_guards h
  rw [basePosition, hc0, Option.map_some', hidx]

/-- Every state of the loop started on a non-empty Rank Order of distinct items with
posting lists has a shape. -/
theorem start_shape (points : List (Int × List Nat)) (sortedPoints : List Int)
    (minSupp : Int) (hne : sortedPoints ≠ []) (hnd : sortedPoints.Nodup)
    (hidx : ∀ x ∈ sortedPoints, (mapAt points x).isSome = true) :
    ∃ s1, start points sortedPoints minSupp = some s1 ∧ Shape s1 0 1 ∧
      s1.isDone = false ∧ s1.simplicialComplexes = [] ∧ s1.positionInOne = 0 ∧
      s1.points = points ∧ s1.sortedPoints = sortedPoints ∧ s1.minSupp = minSupp ∧
      Sound s1 := by
  have hidx' : ∀ x ∈ sortedPoints, ∃ l, mapAt points x = some l :=
    fun x hx => Option.isSome_iff_exists.1 (hidx x hx)
  obtain ⟨s1, h1, hshape, henv, hdone, hres, hpos, -, -⟩ :=
    zeroSimplex_shape { init with points := points, sortedPoints := sortedPoints,
                                  minSupp := minSupp } rfl rfl hne hnd hidx'
  obtain ⟨hsound, -⟩ := zeroSimplex_sound rfl rfl hidx' h1
  exact ⟨s1, h1, hshape, hdone, hres, hpos, henv.1, henv.2.1, henv.2.2, hsound⟩

theorem reach_shape (points : List (Int × List Nat)) (sortedPoints : List Int)
    (minSupp : Int) (hne : sortedPoints ≠ []) (hnd : sortedPoints.Nodup)
    (hidx : ∀ x ∈ sortedPoints, (mapAt points x).isSome = true) (k : Nat)
    (s : SimplicialComplex) (h : reach points sortedPoints minSupp k = some s) :
    ∃ b sib, Shape s b sib ∧ s.points = points ∧ s.sortedPoints = sortedPoints ∧
      s.minSupp = minSupp ∧ Sound s := by
  obtain ⟨s1, h1, hshape, -, -, -, hp, hsp, hm, hsound⟩ :=
    start_shape points sortedPoints minSupp hne hnd hidx
  rw [reach, h1, Option.some_bind] at h
  obtain ⟨b, sib, hs, -⟩ := stepN_shape k hshape h
  obtain ⟨henv, -⟩ := stepN_env k h
  obtain ⟨hsound', -⟩ := stepN_sound k h hsound
  exact ⟨b, sib, hs, henv.1.trans hp, henv.2.1.trans hsp, henv.2.2.trans hm, hsound'⟩

/-! ## Claims on the branches of `createCone` -/

/-- C13 (base cursor monotonicity). Let the loop run on a non-empty Rank Order of
distinct items with posting lists, and let `s` be the state after any number of passes.
A pass of the loop body from `s` succeeds; if `b` is the rank position of the base item
`cone[0]` before it, the rank position after it is `b + 1` when `createCone` takes
Reseed-base and `b` when it takes any other branch. In every state that the loop
reaches later the rank position of the base item is at least `b`. -/
theorem base_position_monotone (points : List (Int × List Nat)) (sortedPoints : List Int)
    (minSupp : Int) (hne : sortedPoints ≠ []) (hnd : sortedPoints.Nodup)
    (hidx : ∀ x ∈ sortedPoints, (mapAt points x).isSome = true) (k : Nat)
    (s : SimplicialComplex) (hreach : reach points sortedPoints minSupp k = some s) :
    ∃ u t br b, countFreq s = some u ∧ branch (accept u) = some br ∧ step s = some t ∧
      basePosition s = some b ∧
      basePosition t = some (if br = Branch.reseedBase then b + 1 else b) ∧
      ∀ j t', stepN j s = some t' → ∃ b', basePosition t' = some b' ∧ b ≤ b' := by
  obtain ⟨b, sib, hs, -⟩ := reach_shape points sortedPoints minSupp hne hnd hidx k s hreach
  obtain ⟨u, t, br, hcf, -, hbr, -, hstep, c1, c2, c3, c4⟩ := step_branch hs
  refine ⟨u, t, br, b, hcf, hbr, hstep, hs.basePosition_eq, ?_, ?_⟩
  · cases br with
    | terminal => rw [if_neg (by decide)]; exact (c1 rfl).2.2.1.basePosition_eq
    | extend => rw [if_neg (by decide)]; exact (c2 rfl).2.2.2.1.basePosition_eq
    | reseedSibling => rw [if_neg (by decide)]; exact (c3 rfl).2.2.2.1.basePosition_eq
    | reseedBase => rw [if_pos rfl]; exact (c4 rfl).2.2.2.2.1.basePosition_eq
  · intro j t' hj
    obtain ⟨b', sib', hs', hle⟩ := stepN_shape j hs hj
    exact ⟨b', hs'.basePosition_eq, hle⟩

theorem base_position_monotone_witness :
    ([1, 2, 3] : List Int) ≠ [] ∧ ([1, 2, 3] : List Int).Nodup ∧
      (∀ x ∈ ([1, 2, 3] : List Int),
        (mapAt [(1, [0, 1, 3]), (2, [0, 1, 2]), (3, [0, 2, 3])] x).isSome = true) ∧
      reach [(1, [0, 1, 3]), (2, [0, 1, 2]), (3, [0, 2, 3])] [1, 2, 3] 1 3 =
        some stateSibling ∧
      ∃ u t br b, countFreq stateSibling = some u ∧ branch (accept u) = some br ∧
        step stateSibling = some t ∧ basePosition stateSibling = some b ∧
        basePosition t = some (if br = Branch.reseedBase then b + 1 else b) ∧
        ∀ j t', stepN j stateSibling = some t' →
          ∃ b', basePosition t' = some b' ∧ b ≤ b' :=
  ⟨by decide, by decide, by decide, by decide,
    base_position_monotone [(1, [0, 1, 3]), (2, [0, 1, 2]), (3, [0, 2, 3])] [1, 2, 3] 1
      (by decide) (by decide) (by decide) 3 stateSibling (by decide)⟩

/-- C15, the claim refuted. On the index of the table `[[1,2,3],[1,2,3]]` with Rank
Order `[1,2,3]` and `minSupp = 1`, the state after two passes has the cone `[1,2,3]`
with support 2. `createCone` takes Reseed-base there, although the cone has three items
and its second item, 2, is not the last item, 3, of the Rank Order. -/
theorem reseed_base_with_siblings_left :
    (reach [(1, [0, 1]), (2, [0, 1]), (3, [0, 1])] [1, 2, 3] 1 2).map
        (fun s => (s.cone, s.isDone, s.sortedPoints[s.sortedPoints.length - 1]?)) =
      some ([1, 2, 3], false, some 3) ∧
    ((reach [(1, [0, 1]), (2, [0, 1]), (3, [0, 1])] [1, 2, 3] 1 2).bind countFreq).map
        (fun u => (branch (accept u), u.support, u.minSupp, u.cone.length, u.cone[1]?)) =
      some (some Branch.reseedBase, 2, 1, 3, some 2) := by
  decide

/-- C15 as amended. In every state that the loop reaches on a non-empty Rank Order of
distinct items with posting lists, when `createCone` takes the Reseed-base branch the
base item is not the last item of the Rank Order, and either the support is at most
`minSupp` and the cone is a single item or has the last item of the Rank Order as its
second item, or the support exceeds `minSupp` and the cone has more than one item, the
last of which is the last item of the Rank Order. -/
theorem reseed_base_condition (points : List (Int × List Nat)) (sortedPoints : List Int)
    (minSupp : Int) (hne : sortedPoints ≠ []) (hnd : sortedPoints.Nodup)
    (hidx : ∀ x ∈ sortedPoints, (mapAt points x).isSome = true) (k : Nat)
    (s u : SimplicialComplex) (hreach : reach points sortedPoints minSupp k = some s)
    (hcount : countFreq s = some u)
    (hbase : branch (accept u) = some Branch.reseedBase) :
    ∃ last, sortedPoints[sortedPoints.length - 1]? = some last ∧
      u.cone[0]? ≠ some last ∧
      ((u.support ≤ minSupp ∧ (u.cone.length = 1 ∨ u.cone[1]? = some last)) ∨
       (u.support > minSupp ∧ 1 < u.cone.length ∧
          u.cone[u.cone.length - 1]? = some last)) := by
  obtain ⟨b, sib, hs, -, hsp, hm, -⟩ :=
    reach_shape points sortedPoints minSupp hne hnd hidx k s hreach
  obtain ⟨u', t, br, hcf, hu, hbr, -, hstep, -, -, -, c4⟩ := step_branch hs
  rw [hcount] at hcf
  injection hcf with hcf
  subst hcf
  rw [hbase] at hbr
  injection hbr with hbr
  obtain ⟨g1, g2, g3, -, -, -⟩ := c4 hbr.symm
  have hsupt : t.support = u.support := by
    rw [(step_results hstep).2.2.1, hu]
  have hcone : u.cone = s.cone := by rw [hu]
  obtain ⟨x, last, -, hc0, -, hlast, hbl, -, hback, hlen, hsecond⟩ := shape_guards hs
  have hl := coneAt_length s.sortedPoints b sib s.positionInOne (by omega) hs.pos_lt
  rw [← hs.cone_eq] at hl
  have hsingle := hs.single
  have hsl := hs.sib_le
  rw [hsupt, hm] at g2 g3
  rw [hsp] at hlast hbl hback hsecond g1 g2 g3
  rw [hcone]
  refine ⟨last, hlast, ?_, ?_⟩
  · rw [hc0, Ne, Option.some.injEq, hbl]
    omega
  · by_cases hsup : u.support ≤ minSupp
    · left
      refine ⟨hsup, ?_⟩
      by_cases hle : sib ≤ s.positionInOne
      · right
        have h1 : ¬ sib + 1 < sortedPoints.length := fun e => g3 ⟨hsup, hle, e⟩
        by_contra hne'
        exact h1 ((hsecond hle).2.1 hne')
      · left
        omega
    · right
      have hgt : u.support > minSupp := by omega
      have h1 : ¬ s.positionInOne + 1 < sortedPoints.length := fun e => g2 ⟨hgt, e⟩
      refine ⟨hgt, ?_, ?_⟩
      · by_contra hlen1
        have : s.positionInOne + 1 = sib := by omega
        have := hsingle this
        omega
      · by_contra hne'
        exact h1 (hback.1 hne')

theorem reseed_base_condition_witness :
    ([1, 2, 3] : List Int) ≠ [] ∧ ([1, 2, 3] : List Int).Nodup ∧
      (∀ x ∈ ([1, 2, 3] : List Int),
        (mapAt [(1, [0, 1, 3]), (2, [0, 1, 2]), (3, [0, 2, 3])] x).isSome = true) ∧
      reach [(1, [0, 1, 3]), (2, [0, 1, 2]), (3, [0, 2, 3])] [1, 2, 3] 1 3 =
        some stateSibling ∧
      countFreq stateSibling = some { stateSibling with support := 2 } ∧
      branch (accept { stateSibling with support := 2 }) = some Branch.reseedBase ∧
      ∃ last, ([1, 2, 3] : List Int)[([1, 2, 3] : List Int).length - 1]? = some last ∧
        ({ stateSibling with support := 2 } : SimplicialComplex).cone[0]? ≠ some last ∧
        ((({ stateSibling with support := 2 } : SimplicialComplex).support ≤ 1 ∧
            (({ stateSibling with support := 2 } : SimplicialComplex).cone.length = 1 ∨
              ({ stateSibling with support := 2 } : SimplicialComplex).cone[1]? =
                some last)) ∨
          (({ stateSibling with support := 2 } : SimplicialComplex).support > 1 ∧
            1 < ({ stateSibling with support := 2 } : SimplicialComplex).cone.length ∧
            ({ stateSibling with support := 2 } : SimplicialComplex).cone[
              ({ stateSibling with support := 2 } : SimplicialComplex).cone.length - 1]? =
                some last)) :=
  ⟨by decide, by decide, by decide, by decide, by decide, by decide,
    reseed_base_condition [(1, [0, 1, 3]), (2, [0, 1, 2]), (3, [0, 2, 3])] [1, 2, 3] 1
      (by decide) (by decide) (by decide) 3 stateSibling { stateSibling with support := 2 }
      (by decide) (by decide) (by decide)⟩

/-- C16 (index safety). In every state `s` that the loop reaches on a non-empty Rank
Order of distinct items with posting lists: `cone[0]` exists; the cone's last item is
`sortedPoints[positionInOne]`, a position inside the Rank Order; when the cone has more
than one item, `cone[1]` is `sortedPoints[(rank index of base) + count - 1]`, again
inside the Rank Order. A pass of the loop body from `s` succeeds: `countFreq` finds
`cones[0]`, `createCone` finds `cone[0]` and the last item of the Rank Order, and the
branch it takes finds what it reads, namely `sortedPoints[positionInOne + 1]` and its
posting list in Extend, `cone[1]`, `sortedPoints[(rank index of base) + count]` and
the two posting lists in Reseed-sibling, `sortedPoints[(rank index of base) + 1]` and
its posting list in Reseed-base. -/
theorem accesses_in_range (points : List (Int × List Nat)) (sortedPoints : List Int)
    (minSupp : Int) (hne : sortedPoints ≠ []) (hnd : sortedPoints.Nodup)
    (hidx : ∀ x ∈ sortedPoints, (mapAt points x).isSome = true) (k : Nat)
    (s : SimplicialComplex) (hreach : reach points sortedPoints minSupp k = some s) :
    (∃ c0 p, s.cone[0]? = some c0 ∧ sortedPoints[s.positionInOne]? = some p ∧
        s.cone[s.cone.length - 1]? = some p ∧
        (1 < s.cone.length →
          ∃ q, sortedPoints[sortedPoints.indexOf c0 + s.count - 1]? = some q ∧
            s.cone[1]? = some q)) ∧
      ∃ u t br c0 last, countFreq s = some u ∧ (accept u).cone[0]? = some c0 ∧
        sortedPoints[sortedPoints.length - 1]? = some last ∧
        branch (accept u) = some br ∧ applyBranch (accept u) br = some t ∧
        step s = some t ∧
        (br = Branch.extend →
          ∃ p l, sortedPoints[(accept u).positionInOne + 1]? = some p ∧
            mapAt points p = some l) ∧
        (br = Branch.reseedSibling →
          ∃ c1 q l0 l1, (accept u).cone[1]? = some c1 ∧
            sortedPoints[sortedPoints.indexOf c0 + (accept u).count]? = some q ∧
            mapAt points c0 = some l0 ∧ mapAt points q = some l1) ∧
        (br = Branch.reseedBase →
          ∃ p l, sortedPoints[sortedPoints.indexOf c0 + 1]? = some p ∧
            mapAt points p = some l) := by
  obtain ⟨b, sib, hs, hp, hsp, -, -⟩ :=
    reach_shape points sortedPoints minSupp hne hnd hidx k s hreach
  obtain ⟨x, last, hx, hc0, hix, hlast, -, hbackeq, -, hlen, hsecond⟩ := shape_guards hs
  have hpl := hs.pos_lt
  have hcnt := hs.count_eq
  have hbs := hs.base_lt
  constructor
  · refine ⟨x, s.sortedPoints[s.positionInOne], hc0, ?_, ?_, ?_⟩
    · rw [← hsp]; exact List.getElem?_eq_getElem hpl
    · rw [hbackeq]; exact List.getElem?_eq_getElem hpl
    · intro h1
      have hle := hlen.1 h1
      have hsl : sib < s.sortedPoints.length := by omega
      refine ⟨s.sortedPoints[sib], ?_, ?_⟩
      · rw [← hsp, hix, hcnt]
        have : b + (sib - b + 1) - 1 = sib := by omega
        rw [this]
        exact List.getElem?_eq_getElem hsl
      · rw [(hsecond hle).1]
        exact List.getElem?_eq_getElem hsl
  · obtain ⟨u, t, br, hcf, hu, hbr, happ, hstep, -, -, -, -⟩ := step_branch hs
    obtain ⟨-, a2, a3, -, -, a6, -, -, -⟩ := accept_fields u
    have u2 : (accept u).sortedPoints = sortedPoints := by rw [a2, hu]; exact hsp
    have u3 : (accept u).points = points := by rw [a3, hu]; exact hp
    have u6 : (accept u).cone = s.cone := by rw [a6, hu]
    have hc0' : (accept u).cone[0]? = some x := by rw [u6]; exact hc0
    refine ⟨u, t, br, x, last, hcf, hc0', by rw [← hsp]; exact hlast, hbr, happ, hstep,
      ?_, ?_, ?_⟩
    · intro e
      subst e
      obtain ⟨p, l, h1, h2, -⟩ := extend_some (show extend (accept u) = some t from happ)
      rw [u2] at h1
      rw [u3] at h2
      exact ⟨p, l, h1, h2⟩
    · intro e
      subst e
      have h0 : reseedSibling (accept u) x = some t := by
        have := happ
        simp only [applyBranch, hc0', Option.some_bind] at this
        exact this
      obtain ⟨q, l0, l1, h1, h2, h3, -⟩ := reseedSibling_some h0
      rw [u2] at h1
      rw [u3] at h2 h3
      have hbr' := hbr
      simp only [branch, hc0', u2, ← hsp, hlast] at hbr'
      have hlen1 : 1 < (accept u).cone.length := by
        by_contra hcon
        split at hbr'
        · simp at hbr'
        · split at hbr'
          · simp at hbr'
          · rw [if_neg (fun e => hcon e.2.1)] at hbr'
            simp at hbr'
      refine ⟨(accept u).cone[1], q, l0, l1, List.getElem?_eq_getElem hlen1, h1, h2, h3⟩
    · intro e
      subst e
      have h0 : reseedBase (accept u) x = some t := by
        have := happ
        simp only [applyBranch, hc0', Option.some_bind] at this
        exact this
      obtain ⟨p, l, h1, h2, -⟩ := reseedBase_some h0
      rw [u2] at h1
      rw [u3] at h2
      exact ⟨p, l, h1, h2⟩

theorem accesses_in_range_witness :
    ([1, 2, 3] : List Int) ≠ [] ∧ ([1, 2, 3] : List Int).Nodup ∧
      (∀ x ∈ ([1, 2, 3] : List Int),
        (mapAt [(1, [0, 1, 3]), (2, [0, 1, 2]), (3, [0, 2, 3])] x).isSome = true) ∧
      reach [(1, [0, 1, 3]), (2, [0, 1, 2]), (3, [0, 2, 3])] [1, 2, 3] 1 3 =
        some stateSibling ∧
      ((∃ c0 p, stateSibling.cone[0]? = some c0 ∧
          ([1, 2, 3] : List Int)[stateSibling.positionInOne]? = some p ∧
          stateSibling.cone[stateSibling.cone.length - 1]? = some p ∧
          (1 < stateSibling.cone.length →
            ∃ q, ([1, 2, 3] : List Int)[([1, 2, 3] : List Int).indexOf c0 +
                stateSibling.count - 1]? = some q ∧
              stateSibling.cone[1]? = some q)) ∧
        ∃ u t br c0 last, countFreq stateSibling = some u ∧
          (accept u).cone[0]? = some c0 ∧
          ([1, 2, 3] : List Int)[([1, 2, 3] : List Int).length - 1]? = some last ∧
          branch (accept u) = some br ∧ applyBranch (accept u) br = some t ∧
          step stateSibling = some t ∧
          (br = Branch.extend →
            ∃ p l, ([1, 2, 3] : List Int)[(accept u).positionInOne + 1]? = some p ∧
              mapAt [(1, [0, 1, 3]), (2, [0, 1, 2]), (3, [0, 2, 3])] p = some l) ∧
          (br = Branch.reseedSibling →
            ∃ c1 q l0 l1, (accept u).cone[1]? = some c1 ∧
              ([1, 2, 3] : List Int)[([1, 2, 3] : List Int).indexOf c0 +
                (accept u).count]? = some q ∧
              mapAt [(1, [0, 1, 3]), (2, [0, 1, 2]), (3, [0, 2, 3])] c0 = some l0 ∧
              mapAt [(1, [0, 1, 3]), (2, [0, 1, 2]), (3, [0, 2, 3])] q = some l1) ∧
          (br = Branch.reseedBase →
            ∃ p l, ([1, 2, 3] : List Int)[([1, 2, 3] : List Int).indexOf c0 + 1]? = some p ∧
              mapAt [(1, [0, 1, 3]), (2, [0, 1, 2]), (3, [0, 2, 3])] p = some l)) :=
  ⟨by decide, by decide, by decide, by decide,
    accesses_in_range [(1, [0, 1, 3]), (2, [0, 1, 2]), (3, [0, 2, 3])] [1, 2, 3] 1
      (by decide) (by decide) (by decide) 3 stateSibling (by decide)⟩

/-! ## The cones that a run tests -/

theorem Shape.validCone {s : SimplicialComplex} {b sib : Nat} (h : Shape s b sib) :
    ValidCone s.sortedPoints s.cone b sib s.positionInOne :=
  ⟨h.base_lt, h.sib_le, h.single, h.pos_lt, h.cone_eq⟩

theorem validCone_potential (r : List Int) (c : List Int) (b sib pos : Nat) (hnd : r.Nodup)
    (h : ValidCone r c b sib pos) : conePotential r c = potential r.length b sib pos := by
  obtain ⟨h1, h2, h3, h4, h5⟩ := h
  have hbl : b < r.length := by omega
  have hlen := coneAt_length r b sib pos hbl h4
  have h0 := coneAt_zero r b sib pos hbl
  have hl := coneAt_last r b sib pos h1 h2 h3 h4
  rw [List.getElem?_eq_getElem hbl] at h0
  rw [List.getElem?_eq_getElem h4] at hl
  subst h5
  rw [conePotential, h0, hl, hlen, Option.getD_some, Option.getD_some,
    List.indexOf_getElem hnd b hbl, List.indexOf_getElem hnd pos h4]
  congr 1
  omega

theorem coneAt_sublist (r : List Int) (b sib pos : Nat) (hb : b < sib)
    (hbl : b < r.length) : (coneAt r b sib pos).Sublist r := by
  have h1 : ((r.take (pos + 1)).drop sib).Sublist (r.drop (b + 1)) := by
    have e : r.drop sib = (r.drop (b + 1)).drop (sib - (b + 1)) := by
      rw [List.drop_drop]
      congr 1
      omega
    have h2 : ((r.take (pos + 1)).drop sib).Sublist (r.drop sib) :=
      List.Sublist.drop (List.take_sublist _ _) sib
    rw [e] at h2
    exact h2.trans (List.drop_sublist _ _)
  have h3 : r.drop b = r[b] :: r.drop (b + 1) := List.drop_eq_getElem_cons hbl
  rw [coneAt, List.getElem?_eq_getElem hbl, Option.toList_some, List.singleton_append]
  have h4 : (r[b] :: (r.take (pos + 1)).drop sib).Sublist (r.drop b) := by
    rw [h3]
    exact h1.cons₂ _
  exact h4.trans (List.drop_sublist _ _)

theorem nodup_pairwise_indexOf (r : List Int) (hnd : r.Nodup) :
    r.Pairwise (fun a b => r.indexOf a < r.indexOf b) := by
  rw [List.pairwise_iff_getElem]
  intro i j hi hj hij
  rw [List.indexOf_getElem hnd i hi, List.indexOf_getElem hnd j hj]
  exact hij

theorem validCone_sorted (r : List Int) (c : List Int) (b sib pos : Nat) (hnd : r.Nodup)
    (h : ValidCone r c b sib pos) :
    c.Nodup ∧ (c.map (fun x => r.indexOf x)).Sorted (· < ·) ∧ ∀ x ∈ c, x ∈ r := by
  obtain ⟨h1, h2, h3, h4, h5⟩ := h
  have hsub : c.Sublist r := by
    rw [h5]; exact coneAt_sublist r b sib pos h1 (by omega)
  refine ⟨hnd.sublist hsub, ?_, fun x hx => hsub.subset hx⟩
  unfold List.Sorted
  rw [List.pairwise_map]
  exact (nodup_pairwise_indexOf r hnd).sublist hsub

theorem validCone_form (r : List Int) (c : List Int) (b sib pos : Nat)
    (h : ValidCone r c b sib pos) : ConeForm r c := by
  obtain ⟨h1, h2, h3, h4, h5⟩ := h
  have hbl : b < r.length := by omega
  refine ⟨b, r[b], List.getElem?_eq_getElem hbl, ?_⟩
  by_cases hs : pos + 1 = sib
  · left
    have := h3 hs
    have hp : pos = b := by omega
    rw [h5, this, hp]
    exact coneAt_single r b r[b] (List.getElem?_eq_getElem hbl)
  · right
    refine ⟨sib, pos - sib, h1, by omega, ?_⟩
    rw [h5, coneAt, List.getElem?_eq_getElem hbl, Option.toList_some, List.singleton_append,
      List.drop_take]
    congr 2
    omega

/-- The trace invariant is kept by every pass of the loop. -/
theorem step_trace {s t : SimplicialComplex} {b sib : Nat} (h : Shape s b sib)
    (hloop : s.isDone = false) (htr : Trace s b sib) (hstep : step s = some t) :
    ∃ b' sib', Shape t b' sib' ∧ Trace t b' sib' := by
  obtain ⟨henv, -, -, hres⟩ := step_results hstep
  have hsp : t.sortedPoints = s.sortedPoints := henv.2.1
  have hpot := validCone_potential _ _ _ _ _ h.nodup h.validCone
  obtain ⟨tr1, tr2, tr3⟩ := htr
  have tr3' := tr3 hloop
  -- the results after the pass
  have hvalid : ∀ e ∈ t.simplicialComplexes,
      ∃ b' sib' pos', ValidCone t.sortedPoints e.1 b' sib' pos' := by
    intro e he
    rw [hsp]
    rw [hres, List.mem_append] at he
    rcases he with he | he
    · exact tr1 e he
    · split at he
      · rw [List.mem_singleton] at he
        subst he
        exact ⟨b, sib, s.positionInOne, h.validCone⟩
      · simp at he
  have hsorted : (t.simplicialComplexes.map
      (fun e => conePotential t.sortedPoints e.1)).Sorted (· > ·) := by
    rw [hsp, hres, List.map_append]
    unfold List.Sorted at tr2 ⊢
    rw [List.pairwise_append]
    refine ⟨tr2, ?_, ?_⟩
    · split <;> simp
    · intro x hx y hy
      obtain ⟨e, he, rfl⟩ := List.mem_map.1 hx
      split at hy
      · simp only [List.map_cons, List.map_nil, List.mem_singleton] at hy
        subst hy
        show conePotential s.sortedPoints e.1 > conePotential s.sortedPoints s.cone
        rw [hpot]
        exact tr3' e he
      · simp at hy
  have hbound : ∀ b' sib', potential s.sortedPoints.length b' sib' t.positionInOne <
      potential s.sortedPoints.length b sib s.positionInOne →
      ∀ e ∈ t.simplicialComplexes, conePotential t.sortedPoints e.1 >
        potential t.sortedPoints.length b' sib' t.positionInOne := by
    intro b' sib' hlt e he
    rw [hsp]
    rw [hres, List.mem_append] at he
    rcases he with he | he
    · exact lt_trans hlt (tr3' e he)
    · split at he
      · rw [List.mem_singleton] at he
        subst he
        show conePotential s.sortedPoints s.cone > _
        rw [hpot]
        exact hlt
      · simp at he
  obtain ⟨t', ht', hcases⟩ := step_shape h
  rw [hstep] at ht'
  injection ht' with ht'
  subst ht'
  rcases hcases with ⟨-, g1, g2, -⟩ | ⟨-, g1, -, g2, g3⟩ | ⟨-, -, g1, -, g2, g3⟩ |
    ⟨g0, -, -, -, g2, g3⟩
  · refine ⟨b, sib, g2, hvalid, hsorted, ?_⟩
    intro hd
    rw [g1] at hd
    simp at hd
  · refine ⟨b, sib, g2, hvalid, hsorted, fun _ => hbound b sib ?_⟩
    rw [g3]
    exact potential_extend _ _ _ _ g1.2
  · refine ⟨b, sib + 1, g2, hvalid, hsorted, fun _ => hbound b (sib + 1) ?_⟩
    rw [g3]
    exact potential_sibling _ _ _ _ g1.2.2 h.pos_lt
  · refine ⟨b + 1, b + 2, g2, hvalid, hsorted, fun _ => hbound (b + 1) (b + 2) ?_⟩
    rw [g3]
    exact potential_base _ _ _ _ g0

theorem stepN_trace (k : Nat) {s t : SimplicialComplex} {b sib : Nat} (h : Shape s b sib)
    (htr : Trace s b sib) (hk : stepN k s = some t) :
    ∃ b' sib', Shape t b' sib' ∧ Trace t b' sib' := by
  induction k generalizing s b sib with
  | zero =>
    simp only [stepN, Option.some.injEq] at hk
    subst hk
    exact ⟨b, sib, h, htr⟩
  | succ k ih =>
    rw [stepN] at hk
    split at hk
    · simp at hk
    · rename_i hnd
      cases h1 : step s with
      | none => simp [h1] at hk
      | some u =>
        simp only [h1, Option.some_bind] at hk
        obtain ⟨b1, sib1, hs1, ht1⟩ := step_trace h (by simpa using hnd) htr h1
        exact ih hs1 ht1 hk

theorem reach_trace (points : List (Int × List Nat)) (sortedPoints : List Int)
    (minSupp : Int) (hne : sortedPoints ≠ []) (hnd : sortedPoints.Nodup)
    (hidx : ∀ x ∈ sortedPoints, (mapAt points x).isSome = true) (k : Nat)
    (s : SimplicialComplex) (h : reach points sortedPoints minSupp k = some s) :
    ∃ b sib, Shape s b sib ∧ Trace s b sib ∧ s.sortedPoints = sortedPoints := by
  obtain ⟨s1, h1, hshape, -, hres, -, -, hsp, -, -⟩ :=
    start_shape points sortedPoints minSupp hne hnd hidx
  rw [reach, h1, Option.some_bind] at h
  have htr : Trace s1 0 1 := by
    refine ⟨?_, ?_, ?_⟩
    · intro e he; rw [hres] at he; simp at he
    · rw [hres]; simp
    · intro _ e he; rw [hres] at he; simp at he
  obtain ⟨b, sib, hs, ht⟩ := stepN_trace k hshape htr h
  exact ⟨b, sib, hs, ht, (stepN_env k h).1.2.1.trans hsp⟩

/-- The loop started on a non-empty Rank Order of distinct items with posting lists
comes to an end. -/
theorem reach_done (points : List (Int × List Nat)) (sortedPoints : List Int)
    (minSupp : Int) (hne : sortedPoints ≠ []) (hnd : sortedPoints.Nodup)
    (hidx : ∀ x ∈ sortedPoints, (mapAt points x).isSome = true) :
    ∃ k t, reach points sortedPoints minSupp k = some t ∧ t.isDone = true ∧
      (start points sortedPoints minSupp).bind (runLoop k) = some t := by
  obtain ⟨s1, h1, hshape, hdone, -⟩ := start_shape points sortedPoints minSupp hne hnd hidx
  obtain ⟨k, t, -, hkt, hd⟩ := terminates_of_shape _ s1 0 1 hshape hdone (le_refl _)
  refine ⟨k, t, ?_, hd, ?_⟩
  · rw [reach, h1, Option.some_bind]; exact hkt
  · rw [h1, Option.some_bind]; exact runLoop_of_stepN k hkt hd k (le_refl _)

theorem map_indexOf_inj (r : List Int) (l l' : List Int) (hl : ∀ x ∈ l, x ∈ r)
    (hl' : ∀ x ∈ l', x ∈ r)
    (h : l.map (fun x => r.indexOf x) = l'.map (fun x => r.indexOf x)) : l = l' := by
  induction l generalizing l' with
  | nil =>
    cases l' with
    | nil => rfl
    | cons y l' => simp at h
  | cons x l ih =>
    cases l' with
    | nil => simp at h
    | cons y l' =>
      simp only [List.map_cons, List.cons.injEq] at h
      have hx : x ∈ r := hl x (List.mem_cons_self _ _)
      have hy : y ∈ r := hl' y (List.mem_cons_self _ _)
      have hxy : x = y := (List.indexOf_inj hx hy).1 h.1
      rw [hxy, ih l' (fun z hz => hl z (List.mem_cons_of_mem _ hz))
        (fun z hz => hl' z (List.mem_cons_of_mem _ hz)) h.2]

/-- Two cones of one Rank Order with the same items are the same list. -/
theorem validCone_eq_of_toFinset_eq (r : List Int) (hnd : r.Nodup) (c c' : List Int)
    (b sib pos b' sib' pos' : Nat) (h : ValidCone r c b sib pos)
    (h' : ValidCone r c' b' sib' pos') (hset : c.toFinset = c'.toFinset) : c = c' := by
  obtain ⟨n1, s1, m1⟩ := validCone_sorted r c b sib pos hnd h
  obtain ⟨n2, s2, m2⟩ := validCone_sorted r c' b' sib' pos' hnd h'
  have hperm : c.Perm c' := List.perm_of_nodup_nodup_toFinset_eq n1 n2 hset
  have hmap := hperm.map (fun x => r.indexOf x)
  exact map_indexOf_inj r c c' m1 m2 (List.eq_of_perm_of_sorted hmap s1 s2)

/-! ## Claims on the cones of a run -/

/-- C17 (shape of every tested cone). In every state that the loop reaches on a
non-empty Rank Order `r` of distinct items with posting lists, the cone is a single
item `[r[b]]` or has the form `[r[b], r[s], r[s+1], ..., r[s+j]]` with `b < s`; so has
the itemset of every result, and both the cone and every emitted itemset list their
items in strictly increasing rank position, without a repeated item. -/
theorem tested_cone_form (points : List (Int × List Nat)) (sortedPoints : List Int)
    (minSupp : Int) (hne : sortedPoints ≠ []) (hnd : sortedPoints.Nodup)
    (hidx : ∀ x ∈ sortedPoints, (mapAt points x).isSome = true) (k : Nat)
    (s : SimplicialComplex) (hreach : reach points sortedPoints minSupp k = some s) :
    (ConeForm sortedPoints s.cone ∧
        (s.cone.map (fun x => sortedPoints.indexOf x)).Sorted (· < ·) ∧ s.cone.Nodup) ∧
      ∀ e ∈ s.simplicialComplexes,
        ConeForm sortedPoints e.1 ∧
          (e.1.map (fun x => sortedPoints.indexOf x)).Sorted (· < ·) ∧ e.1.Nodup := by
  obtain ⟨b, sib, hs, ⟨tr1, -, -⟩, hsp⟩ :=
    reach_trace points sortedPoints minSupp hne hnd hidx k s hreach
  rw [hsp] at tr1
  have hv := hs.validCone
  rw [hsp] at hv
  constructor
  · obtain ⟨h1, h2, -⟩ := validCone_sorted _ _ _ _ _ hnd hv
    exact ⟨validCone_form _ _ _ _ _ hv, h2, h1⟩
  · intro e he
    obtain ⟨b', sib', pos', hv'⟩ := tr1 e he
    obtain ⟨h1, h2, -⟩ := validCone_sorted _ _ _ _ _ hnd hv'
    exact ⟨validCone_form _ _ _ _ _ hv', h2, h1⟩

theorem tested_cone_form_witness :
    ([1, 2, 3] : List Int) ≠ [] ∧ ([1, 2, 3] : List Int).Nodup ∧
      (∀ x ∈ ([1, 2, 3] : List Int),
        (mapAt [(1, [0, 1, 3]), (2, [0, 1, 2]), (3, [0, 2, 3])] x).isSome = true) ∧
      reach [(1, [0, 1, 3]), (2, [0, 1, 2]), (3, [0, 2, 3])] [1, 2, 3] 1 3 =
        some stateSibling ∧
      ((ConeForm [1, 2, 3] stateSibling.cone ∧
          (stateSibling.cone.map (fun x => ([1, 2, 3] : List Int).indexOf x)).Sorted
            (· < ·) ∧
          stateSibling.cone.Nodup) ∧
        ∀ e ∈ stateSibling.simplicialComplexes,
          ConeForm [1, 2, 3] e.1 ∧
            (e.1.map (fun x => ([1, 2, 3] : List Int).indexOf x)).Sorted (· < ·) ∧
            e.1.Nodup) :=
  ⟨by decide, by decide, by decide, by decide,
    tested_cone_form [(1, [0, 1, 3]), (2, [0, 1, 2]), (3, [0, 2, 3])] [1, 2, 3] 1
      (by decide) (by decide) (by decide) 3 stateSibling (by decide)⟩

/-- C18 (no itemset is emitted twice). On a non-empty Rank Order of distinct items with
posting lists the loop comes to an end, and in the state it ends in, as in every state
it reaches before, the itemsets of the result list are pairwise distinct, as lists and
as sets of items. -/
theorem no_itemset_emitted_twice (points : List (Int × List Nat)) (sortedPoints : List Int)
    (minSupp : Int) (hne : sortedPoints ≠ []) (hnd : sortedPoints.Nodup)
    (hidx : ∀ x ∈ sortedPoints, (mapAt points x).isSome = true) :
    (∃ k t, reach points sortedPoints minSupp k = some t ∧ t.isDone = true) ∧
      ∀ k t, reach points sortedPoints minSupp k = some t →
        (t.simplicialComplexes.map Prod.fst).Nodup ∧
          t.simplicialComplexes.Pairwise (fun e e' => e.1.toFinset ≠ e'.1.toFinset) := by
  constructor
  · obtain ⟨k, t, h1, h2, -⟩ := reach_done points sortedPoints minSupp hne hnd hidx
    exact ⟨k, t, h1, h2⟩
  · intro k t hreach
    obtain ⟨b, sib, hs, ⟨tr1, tr2, -⟩, hsp⟩ :=
      reach_trace points sortedPoints minSupp hne hnd hidx k t hreach
    rw [hsp] at tr1 tr2
    have hnodup : (t.simplicialComplexes.map Prod.fst).Nodup := by
      have h1 : (t.simplicialComplexes.map
          (fun e => conePotential sortedPoints e.1)).Nodup :=
        List.Sorted.nodup tr2
      have h2 : t.simplicialComplexes.map (fun e => conePotential sortedPoints e.1) =
          (t.simplicialComplexes.map Prod.fst).map (conePotential sortedPoints) := by
        rw [List.map_map]
        rfl
      rw [h2] at h1
      exact List.Nodup.of_map _ h1
    refine ⟨hnodup, ?_⟩
    have hpw : (t.simplicialComplexes.map Prod.fst).Pairwise (· ≠ ·) := hnodup
    rw [List.pairwise_map] at hpw
    refine List.Pairwise.imp_of_mem ?_ hpw
    intro e e' he he' hne' hset
    obtain ⟨b1, s1, p1, v1⟩ := tr1 e he
    obtain ⟨b2, s2, p2, v2⟩ := tr1 e' he'
    exact hne' (validCone_eq_of_toFinset_eq sortedPoints hnd _ _ _ _ _ _ _ _ v1 v2 hset)

theorem no_itemset_emitted_twice_witness :
    ([1, 2, 3] : List Int) ≠ [] ∧ ([1, 2, 3] : List Int).Nodup ∧
      (∀ x ∈ ([1, 2, 3] : List Int),
        (mapAt [(1, [0, 1, 3]), (2, [0, 1, 2]), (3, [0, 2, 3])] x).isSome = true) ∧
      (reach [(1, [0, 1, 3]), (2, [0, 1, 2]), (3, [0, 2, 3])] [1, 2, 3] 1 7).map
          (fun t => (t.isDone, t.simplicialComplexes.map Prod.fst)) =
        some (true, [[1], [1, 2], [1, 2, 3], [1, 3], [2], [2, 3], [3]]) ∧
      ((∃ k t, reach [(1, [0, 1, 3]), (2, [0, 1, 2]), (3, [0, 2, 3])] [1, 2, 3] 1 k =
          some t ∧ t.isDone = true) ∧
        ∀ k t, reach [(1, [0, 1, 3]), (2, [0, 1, 2]), (3, [0, 2, 3])] [1, 2, 3] 1 k =
            some t →
          (t.simplicialComplexes.map Prod.fst).Nodup ∧
            t.simplicialComplexes.Pairwise
              (fun e e' => e.1.toFinset ≠ e'.1.toFinset)) :=
  ⟨by decide, by decide, by decide, by decide,
    no_itemset_emitted_twice [(1, [0, 1, 3]), (2, [0, 1, 2]), (3, [0, 2, 3])] [1, 2, 3] 1
      (by decide) (by decide) (by decide)⟩

/-! ## The one-item itemsets of a run -/

theorem singles_append (l₁ l₂ : List (List Int × Int)) :
    singles (l₁ ++ l₂) = singles l₁ ++ singles l₂ := by
  simp [singles]

theorem postingLists_single {points : List (Int × List Nat)} {x : Int}
    {L : List (List Nat)} (h : PostingLists points [x] L) :
    ∃ l, L = [l] ∧ mapAt points x = some l := by
  unfold PostingLists at h
  cases h with
  | cons h1 h2 =>
    cases h2
    exact ⟨_, rfl, h1⟩

theorem take_succ_map (r : List Int) (b : Nat) (hb : b < r.length)
    (f : Int → List Int × Int) :
    (r.take (b + 1)).map f = (r.take b).map f ++ [f r[b]] := by
  rw [List.take_succ, List.getElem?_eq_getElem hb, Option.toList_some, List.map_append]
  rfl

/-- The results of one pass from a state whose cone is a single item whose posting
list is at least as long as `minSupp`. -/
theorem step_results_single {s t : SimplicialComplex} {b sib : Nat} (h : Shape s b sib)
    (hsingle : sib = s.positionInOne + 1)
    (hsurv : ∀ x ∈ s.sortedPoints, s.minSupp ≤ ((posting s.points x).length : Int))
    (hstep : step s = some t) :
    ∃ hb : b < s.sortedPoints.length,
      t.simplicialComplexes =
        s.simplicialComplexes ++ [singleEntry s.points s.sortedPoints[b]] := by
  have hs1 := h.single hsingle.symm
  have hpos : s.positionInOne = b := by omega
  have hb : b < s.sortedPoints.length := by rw [← hpos]; exact h.pos_lt
  have hcone : s.cone = [s.sortedPoints[b]] := by
    rw [h.cone_eq, hs1, hpos]
    exact coneAt_single _ _ _ (List.getElem?_eq_getElem hb)
  have hpar := h.parallel
  unfold Parallel at hpar
  rw [hcone] at hpar
  obtain ⟨l, hl, hm⟩ := postingLists_single hpar
  have hfold : interFold s.cones = l := by rw [hl]; rfl
  have hpost : posting s.points s.sortedPoints[b] = l := by rw [posting, hm]; rfl
  obtain ⟨-, -, -, hres⟩ := step_results hstep
  have hacc := hsurv _ (List.getElem_mem hb)
  rw [hpost] at hacc
  rw [hfold, if_pos hacc, hcone] at hres
  refine ⟨hb, ?_⟩
  rw [hres, singleEntry, hpost]

/-- The results of one pass from a state whose cone has more than one item: no one-item
itemset is added. -/
theorem step_results_multi {s t : SimplicialComplex} {b sib : Nat} (h : Shape s b sib)
    (hmulti : sib ≤ s.positionInOne) (hstep : step s = some t) :
    ∃ new, t.simplicialComplexes = s.simplicialComplexes ++ new ∧ singles new = [] := by
  obtain ⟨-, -, -, hres⟩ := step_results hstep
  have hlen := coneAt_length s.sortedPoints b sib s.positionInOne
    (by have := h.base_lt; have := h.pos_lt; omega) h.pos_lt
  rw [← h.cone_eq] at hlen
  have hne1 : s.cone.length ≠ 1 := by omega
  refine ⟨_, hres, ?_⟩
  split
  · simp [singles, hne1]
  · rfl

/-- The invariant on the one-item results is kept by every pass of the loop. -/
theorem step_singles {s t : SimplicialComplex} {b sib : Nat} (h : Shape s b sib)
    (hloop : s.isDone = false)
    (hsurv : ∀ x ∈ s.sortedPoints, s.minSupp ≤ ((posting s.points x).length : Int))
    (hinv : SinglesInv s b sib) (hstep : step s = some t) :
    ∃ b' sib', Shape t b' sib' ∧ SinglesInv t b' sib' := by
  obtain ⟨henv, -, -, -⟩ := step_results hstep
  have hsp : t.sortedPoints = s.sortedPoints := henv.2.1
  have hpts : t.points = s.points := henv.1
  obtain ⟨i1, i2, -⟩ := hinv
  rw [hloop] at i1
  simp only [Bool.false_eq_true, if_false] at i1
  have hbs := h.base_lt
  have hsl := h.sib_le
  have hpl := h.pos_lt
  have hbl : b < s.sortedPoints.length := by omega
  obtain ⟨t', ht', hcases⟩ := step_shape h
  rw [hstep] at ht'
  injection ht' with ht'
  subst ht'
  by_cases hsingle : sib = s.positionInOne + 1
  · -- the cone is a single item
    obtain ⟨hb', hres⟩ := step_results_single h hsingle hsurv hstep
    rw [if_pos hsingle] at i1
    have hsing : singles t.simplicialComplexes =
        (s.sortedPoints.take (b + 1)).map (singleEntry s.points) := by
      rw [hres, singles_append, i1, take_succ_map _ _ hbl]
      simp [singles, singleEntry]
    have hhead : t.simplicialComplexes.head? =
        (s.sortedPoints.head?).map (singleEntry s.points) := by
      cases hold : s.simplicialComplexes with
      | nil =>
        rw [hold] at i1
        have hb0 : b = 0 := by
          have h0 : ((s.sortedPoints.take b).map (singleEntry s.points)).length = 0 := by
            rw [← i1]; rfl
          rw [List.length_map, List.length_take] at h0
          omega
        subst hb0
        rw [hres, hold, List.nil_append, List.head?_cons, List.head?_eq_getElem?,
          List.getElem?_eq_getElem hbl]
        rfl
      | cons e rest =>
        rw [hold] at i2
        rcases i2 with i2 | i2
        · simp at i2
        · rw [hres, hold]
          exact i2
    have hlast : t.simplicialComplexes.getLast? =
        some (singleEntry s.points s.sortedPoints[b]) := by
      rw [hres]
      simp
    have mk : ∀ b' sib', (if t.isDone then s.sortedPoints.length
        else if sib' = t.positionInOne + 1 then b' else b' + 1) = b + 1 →
        (t.isDone = true → b + 1 = s.sortedPoints.length) → SinglesInv t b' sib' := by
      intro b' sib' hparam hd
      refine ⟨?_, Or.inr ?_, ?_⟩
      · rw [hsp, hpts, hparam]; exact hsing
      · rw [hsp, hpts]; exact hhead
      · intro hdone
        have hn := hd hdone
        rw [hsp, hpts, hlast, List.getLast?_eq_getElem?]
        have : s.sortedPoints.length - 1 = b := by omega
        rw [this, List.getElem?_eq_getElem hbl]
        rfl
    rcases hcases with ⟨g0, g1, g2, -⟩ | ⟨-, -, g1, g2, g3⟩ | ⟨-, -, g1, -⟩ |
      ⟨-, -, -, g1, g2, g3⟩
    · exact ⟨b, sib, g2, mk b sib (by rw [g1, if_pos rfl, g0]) (fun _ => g0)⟩
    · refine ⟨b, sib, g2, mk b sib ?_ ?_⟩
      · rw [g1, hloop, g3]
        simp only [Bool.false_eq_true, if_false]
        rw [if_neg (by omega)]
      · intro hd; rw [g1, hloop] at hd; simp at hd
    · omega
    · refine ⟨b + 1, b + 2, g2, mk (b + 1) (b + 2) ?_ ?_⟩
      · rw [g1, hloop, g3]
        simp
      · intro hd; rw [g1, hloop] at hd; simp at hd
  · -- the cone has more than one item
    have hmulti : sib ≤ s.positionInOne := by omega
    obtain ⟨new, hres, hnew⟩ := step_results_multi h hmulti hstep
    rw [if_neg hsingle] at i1
    have hsing : singles t.simplicialComplexes =
        (s.sortedPoints.take (b + 1)).map (singleEntry s.points) := by
      rw [hres, singles_append, i1, hnew, List.append_nil]
    have hold : s.simplicialComplexes ≠ [] := by
      intro e
      rw [e] at i1
      have h0 : ((s.sortedPoints.take (b + 1)).map (singleEntry s.points)).length = 0 := by
        rw [← i1]; rfl
      rw [List.length_map, List.length_take] at h0
      omega
    have hhead : t.simplicialComplexes.head? =
        (s.sortedPoints.head?).map (singleEntry s.points) := by
      obtain ⟨e, rest, hcons⟩ := List.exists_cons_of_ne_nil hold
      rw [hcons] at i2
      rcases i2 with i2 | i2
      · simp at i2
      · rw [hres, hcons]
        exact i2
    have mk : ∀ b' sib', (if t.isDone then s.sortedPoints.length
        else if sib' = t.positionInOne + 1 then b' else b' + 1) = b + 1 →
        t.isDone = false → SinglesInv t b' sib' := by
      intro b' sib' hparam hd
      refine ⟨?_, Or.inr ?_, ?_⟩
      · rw [hsp, hpts, hparam]; exact hsing
      · rw [hsp, hpts]; exact hhead
      · intro hdone
        rw [hd] at hdone
        simp at hdone
    rcases hcases with ⟨g0, -, -, -⟩ | ⟨-, -, g1, g2, g3⟩ | ⟨-, -, -, g1, g2, g3⟩ |
      ⟨-, -, -, g1, g2, g3⟩
    · omega
    · refine ⟨b, sib, g2, mk b sib ?_ (g1.trans hloop)⟩
      rw [g1, hloop, g3]
      simp only [Bool.false_eq_true, if_false]
      rw [if_neg (by omega)]
    · refine ⟨b, sib + 1, g2, mk b (sib + 1) ?_ (g1.trans hloop)⟩
      rw [g1, hloop, g3]
      simp only [Bool.false_eq_true, if_false]
      rw [if_neg (by omega)]
    · refine ⟨b + 1, b + 2, g2, mk (b + 1) (b + 2) ?_ (g1.trans hloop)⟩
      rw [g1, hloop, g3]
      simp

theorem stepN_singles (k : Nat) {s t : SimplicialComplex} {b sib : Nat} (h : Shape s b sib)
    (hsurv : ∀ x ∈ s.sortedPoints, s.minSupp ≤ ((posting s.points x).length : Int))
    (hinv : SinglesInv s b sib) (hk : stepN k s = some t) :
    ∃ b' sib', Shape t b' sib' ∧ SinglesInv t b' sib' := by
  induction k generalizing s b sib with
  | zero =>
    simp only [stepN, Option.some.injEq] at hk
    subst hk
    exact ⟨b, sib, h, hinv⟩
  | succ k ih =>
    rw [stepN] at hk
    split at hk
    · simp at hk
    · rename_i hnd
      cases h1 : step s with
      | none => simp [h1] at hk
      | some u =>
        simp only [h1, Option.some_bind] at hk
        obtain ⟨b1, sib1, hs1, hi1⟩ := step_singles h (by simpa using hnd) hsurv hinv h1
        obtain ⟨henv, -⟩ := step_results h1
        refine ih hs1 ?_ hi1 hk
        rw [henv.1, henv.2.1, henv.2.2]
        exact hsurv

/-- The one-item results of a complete run from an initial state: the singletons of all
ranked items in rank order, the first result and the last result among them. -/
theorem singles_of_shape (s1 : SimplicialComplex) (hshape : Shape s1 0 1)
    (hd : s1.isDone = false) (hres : s1.simplicialComplexes = [])
    (hpos : s1.positionInOne = 0)
    (hsurv : ∀ x ∈ s1.sortedPoints, s1.minSupp ≤ ((posting s1.points x).length : Int)) :
    ∃ k t, stepN k s1 = some t ∧ t.isDone = true ∧ runLoop k s1 = some t ∧
      t.sortedPoints = s1.sortedPoints ∧
      singles t.simplicialComplexes = s1.sortedPoints.map (singleEntry s1.points) ∧
      t.simplicialComplexes.head? = (s1.sortedPoints.head?).map (singleEntry s1.points) ∧
      t.simplicialComplexes.getLast? =
        (s1.sortedPoints.getLast?).map (singleEntry s1.points) := by
  obtain ⟨k, t, -, hkt, hdone⟩ := terminates_of_shape _ s1 0 1 hshape hd (le_refl _)
  have hinv1 : SinglesInv s1 0 1 := by
    refine ⟨?_, Or.inl ?_, ?_⟩
    · rw [hres, hd, hpos]
      simp [singles]
    · rw [hres]; rfl
    · intro h; rw [hd] at h; simp at h
  obtain ⟨b, sib, hs, i1, i2, i3⟩ := stepN_singles k hshape hsurv hinv1 hkt
  obtain ⟨henv, -⟩ := stepN_env k hkt
  rw [henv.1, henv.2.1] at i1 i2 i3
  rw [hdone, if_pos rfl, List.take_length] at i1
  have hn : 0 < s1.sortedPoints.length := hshape.pos_lt.trans_le' (Nat.zero_le _)
  refine ⟨k, t, hkt, hdone, runLoop_of_stepN k hkt hdone k (le_refl _), henv.2.1, i1, ?_,
    i3 hdone⟩
  rcases i2 with i2 | i2
  · exfalso
    have hnil : t.simplicialComplexes = [] := List.head?_eq_none_iff.1 i2
    rw [hnil] at i1
    have h0 : (s1.sortedPoints.map (singleEntry s1.points)).length = 0 := by
      rw [← i1]; rfl
    rw [List.length_map] at h0
    omega
  · exact i2

theorem survivors_accepted (points : List (Int × List Nat)) (minSupp : Int)
    (hk : KeysAscending points) (hm : minSupp < 2 ^ 31) :
    ∀ x ∈ rankOrder minSupp points, minSupp ≤ ((posting points x).length : Int) := by
  intro x hx
  have := (rankOrder_perm minSupp points).subset hx
  obtain ⟨kv, h1, rfl⟩ := List.mem_map.1 this
  obtain ⟨h2, h3⟩ := List.mem_filter.1 h1
  by_cases hneg : minSupp < 0
  · have : (0 : Int) ≤ ((posting points kv.1).length : Int) := Int.natCast_nonneg _
    omega
  · have hmap : mapAt points kv.1 = some kv.2 := mapAt_of_mem _ _ _ hk h2
    have hlt := (sizeExceeds_iff kv.2.length minSupp (by omega) hm).1 h3
    rw [posting, hmap, Option.getD_some]
    omega

/-! ## Claims on the one-item itemsets -/

/-- C19 (every surviving singleton is reported, in rank order). For a well-formed index
and a threshold below the upper end of `int`, when `firstStep` succeeds, that is when
the Rank Order `r` it builds is non-empty, the loop comes to an end, and in the result
list the one-item itemsets are exactly `[r[0]], [r[1]], ..., [r[n-1]]` in this order,
each with the length of the item's posting list as its support; the first result is the
singleton of the first ranked item and the last result is the singleton of the last
ranked item. -/
theorem singletons_reported (points : List (Int × List Nat)) (minSupp : Int)
    (hk : KeysAscending points) (hm : minSupp < 2 ^ 31) (s1 : SimplicialComplex)
    (hfirst : firstStep { init with points := points, minSupp := minSupp } = some s1) :
    s1.sortedPoints ≠ [] ∧
      ∃ fuel t, runLoop fuel s1 = some t ∧ t.isDone = true ∧
        t.sortedPoints = s1.sortedPoints ∧
        singles t.simplicialComplexes = s1.sortedPoints.map (singleEntry points) ∧
        t.simplicialComplexes.head? = (s1.sortedPoints.head?).map (singleEntry points) ∧
        t.simplicialComplexes.getLast? =
          (s1.sortedPoints.getLast?).map (singleEntry points) := by
  have hperm := rankOrder_perm minSupp points
  have hnd : (rankOrder minSupp points).Nodup :=
    hperm.nodup_iff.2 (survivors_keys_nodup minSupp _ hk)
  have hidx := rankOrder_indexed minSupp points
  have hne : rankOrder minSupp points ≠ [] := by
    intro e
    have := firstStep_eq { init with points := points, minSupp := minSupp } rfl rfl
    rw [hfirst] at this
    simp only [zeroSimplex, e] at this
    simp at this
  obtain ⟨s1', h1, hshape, henv, hdone, hres, hpos, -, -⟩ :=
    zeroSimplex_shape
      { ({ init with points := points, minSupp := minSupp } : SimplicialComplex) with
        frequencyOfPoints := sort (prune minSupp points),
        sortedPoints := rankOrder minSupp points }
      rfl rfl hne hnd hidx
  have hf := firstStep_eq { init with points := points, minSupp := minSupp } rfl rfl
  have hsame : s1' = s1 := by
    have := hf.symm.trans hfirst
    rw [show ({ init with points := points, minSupp := minSupp } :
        SimplicialComplex).minSupp = minSupp from rfl,
      show ({ init with points := points, minSupp := minSupp } :
        SimplicialComplex).points = points from rfl] at this
    rw [h1] at this
    injection this
  subst hsame
  have hsp : s1'.sortedPoints = rankOrder minSupp points := henv.2.1
  have hp : s1'.points = points := henv.1
  have hmin : s1'.minSupp = minSupp := henv.2.2
  obtain ⟨k, t, -, hd, hrun, g1, g2, g3, g4⟩ :=
    singles_of_shape s1' hshape hdone hres hpos (by
      rw [hsp, hp, hmin]; exact survivors_accepted points minSupp hk hm)
  rw [hp] at g2 g3 g4
  exact ⟨by rw [hsp]; exact hne, k, t, hrun, hd, g1, g2, g3, g4⟩

theorem singletons_reported_witness :
    KeysAscending [(1, [0, 1, 3]), (2, [0, 1, 2]), (3, [0, 2, 3])] ∧
      (1 : Int) < 2 ^ 31 ∧
      firstStep { init with points := [(1, [0, 1, 3]), (2, [0, 1, 2]), (3, [0, 2, 3])],
                            minSupp := 1 } = some stateFirst ∧
      (stateFirst.sortedPoints ≠ [] ∧
        ∃ fuel t, runLoop fuel stateFirst = some t ∧ t.isDone = true ∧
          t.sortedPoints = stateFirst.sortedPoints ∧
          singles t.simplicialComplexes =
            stateFirst.sortedPoints.map
              (singleEntry [(1, [0, 1, 3]), (2, [0, 1, 2]), (3, [0, 2, 3])]) ∧
          t.simplicialComplexes.head? =
            (stateFirst.sortedPoints.head?).map
              (singleEntry [(1, [0, 1, 3]), (2, [0, 1, 2]), (3, [0, 2, 3])]) ∧
          t.simplicialComplexes.getLast? =
            (stateFirst.sortedPoints.getLast?).map
              (singleEntry [(1, [0, 1, 3]), (2, [0, 1, 2]), (3, [0, 2, 3])])) :=
  ⟨by decide, by decide, by decide,
    singletons_reported [(1, [0, 1, 3]), (2, [0, 1, 2]), (3, [0, 2, 3])] 1
      (by decide) (by decide) stateFirst (by decide)⟩

/-- C11, the claim refuted. On the index of the table `[[1,2,3],[1,2,3]]` with
`minSupp = 1` the Rank Orders `[1,2,3]` and `[1,3,2]` list the same items, all with
posting lists of length 2. The run on `[1,2,3]` emits `[1,2]` and no itemset with the
items `{1,3}`; the run on `[1,3,2]` emits `[1,3]` and no itemset with the items
`{1,2}`. -/
theorem tie_break_changes_itemsets :
    ([1, 2, 3] : List Int).Perm [1, 3, 2] ∧
      (∀ R ∈ ([[1, 2, 3], [1, 3, 2]] : List (List Int)),
        R.Pairwise (fun a b =>
          (posting [(1, [0, 1]), (2, [0, 1]), (3, [0, 1])] b).length ≤
            (posting [(1, [0, 1]), (2, [0, 1]), (3, [0, 1])] a).length)) ∧
      (reach [(1, [0, 1]), (2, [0, 1]), (3, [0, 1])] [1, 2, 3] 1 6).map
          (fun t => (t.isDone, t.simplicialComplexes.map Prod.fst)) =
        some (true, [[1], [1, 2], [1, 2, 3], [2], [2, 3], [3]]) ∧
      (reach [(1, [0, 1]), (2, [0, 1]), (3, [0, 1])] [1, 3, 2] 1 6).map
          (fun t => (t.isDone, t.simplicialComplexes.map Prod.fst)) =
        some (true, [[1], [1, 3], [1, 3, 2], [3], [3, 2], [2]]) ∧
      (∃ c ∈ ([[1], [1, 2], [1, 2, 3], [2], [2, 3], [3]] : List (List Int)),
        c.toFinset = ([1, 2] : List Int).toFinset) ∧
      ∀ c ∈ ([[1], [1, 3], [1, 3, 2], [3], [3, 2], [2]] : List (List Int)),
        c.toFinset ≠ ([1, 2] : List Int).toFinset := by
  decide

/-- C11 as amended. For any index and threshold and any two Rank Orders that list the
same items, each once, each with a posting list in the index that is at least as long
as `minSupp`: both runs come to an end, and their one-item results are the same entries,
the singleton of every ranked item with the length of its posting list as support, each
run giving them in its own rank order. -/
theorem singletons_independent_of_order (points : List (Int × List Nat))
    (R₁ R₂ : List Int) (minSupp : Int) (hperm : R₁.Perm R₂) (hne : R₁ ≠ [])
    (hnd : R₁.Nodup) (hidx : ∀ x ∈ R₁, (mapAt points x).isSome = true)
    (hsurv : ∀ x ∈ R₁, minSupp ≤ ((posting points x).length : Int)) :
    ∃ k₁ t₁ k₂ t₂, reach points R₁ minSupp k₁ = some t₁ ∧ t₁.isDone = true ∧
      reach points R₂ minSupp k₂ = some t₂ ∧ t₂.isDone = true ∧
      singles t₁.simplicialComplexes = R₁.map (singleEntry points) ∧
      singles t₂.simplicialComplexes = R₂.map (singleEntry points) ∧
      (singles t₁.simplicialComplexes).Perm (singles t₂.simplicialComplexes) := by
  have key : ∀ R : List Int, R ≠ [] → R.Nodup →
      (∀ x ∈ R, (mapAt points x).isSome = true) →
      (∀ x ∈ R, minSupp ≤ ((posting points x).length : Int)) →
      ∃ k t, reach points R minSupp k = some t ∧ t.isDone = true ∧
        singles t.simplicialComplexes = R.map (singleEntry points) := by
    intro R h1 h2 h3 h4
    obtain ⟨s1, hs1, hshape, hdone, hres, hpos, hp, hsp, hm, -⟩ :=
      start_shape points R minSupp h1 h2 h3
    obtain ⟨k, t, hkt, hd, -, -, g2, -, -⟩ :=
      singles_of_shape s1 hshape hdone hres hpos (by rw [hsp, hp, hm]; exact h4)
    rw [hsp, hp] at g2
    exact ⟨k, t, by rw [reach, hs1, Option.some_bind]; exact hkt, hd, g2⟩
  obtain ⟨k₁, t₁, a1, a2, a3⟩ := key R₁ hne hnd hidx hsurv
  obtain ⟨k₂, t₂, b1, b2, b3⟩ := key R₂
    (fun e => hne (List.Perm.eq_nil (e ▸ hperm)))
    (hperm.nodup_iff.1 hnd)
    (fun x hx => hidx x (hperm.mem_iff.2 hx))
    (fun x hx => hsurv x (hperm.mem_iff.2 hx))
  refine ⟨k₁, t₁, k₂, t₂, a1, a2, b1, b2, a3, b3, ?_⟩
  rw [a3, b3]
  exact hperm.map _

theorem singletons_independent_of_order_witness :
    ([1, 2, 3] : List Int).Perm [1, 3, 2] ∧ ([1, 2, 3] : List Int) ≠ [] ∧
      ([1, 2, 3] : List Int).Nodup ∧
      (∀ x ∈ ([1, 2, 3] : List Int),
        (mapAt [(1, [0, 1]), (2, [0, 1]), (3, [0, 1])] x).isSome = true) ∧
      (∀ x ∈ ([1, 2, 3] : List Int),
        (1 : Int) ≤ ((posting [(1, [0, 1]), (2, [0, 1]), (3, [0, 1])] x).length : Int)) ∧
      ∃ k₁ t₁ k₂ t₂,
        reach [(1, [0, 1]), (2, [0, 1]), (3, [0, 1])] [1, 2, 3] 1 k₁ = some t₁ ∧
        t₁.isDone = true ∧
        reach [(1, [0, 1]), (2, [0, 1]), (3, [0, 1])] [1, 3, 2] 1 k₂ = some t₂ ∧
        t₂.isDone = true ∧
        singles t₁.simplicialComplexes =
          ([1, 2, 3] : List Int).map
            (singleEntry [(1, [0, 1]), (2, [0, 1]), (3, [0, 1])]) ∧
        singles t₂.simplicialComplexes =
          ([1, 3, 2] : List Int).map
            (singleEntry [(1, [0, 1]), (2, [0, 1]), (3, [0, 1])]) ∧
        (singles t₁.simplicialComplexes).Perm (singles t₂.simplicialComplexes) :=
  ⟨by decide, by decide, by decide, by decide, by decide,
    singletons_independent_of_order [(1, [0, 1]), (2, [0, 1]), (3, [0, 1])]
      [1, 2, 3] [1, 3, 2] 1 (by decide) (by decide) (by decide) (by decide) (by decide)⟩

end SimplicialComplex
